import Mathlib

/-!
# Work-stealing queues of `src/wsqueue.c`

A shallow embedding of the two work-stealing queues of `src/wsqueue.c`
(the Chase-Lev queue `ws_queue_*` and the idempotent queue `idemp_ws_queue_*`).

* A task handle (`void *`) is an address, a natural number; `NULL` is `0`.
* `ws_array_t` is a buffer (memory contents by slot number) and a capacity.
* `top` and `bottom` are `int64_t` in the code and integers here; the model
  covers the runs in which they stay inside the 64-bit range.  The type of
  `capacity` is declared in `wsqueue.h`; the test `b - t > a->capacity - 1` and
  the slot `b % a->capacity` are read on integers, which is what C computes,
  whatever that type, when `0 ≤ top ≤ bottom` and `capacity ≥ 1`.  The fields of
  `ws_anchor_t` are declared in `wsqueue.h` too; they are natural numbers here
  and the model covers the runs in which no field wraps around.
* Executions are sequentially consistent: the accesses of the threads are
  interleaved, each one atomic; fences and memory orders are not modelled.
* Every function is given twice: as the whole call run without interference
  (`ws_queue_push`, ...), and split at its shared-memory accesses into a step
  function on a program counter (`push_step`, ...), from which the interleaved
  executions of an owner and its thieves are built.
-/

namespace WSQueue

/-- A task handle: the address held in a `void *`. -/
abbrev Ptr := Nat

/-- The null pointer. -/
def NULL : Ptr := 0

/-- The record `ws_array_t`: `buffer` gives the contents of each slot. -/
structure ws_array_t where
  buffer : Nat → Ptr
  capacity : Nat

/-- The record `ws_queue_t` of the Chase-Lev queue. -/
structure ws_queue_t where
  top : Int
  bottom : Int
  array : ws_array_t

/-- The record `ws_anchor_t`. -/
structure ws_anchor_t where
  head : Nat
  size : Nat
  tag : Nat
deriving DecidableEq

/-- The record `idemp_ws_queue_t` of the idempotent queue. -/
structure idemp_ws_queue_t where
  anchor : ws_anchor_t
  array : ws_array_t

/-- The slot number `i % capacity` of C for an `int64_t` index `i`
(remainder of the division truncated towards zero). -/
def slot (i : Int) (capacity : Nat) : Nat :=
  (Int.tmod i (capacity : Int)).toNat

/-- The store `a->buffer[k] = v`. -/
def ws_array_t.store (a : ws_array_t) (k : Nat) (v : Ptr) : ws_array_t :=
  { a with buffer := Function.update a.buffer k v }

/-- The call `jl_atomic_cmpswap(&q->top, &t, desired)`: the new queue and whether
the exchange took place. -/
def cmpswap_top (q : ws_queue_t) (t desired : Int) : ws_queue_t × Bool :=
  if q.top = t then ({ q with top := desired }, true) else (q, false)

/-- The call `jl_atomic_cmpswap(&iwsq->anchor, &anc, anc2)`. -/
def cmpswap_anchor (q : idemp_ws_queue_t) (anc anc2 : ws_anchor_t) :
    idemp_ws_queue_t × Bool :=
  if q.anchor = anc then ({ q with anchor := anc2 }, true) else (q, false)

/-! ## The calls run without interference -/

/-- The function `ws_queue_push`. -/
def ws_queue_push (q : ws_queue_t) (v : Ptr) : ws_queue_t × Int :=
  let b := q.bottom
  let t := q.top
  let a := q.array
  if b - t > (a.capacity : Int) - 1 then
    (q, 0)
  else
    let q1 := { q with array := a.store (slot b a.capacity) v }
    ({ q1 with bottom := b + 1 }, 1)

/-- The function `ws_queue_pop`. -/
def ws_queue_pop (q : ws_queue_t) : ws_queue_t × Ptr :=
  let b := q.bottom - 1
  let a := q.array
  let q1 := { q with bottom := b }
  let t := q1.top
  if t ≤ b then
    let v := a.buffer (slot b a.capacity)
    if t = b then
      let r := cmpswap_top q1 t (t + 1)
      let v := if r.2 then v else NULL
      ({ r.1 with bottom := b + 1 }, v)
    else
      (q1, v)
  else
    ({ q1 with bottom := b + 1 }, NULL)

/-- The function `ws_queue_steal_from`. -/
def ws_queue_steal_from (q : ws_queue_t) : ws_queue_t × Ptr :=
  let t := q.top
  let b := q.bottom
  if t < b then
    let a := q.array
    let v := a.buffer (slot t a.capacity)
    let r := cmpswap_top q t (t + 1)
    if r.2 then (r.1, v) else (r.1, NULL)
  else
    (q, NULL)

/-- The function `idemp_ws_queue_push`. -/
def idemp_ws_queue_push (iwsq : idemp_ws_queue_t) (elt : Ptr) : idemp_ws_queue_t × Int :=
  let anc := iwsq.anchor
  let ary := iwsq.array
  if anc.size = ary.capacity then
    (iwsq, 0)
  else
    let ary1 := ary.store ((anc.head + anc.size) % ary.capacity) elt
    let anc1 : ws_anchor_t := { anc with size := anc.size + 1, tag := anc.tag + 1 }
    ({ anchor := anc1, array := ary1 }, 1)

/-- The function `idemp_ws_queue_pop`. -/
def idemp_ws_queue_pop (iwsq : idemp_ws_queue_t) : idemp_ws_queue_t × Ptr :=
  let anc := iwsq.anchor
  let ary := iwsq.array
  if anc.size = 0 then
    (iwsq, NULL)
  else
    let anc1 : ws_anchor_t := { anc with size := anc.size - 1 }
    let elt := ary.buffer ((anc1.head + anc1.size) % ary.capacity)
    ({ iwsq with anchor := anc1 }, elt)

/-- The function `idemp_ws_queue_steal_from`. -/
def idemp_ws_queue_steal_from (iwsq : idemp_ws_queue_t) : idemp_ws_queue_t × Ptr :=
  let anc := iwsq.anchor
  let ary := iwsq.array
  if anc.size = 0 then
    (iwsq, NULL)
  else
    let elt := ary.buffer (anc.head % ary.capacity)
    let anc2 : ws_anchor_t := ⟨(anc.head + 1) % ary.capacity, anc.size - 1, anc.tag⟩
    let r := cmpswap_anchor iwsq anc anc2
    if r.2 then (r.1, elt) else (r.1, NULL)

/-! ## The calls split at their shared-memory accesses

Each step function performs the next shared-memory access of a call (a load,
a store or a compare-and-swap) and the local computation that follows it, up to
the next access or the return.  `done r` is the call returned with `r`. -/

/-- Where a `ws_queue_push` call stands. -/
inductive PushPC where
  | entry (v : Ptr)
  | gotBottom (v : Ptr) (b : Int)
  | gotTop (v : Ptr) (b t : Int)
  | stored (v : Ptr) (b : Int)
  | done (r : Int)

/-- The next access of `ws_queue_push`: load `bottom`; load `top`; test for a
full queue and store the slot; store `bottom`. -/
def push_step (pc : PushPC) (q : ws_queue_t) : PushPC × ws_queue_t :=
  match pc with
  | .entry v => (.gotBottom v q.bottom, q)
  | .gotBottom v b => (.gotTop v b q.top, q)
  | .gotTop v b t =>
      let a := q.array
      if b - t > (a.capacity : Int) - 1 then (.done 0, q)
      else (.stored v b, { q with array := a.store (slot b a.capacity) v })
  | .stored _ b => (.done 1, { q with bottom := b + 1 })
  | .done r => (.done r, q)

/-- Where a `ws_queue_pop` call stands. -/
inductive PopPC where
  | entry
  | gotBottom (b : Int)
  | stored (b : Int)
  | gotTop (b t : Int)
  | cas (b t : Int) (v : Ptr)
  | restore (b : Int) (v : Ptr)
  | done (r : Ptr)

/-- The next access of `ws_queue_pop`: load `bottom`; store `bottom - 1`; load
`top`; load the slot (or, on an empty queue, restore `bottom`); compare-and-swap
`top`; restore `bottom`. -/
def pop_step (pc : PopPC) (q : ws_queue_t) : PopPC × ws_queue_t :=
  match pc with
  | .entry => (.gotBottom (q.bottom - 1), q)
  | .gotBottom b => (.stored b, { q with bottom := b })
  | .stored b => (.gotTop b q.top, q)
  | .gotTop b t =>
      if t ≤ b then
        let a := q.array
        let v := a.buffer (slot b a.capacity)
        if t = b then (.cas b t v, q) else (.done v, q)
      else
        (.done NULL, { q with bottom := b + 1 })
  | .cas b t v =>
      let r := cmpswap_top q t (t + 1)
      (.restore b (if r.2 then v else NULL), r.1)
  | .restore b v => (.done v, { q with bottom := b + 1 })
  | .done r => (.done r, q)

/-- Where a `ws_queue_steal_from` call stands. -/
inductive StealPC where
  | entry
  | gotTop (t : Int)
  | gotBottom (t : Int)
  | gotSlot (t : Int) (v : Ptr)
  | done (r : Ptr)

/-- The next access of `ws_queue_steal_from`: load `top`; load `bottom`; load
the slot; compare-and-swap `top`. -/
def steal_step (pc : StealPC) (q : ws_queue_t) : StealPC × ws_queue_t :=
  match pc with
  | .entry => (.gotTop q.top, q)
  | .gotTop t => if t < q.bottom then (.gotBottom t, q) else (.done NULL, q)
  | .gotBottom t =>
      let a := q.array
      (.gotSlot t (a.buffer (slot t a.capacity)), q)
  | .gotSlot t v =>
      let r := cmpswap_top q t (t + 1)
      if r.2 then (.done v, r.1) else (.done NULL, r.1)
  | .done r => (.done r, q)

/-- Where an `idemp_ws_queue_push` call stands; `anc` is the anchor it loaded. -/
inductive IPushPC where
  | entry (elt : Ptr)
  | gotAnchor (elt : Ptr) (anc : ws_anchor_t)
  | wrote (elt : Ptr) (anc : ws_anchor_t)
  | done (r : Int)

/-- The next access of `idemp_ws_queue_push`: load the anchor; store the slot;
store the anchor with `size` and `tag` incremented. -/
def ipush_step (pc : IPushPC) (q : idemp_ws_queue_t) : IPushPC × idemp_ws_queue_t :=
  match pc with
  | .entry elt =>
      let anc := q.anchor
      if anc.size = q.array.capacity then (.done 0, q) else (.gotAnchor elt anc, q)
  | .gotAnchor elt anc =>
      let ary := q.array
      (.wrote elt anc, { q with array := ary.store ((anc.head + anc.size) % ary.capacity) elt })
  | .wrote _ anc =>
      (.done 1, { q with anchor := { anc with size := anc.size + 1, tag := anc.tag + 1 } })
  | .done r => (.done r, q)

/-- Where an `idemp_ws_queue_pop` call stands: `gotAnchor anc` holds the anchor
it loaded, `gotElt anc elt` holds the local `anc` after `anc.size--`. -/
inductive IPopPC where
  | entry
  | gotAnchor (anc : ws_anchor_t)
  | gotElt (anc : ws_anchor_t) (elt : Ptr)
  | done (r : Ptr)

/-- The next access of `idemp_ws_queue_pop`: load the anchor; decrement `size`
and load the slot; store the anchor. -/
def ipop_step (pc : IPopPC) (q : idemp_ws_queue_t) : IPopPC × idemp_ws_queue_t :=
  match pc with
  | .entry =>
      let anc := q.anchor
      if anc.size = 0 then (.done NULL, q) else (.gotAnchor anc, q)
  | .gotAnchor anc =>
      let ary := q.array
      let anc1 : ws_anchor_t := { anc with size := anc.size - 1 }
      (.gotElt anc1 (ary.buffer ((anc1.head + anc1.size) % ary.capacity)), q)
  | .gotElt anc elt => (.done elt, { q with anchor := anc })
  | .done r => (.done r, q)

/-- Where an `idemp_ws_queue_steal_from` call stands. -/
inductive IStealPC where
  | entry
  | gotAnchor (anc : ws_anchor_t)
  | gotElt (anc : ws_anchor_t) (elt : Ptr)
  | done (r : Ptr)

/-- The next access of `idemp_ws_queue_steal_from`: load the anchor; load the
slot; compare-and-swap the anchor. -/
def isteal_step (pc : IStealPC) (q : idemp_ws_queue_t) : IStealPC × idemp_ws_queue_t :=
  match pc with
  | .entry =>
      let anc := q.anchor
      if anc.size = 0 then (.done NULL, q) else (.gotAnchor anc, q)
  | .gotAnchor anc =>
      let ary := q.array
      (.gotElt anc (ary.buffer (anc.head % ary.capacity)), q)
  | .gotElt anc elt =>
      let ary := q.array
      let anc2 : ws_anchor_t := ⟨(anc.head + 1) % ary.capacity, anc.size - 1, anc.tag⟩
      let r := cmpswap_anchor q anc anc2
      if r.2 then (.done elt, r.1) else (.done NULL, r.1)
  | .done r => (.done r, q)

/-! ## Interleaved executions of the Chase-Lev queue

One owner thread calls `ws_queue_push` and `ws_queue_pop`, thieves numbered
`0, 1, ...` call `ws_queue_steal_from`.  An execution is a list of actions; each
action either starts a call on an idle thread or lets a thread in a call perform
its next shared-memory access.  An action that is not possible in the current
state (a call on a busy thread, a step of an idle thread, the push of a null or
already pushed item) leaves the state unchanged. -/

/-- What the owner thread is doing. -/
inductive OwnerPC where
  | idle
  | push (pc : PushPC)
  | pop (pc : PopPC)

/-- The state of an execution: the queue, the threads, and the record of the
results so far: `pushed` lists the items whose push returned 1, `returned` the
items returned by a pop or a steal (a null result is not an item). -/
structure Sys where
  q : ws_queue_t
  owner : OwnerPC
  thief : Nat → Option StealPC
  pushed : List Ptr
  returned : List Ptr

/-- The actions of an execution. -/
inductive Act where
  | callPush (v : Ptr)
  | callPop
  | callSteal (i : Nat)
  | owner
  | thief (i : Nat)

/-- The record of returned items after a pop or steal returned `r`. -/
def logReturn (r : Ptr) (l : List Ptr) : List Ptr :=
  if r = NULL then l else r :: l

/-- The item handed to the `ws_queue_push` call in progress. -/
def PushPC.arg : PushPC → Ptr
  | .entry v => v
  | .gotBottom v _ => v
  | .gotTop v _ _ => v
  | .stored v _ => v
  | .done _ => NULL

/-- The record of pushed items after a push of `v` returned `r`. -/
def logPush (v : Ptr) (r : Int) (l : List Ptr) : List Ptr :=
  if r = 1 then v :: l else l

/-- The owner thread performs its next access. -/
def Sys.ownerStep (s : Sys) : Sys :=
  match s.owner with
  | .idle => s
  | .push pc =>
      match push_step pc s.q with
      | (.done r, q1) => { s with q := q1, owner := .idle, pushed := logPush pc.arg r s.pushed }
      | (pc1, q1) => { s with q := q1, owner := .push pc1 }
  | .pop pc =>
      match pop_step pc s.q with
      | (.done r, q1) => { s with q := q1, owner := .idle, returned := logReturn r s.returned }
      | (pc1, q1) => { s with q := q1, owner := .pop pc1 }

/-- Thief `i` performs its next access. -/
def Sys.thiefStep (s : Sys) (i : Nat) : Sys :=
  match s.thief i with
  | none => s
  | some pc =>
      match steal_step pc s.q with
      | (.done r, q1) =>
          { s with q := q1, thief := Function.update s.thief i none,
                   returned := logReturn r s.returned }
      | (pc1, q1) => { s with q := q1, thief := Function.update s.thief i (some pc1) }

/-- One action of an execution with thieves `0 .. N-1`. -/
def Sys.step (N : Nat) (s : Sys) (a : Act) : Sys :=
  match a with
  | .callPush v =>
      match s.owner with
      | .idle => if v ≠ NULL ∧ v ∉ s.pushed then { s with owner := .push (.entry v) } else s
      | _ => s
  | .callPop =>
      match s.owner with
      | .idle => { s with owner := .pop .entry }
      | _ => s
  | .callSteal i =>
      if i < N then
        match s.thief i with
        | none => { s with thief := Function.update s.thief i (some .entry) }
        | some _ => s
      else s
  | .owner => s.ownerStep
  | .thief i => if i < N then s.thiefStep i else s

/-- The state after the actions `as`, in order. -/
def Sys.run (N : Nat) (s : Sys) (as : List Act) : Sys :=
  as.foldl (Sys.step N) s

/-- An empty queue (`top = bottom = t0`) on an array of any contents, all
threads idle, nothing pushed or returned yet. -/
def Sys.init (a : ws_array_t) (t0 : Int) : Sys :=
  { q := { top := t0, bottom := t0, array := a }, owner := .idle,
    thief := fun _ => none, pushed := [], returned := [] }

/-! ### The invariant of the interleaved executions -/

/-- The contents of the slot of index `i`. -/
def Sys.buf (s : Sys) (i : Int) : Ptr :=
  s.q.array.buffer (slot i s.q.array.capacity)

/-- The end of the range of live indices: the live items are those of the
indices `top ≤ i < hi`.  It is `bottom`, except while a pop has lowered `bottom`
without having yet decided who takes the last index. -/
def Sys.hi (s : Sys) : Int :=
  match s.owner with
  | .pop (.stored b) => b + 1
  | .pop (.gotTop b t) => if t < b then b else b + 1
  | .pop (.cas b _ _) => b + 1
  | .pop (.restore b _) => b + 1
  | _ => s.q.bottom

/-- The item the owner has taken out of the queue and not yet returned. -/
def Sys.claimed (s : Sys) : Option Ptr :=
  match s.owner with
  | .pop (.gotTop b t) => if t < b then some (s.buf b) else none
  | .pop (.restore _ v) => if v = NULL then none else some v
  | _ => none

/-- What the owner's program counter knows about the shared state. -/
def Sys.ownerOK (s : Sys) : Prop :=
  match s.owner with
  | .idle => True
  | .push (.entry v) => v ≠ NULL ∧ v ∉ s.pushed
  | .push (.gotBottom v b) => v ≠ NULL ∧ v ∉ s.pushed ∧ b = s.q.bottom
  | .push (.gotTop v b t) => v ≠ NULL ∧ v ∉ s.pushed ∧ b = s.q.bottom ∧ t ≤ s.q.top
  | .push (.stored v b) =>
      v ≠ NULL ∧ v ∉ s.pushed ∧ b = s.q.bottom ∧ b - s.q.top < s.q.array.capacity ∧ s.buf b = v
  | .push (.done _) => False
  | .pop .entry => True
  | .pop (.gotBottom b) => b = s.q.bottom - 1
  | .pop (.stored b) => b = s.q.bottom
  | .pop (.gotTop b t) => b = s.q.bottom ∧ t ≤ s.q.top
  | .pop (.cas b t v) => b = s.q.bottom ∧ t = b ∧ t ≤ s.q.top ∧ v = s.buf b
  | .pop (.restore b _) => b = s.q.bottom ∧ s.q.top = b + 1
  | .pop (.done _) => False

/-- What a thief's program counter knows about the shared state: the `top` it
has read is not above the current one, and if it is still the current one, its
index is live and the slot it has read is the slot of that index. -/
def Sys.thiefOK (s : Sys) : Option StealPC → Prop
  | none => True
  | some .entry => True
  | some (.gotTop t) => t ≤ s.q.top
  | some (.gotBottom t) => t ≤ s.q.top ∧ (s.q.top = t → t < s.hi)
  | some (.gotSlot t v) => t ≤ s.q.top ∧ (s.q.top = t → t < s.hi ∧ v = s.buf t)
  | some (.done _) => False

/-- The invariant of the executions of the Chase-Lev queue. -/
structure Sys.Inv (s : Sys) : Prop where
  top_nonneg : 0 ≤ s.q.top
  top_le_hi : s.q.top ≤ s.hi
  hi_le : s.hi - s.q.top ≤ s.q.array.capacity
  bottom_le_hi : s.q.bottom ≤ s.hi
  owner_ok : s.ownerOK
  live_pushed : ∀ i, s.q.top ≤ i → i < s.hi → s.buf i ∈ s.pushed
  live_fresh : ∀ i, s.q.top ≤ i → i < s.hi → s.buf i ∉ s.returned
  live_inj : ∀ i j, s.q.top ≤ i → i < s.hi → s.q.top ≤ j → j < s.hi →
    s.buf i = s.buf j → i = j
  claimed_ok : ∀ c, s.claimed = some c →
    c ∈ s.pushed ∧ c ∉ s.returned ∧ ∀ i, s.q.top ≤ i → i < s.hi → s.buf i ≠ c
  ret_nodup : s.returned.Nodup
  ret_pushed : ∀ x ∈ s.returned, x ∈ s.pushed
  pushed_nodup : s.pushed.Nodup
  pushed_nonnull : NULL ∉ s.pushed
  conserved : ∀ x ∈ s.pushed, x ∈ s.returned ∨ s.claimed = some x ∨
    ∃ i, s.q.top ≤ i ∧ i < s.hi ∧ s.buf i = x
  thieves_ok : ∀ k, s.thiefOK (s.thief k)

/-! ## Interleaved executions of the idempotent queue

The same construction for `idemp_ws_queue_push`, `idemp_ws_queue_pop` (owner)
and `idemp_ws_queue_steal_from` (thieves): each load of the anchor, store of the
anchor, compare-and-swap of the anchor and access to a slot is one step. -/

/-- What the owner thread of an idempotent queue is doing. -/
inductive IOwnerPC where
  | idle
  | push (pc : IPushPC)
  | pop (pc : IPopPC)

/-- The state of an execution on an idempotent queue. -/
structure ISys where
  q : idemp_ws_queue_t
  owner : IOwnerPC
  thief : Nat → Option IStealPC
  pushed : List Ptr
  returned : List Ptr

/-- The item handed to the `idemp_ws_queue_push` call in progress. -/
def IPushPC.arg : IPushPC → Ptr
  | .entry elt => elt
  | .gotAnchor elt _ => elt
  | .wrote elt _ => elt
  | .done _ => NULL

/-- The owner thread performs its next access. -/
def ISys.ownerStep (s : ISys) : ISys :=
  match s.owner with
  | .idle => s
  | .push pc =>
      match ipush_step pc s.q with
      | (.done r, q1) => { s with q := q1, owner := .idle, pushed := logPush pc.arg r s.pushed }
      | (pc1, q1) => { s with q := q1, owner := .push pc1 }
  | .pop pc =>
      match ipop_step pc s.q with
      | (.done r, q1) => { s with q := q1, owner := .idle, returned := logReturn r s.returned }
      | (pc1, q1) => { s with q := q1, owner := .pop pc1 }

/-- Thief `i` performs its next access. -/
def ISys.thiefStep (s : ISys) (i : Nat) : ISys :=
  match s.thief i with
  | none => s
  | some pc =>
      match isteal_step pc s.q with
      | (.done r, q1) =>
          { s with q := q1, thief := Function.update s.thief i none,
                   returned := logReturn r s.returned }
      | (pc1, q1) => { s with q := q1, thief := Function.update s.thief i (some pc1) }

/-- One action of an execution with thieves `0 .. N-1`. -/
def ISys.step (N : Nat) (s : ISys) (a : Act) : ISys :=
  match a with
  | .callPush v =>
      match s.owner with
      | .idle => if v ≠ NULL ∧ v ∉ s.pushed then { s with owner := .push (.entry v) } else s
      | _ => s
  | .callPop =>
      match s.owner with
      | .idle => { s with owner := .pop .entry }
      | _ => s
  | .callSteal i =>
      if i < N then
        match s.thief i with
        | none => { s with thief := Function.update s.thief i (some .entry) }
        | some _ => s
      else s
  | .owner => s.ownerStep
  | .thief i => if i < N then s.thiefStep i else s

/-- The state after the actions `as`, in order. -/
def ISys.run (N : Nat) (s : ISys) (as : List Act) : ISys :=
  as.foldl (ISys.step N) s

/-- An empty queue (`size = 0`, any `head` and `tag`) on an array of any
contents, all threads idle, nothing pushed or returned yet. -/
def ISys.init (a : ws_array_t) (head tag : Nat) : ISys :=
  { q := { anchor := ⟨head, 0, tag⟩, array := a }, owner := .idle,
    thief := fun _ => none, pushed := [], returned := [] }

/-! ### The invariant of the interleaved executions of the idempotent queue -/

/-- The contents of the slot `n % capacity`. -/
def ISys.buf (s : ISys) (n : Nat) : Ptr :=
  s.q.array.buffer (n % s.q.array.capacity)

/-- The anchor as the owner knows it: the anchor the call in progress has
loaded, which thieves may have left behind since; the current anchor when the
owner is between two calls. -/
def ISys.view (s : ISys) : ws_anchor_t :=
  match s.owner with
  | .push (.gotAnchor _ a) => a
  | .push (.wrote _ a) => a
  | .pop (.gotAnchor a) => a
  | .pop (.gotElt a _) => { a with size := a.size + 1 }
  | _ => s.q.anchor

/-- What the owner's program counter knows about the shared state. -/
def ISys.ownerOK (s : ISys) : Prop :=
  match s.owner with
  | .idle => True
  | .push (.entry elt) => elt ≠ NULL
  | .push (.gotAnchor elt a) => elt ≠ NULL ∧ a.size < s.q.array.capacity
  | .push (.wrote elt a) =>
      elt ≠ NULL ∧ a.size < s.q.array.capacity ∧ s.buf (a.head + a.size) = elt
  | .push (.done _) => False
  | .pop .entry => True
  | .pop (.gotAnchor a) => a.size ≠ 0
  | .pop (.gotElt a elt) => elt = s.buf (a.head + a.size)
  | .pop (.done _) => False

/-- An anchor `a` read by a thief while the tag was the current one lies in the
past of the current state: `p` pops were completed since, each of which moved
the end `head + size` of the queue back by one slot. -/
def ISys.past (s : ISys) (a : ws_anchor_t) : Prop :=
  ∃ p : Nat, (a.head + a.size) % s.q.array.capacity
      = (s.view.head + s.view.size + p) % s.q.array.capacity ∧
    s.view.size + p ≤ s.q.array.capacity ∧
    (p = 0 → s.q.anchor.size ≤ a.size)

/-- What a thief's program counter knows about the shared state. -/
def ISys.thiefOK (s : ISys) : Option IStealPC → Prop
  | none => True
  | some .entry => True
  | some (.gotAnchor a) =>
      a.size ≠ 0 ∧ a.tag ≤ s.q.anchor.tag ∧ (a.tag = s.q.anchor.tag → s.past a)
  | some (.gotElt a elt) =>
      a.size ≠ 0 ∧ a.tag ≤ s.q.anchor.tag ∧ (a.tag = s.q.anchor.tag → s.past a) ∧
        (s.q.anchor = a → elt = s.buf a.head)
  | some (.done _) => False

/-- The invariant of the executions of the idempotent queue. -/
structure ISys.Inv (s : ISys) : Prop where
  view_le : s.view.size ≤ s.q.array.capacity
  tag_eq : s.q.anchor.tag = s.view.tag
  stolen : ∃ k, s.q.anchor.size + k = s.view.size ∧
    s.q.anchor.head % s.q.array.capacity = (s.view.head + k) % s.q.array.capacity
  owner_ok : s.ownerOK
  window : ∀ j, j < s.view.size → s.buf (s.view.head + j) ∈ s.pushed
  kept : ∀ x ∈ s.pushed, x ∈ s.returned ∨
    ∃ j, j < s.q.anchor.size ∧ s.buf (s.q.anchor.head + j) = x
  ret_pushed : ∀ x ∈ s.returned, x ∈ s.pushed
  pushed_nonnull : NULL ∉ s.pushed
  thieves_ok : ∀ k, s.thiefOK (s.thief k)

/-! ## Sequences of calls run one at a time -/

/-- Push the items of `xs` in order with `ws_queue_push`; the results in order. -/
def pushAll (q : ws_queue_t) : List Ptr → ws_queue_t × List Int
  | [] => (q, [])
  | x :: xs =>
      let r := ws_queue_push q x
      let rs := pushAll r.1 xs
      (rs.1, r.2 :: rs.2)

/-- Call `ws_queue_pop` `n` times; the results in order. -/
def popN (q : ws_queue_t) : Nat → ws_queue_t × List Ptr
  | 0 => (q, [])
  | n + 1 =>
      let r := ws_queue_pop q
      let rs := popN r.1 n
      (rs.1, r.2 :: rs.2)

/-- Call `ws_queue_steal_from` `n` times; the results in order. -/
def stealN (q : ws_queue_t) : Nat → ws_queue_t × List Ptr
  | 0 => (q, [])
  | n + 1 =>
      let r := ws_queue_steal_from q
      let rs := stealN r.1 n
      (rs.1, r.2 :: rs.2)

/-- Push the items of `xs` in order with `idemp_ws_queue_push`; the results in
order. -/
def ipushAll (q : idemp_ws_queue_t) : List Ptr → idemp_ws_queue_t × List Int
  | [] => (q, [])
  | x :: xs =>
      let r := idemp_ws_queue_push q x
      let rs := ipushAll r.1 xs
      (rs.1, r.2 :: rs.2)

/-- Call `idemp_ws_queue_pop` `n` times; the results in order. -/
def ipopN (q : idemp_ws_queue_t) : Nat → idemp_ws_queue_t × List Ptr
  | 0 => (q, [])
  | n + 1 =>
      let r := idemp_ws_queue_pop q
      let rs := ipopN r.1 n
      (rs.1, r.2 :: rs.2)

/-- Call `idemp_ws_queue_steal_from` `n` times; the results in order. -/
def istealN (q : idemp_ws_queue_t) : Nat → idemp_ws_queue_t × List Ptr
  | 0 => (q, [])
  | n + 1 =>
      let r := idemp_ws_queue_steal_from q
      let rs := istealN r.1 n
      (rs.1, r.2 :: rs.2)

/-- The live items of a Chase-Lev queue, oldest first: the slots of the indices
`top ≤ i < bottom`. -/
def ws_queue_t.contents (q : ws_queue_t) : List Ptr :=
  (List.range (q.bottom - q.top).toNat).map
    (fun k : Nat => q.array.buffer (slot (q.top + (k : Int)) q.array.capacity))

/-- A Chase-Lev queue between two calls: `0 ≤ top ≤ bottom ≤ top + capacity`. -/
def ws_queue_t.wf (q : ws_queue_t) : Prop :=
  0 ≤ q.top ∧ q.top ≤ q.bottom ∧ q.bottom - q.top ≤ (q.array.capacity : Int)

/-- The live items of an idempotent queue, oldest first: the `size` slots from
`head` on. -/
def idemp_ws_queue_t.contents (q : idemp_ws_queue_t) : List Ptr :=
  (List.range q.anchor.size).map
    (fun j => q.array.buffer ((q.anchor.head + j) % q.array.capacity))

/-- A call on an idempotent queue. -/
inductive IOp where
  | push (elt : Ptr)
  | pop
  | steal

/-- The queue after the call `op`, run without interference. -/
def IOp.apply (op : IOp) (q : idemp_ws_queue_t) : idemp_ws_queue_t :=
  match op with
  | .push elt => (idemp_ws_queue_push q elt).1
  | .pop => (idemp_ws_queue_pop q).1
  | .steal => (idemp_ws_queue_steal_from q).1

/-- The call `op` succeeds on `q`: a push returns 1, a pop or a steal does not
find the queue empty. -/
def IOp.succeeds (op : IOp) (q : idemp_ws_queue_t) : Prop :=
  match op with
  | .push elt => (idemp_ws_queue_push q elt).2 = 1
  | .pop => q.anchor.size ≠ 0
  | .steal => q.anchor.size ≠ 0

/-- The queue after the calls `ops`, in order, each run without interference. -/
def runOps (q : idemp_ws_queue_t) (ops : List IOp) : idemp_ws_queue_t :=
  ops.foldl (fun q op => op.apply q) q

/-- Every call of `ops` succeeds when they are run in order from `q`. -/
def allSucceed (q : idemp_ws_queue_t) : List IOp → Prop
  | [] => True
  | op :: ops => op.succeeds q ∧ allSucceed (op.apply q) ops

/-- A Chase-Lev queue of capacity 4 with `top = bottom = 0` and null slots. -/
def demoQueue : ws_queue_t := { top := 0, bottom := 0, array := ⟨fun _ => NULL, 4⟩ }

/-- An idempotent queue of capacity 4 with `head = 0`, `size = 0`, `tag = 0` and
null slots. -/
def idemoQueue : idemp_ws_queue_t := { anchor := ⟨0, 0, 0⟩, array := ⟨fun _ => NULL, 4⟩ }

/-! ## Sequences of calls on the Chase-Lev queue, and the sequence they implement -/

/-- A call on a Chase-Lev queue. -/
inductive QOp where
  | push (v : Ptr)
  | pop
  | steal

/-- The result of a call: the `int` of a push, the `void *` of a pop or a
steal. -/
inductive QRes where
  | code (r : Int)
  | item (v : Ptr)
deriving DecidableEq

/-- The queue and the result after the call `op`, run without interference. -/
def QOp.apply (op : QOp) (q : ws_queue_t) : ws_queue_t × QRes :=
  match op with
  | .push v => ((ws_queue_push q v).1, .code (ws_queue_push q v).2)
  | .pop => ((ws_queue_pop q).1, .item (ws_queue_pop q).2)
  | .steal => ((ws_queue_steal_from q).1, .item (ws_queue_steal_from q).2)

/-- The queue and the results after the calls `ops`, in order, each run without
interference. -/
def runQOps (q : ws_queue_t) : List QOp → ws_queue_t × List QRes
  | [] => (q, [])
  | op :: ops =>
      let r := op.apply q
      let rs := runQOps r.1 ops
      (rs.1, r.2 :: rs.2)

/-- The bounded double-ended sequence of the specification, push: append at the
back when fewer than `C` items are live (result 1), refuse otherwise
(result 0). -/
def spec_push (C : Nat) (l : List Ptr) (v : Ptr) : List Ptr × Int :=
  if l.length < C then (l ++ [v], 1) else (l, 0)

/-- The bounded double-ended sequence of the specification, pop: remove and
return the back item; empty (null) when the sequence is empty. -/
def spec_pop (l : List Ptr) : List Ptr × Ptr :=
  match l.getLast? with
  | some x => (l.dropLast, x)
  | none => (l, NULL)

/-- The bounded double-ended sequence of the specification, steal: remove and
return the front item; empty (null) when the sequence is empty. -/
def spec_steal (l : List Ptr) : List Ptr × Ptr :=
  match l with
  | x :: t => (t, x)
  | [] => ([], NULL)

/-- One call on the sequence of the specification. -/
def spec_apply (C : Nat) (op : QOp) (l : List Ptr) : List Ptr × QRes :=
  match op with
  | .push v => ((spec_push C l v).1, .code (spec_push C l v).2)
  | .pop => ((spec_pop l).1, .item (spec_pop l).2)
  | .steal => ((spec_steal l).1, .item (spec_steal l).2)

/-- The sequence of the specification and the results after the calls `ops`. -/
def spec_run (C : Nat) (l : List Ptr) : List QOp → List Ptr × List QRes
  | [] => (l, [])
  | op :: ops =>
      let r := spec_apply C op l
      let rs := spec_run C r.1 ops
      (rs.1, r.2 :: rs.2)

/-- A Chase-Lev queue of capacity 2 with `top = bottom = 0` and null slots. -/
def smallQueue : ws_queue_t := { top := 0, bottom := 0, array := ⟨fun _ => NULL, 2⟩ }

/-- Calls after which `top` and `bottom` are beyond the capacity 2 and the
indices have wrapped around. -/
def wrapOps : List QOp :=
  [.push 1, .push 2, .push 3, .steal, .push 4, .pop, .steal, .push 5, .push 6, .steal,
   .pop, .pop]

/-! ## Sequences of calls on the idempotent queue, with their results -/

/-- The same call on the sequence of the specification. -/
def IOp.toQOp : IOp → QOp
  | .push elt => .push elt
  | .pop => .pop
  | .steal => .steal

/-- The result of the call `op`, run without interference. -/
def IOp.result (op : IOp) (q : idemp_ws_queue_t) : QRes :=
  match op with
  | .push elt => .code (idemp_ws_queue_push q elt).2
  | .pop => .item (idemp_ws_queue_pop q).2
  | .steal => .item (idemp_ws_queue_steal_from q).2

/-- The queue and the results after the calls `ops`, in order, each run without
interference. -/
def runIOps (q : idemp_ws_queue_t) : List IOp → idemp_ws_queue_t × List QRes
  | [] => (q, [])
  | op :: ops =>
      let rs := runIOps (op.apply q) ops
      (rs.1, op.result q :: rs.2)

/-- An idempotent queue of capacity 2 with `head = 0`, `size = 0`, `tag = 0` and
null slots. -/
def ismallQueue : idemp_ws_queue_t := { anchor := ⟨0, 0, 0⟩, array := ⟨fun _ => NULL, 2⟩ }

/-- Calls during which `head + size` goes beyond the capacity 2 and the slots
wrap around. -/
def iwrapOps : List IOp :=
  [.push 1, .push 2, .push 3, .steal, .push 4, .pop, .steal, .push 5, .push 6, .steal,
   .pop, .pop]

/-! ## The hashes of `src/support/hashing.c` -/

/-- The function `int32hash`: the product of two `uint32_t`, modulo `2^32`. -/
def int32hash (a : Nat) : Nat :=
  (a * 0x9e3779b9) % 2 ^ 32

/-- The function `int64hash`: the product of two `uint64_t`, modulo `2^64`. -/
def int64hash (key : Nat) : Nat :=
  (key * 0x517cc1b727220a95) % 2 ^ 64

/-! ## Sample executions -/

/-- An array of four slots, all null. -/
def demoArray : ws_array_t := { buffer := fun _ => NULL, capacity := 4 }

/-- An execution with two thieves: the owner pushes 7 and 8, thief 0 steals,
the owner pops. -/
def demoActs : List Act :=
  [.callPush 7, .owner, .owner, .owner, .owner,
   .callPush 8, .owner, .owner, .owner, .owner,
   .callSteal 0, .thief 0, .thief 0, .thief 0, .thief 0,
   .callPop, .owner, .owner, .owner, .owner, .owner, .owner]

/-- An execution with one thief on the idempotent queue: the owner pushes 7 and
starts a pop, which loads the anchor; thief 0 then runs a whole steal; the pop
then loads its slot and stores its anchor. -/
def raceActs : List Act :=
  [.callPush 7, .owner, .owner, .owner,
   .callPop, .owner,
   .callSteal 0, .thief 0, .thief 0, .thief 0,
   .owner, .owner]

end WSQueue

/-!
# The reservation table of `src/engine.cpp`

* `Reservations`, a `DenseMap` from keys `(m, owner)` to values
  `(first, second)` (a thread id and a code instance), is the list of its
  buckets, one per key; `Reservations[key]` finds the bucket of the key or adds
  one with the value-initialised value `(0, NULL)`; `erase` removes a bucket and
  the iteration of `jl_engine_sweep` goes on to the remaining ones.
* `engine_lock`, a `std::recursive_mutex`, is the thread that owns it and its
  number of levels of ownership.  A `lock()` by another thread than the owner
  blocks, an `unlock()` by a thread that does not own the mutex is undefined:
  the functions return `none` in both cases.
* The calling thread is given by its thread id `tid` (`jl_current_task->tid`).
* `jl_new_codeinst_uninit`, `jl_astaggedvalue` and `GC_MARKED` are declared in
  headers that are not part of these sources: the code instance allocated by a
  call, the header bits of the objects and the mark bit are parameters.
-/

namespace Engine

open WSQueue (Ptr NULL)

/-- A key of `Reservations`: the pair `(m, owner)`. -/
abbrev Key := Ptr × Ptr

/-- A bucket of `Reservations`: the key, and the value `(first, second)`. -/
structure Reservation where
  key : Key
  first : Int
  second : Ptr
deriving DecidableEq

/-- The state of a `std::recursive_mutex`. -/
structure RecursiveMutex where
  owner : Option Int
  count : Nat
deriving DecidableEq

/-- The call `lock()` by the thread `tid`; `none`: the call blocks. -/
def RecursiveMutex.lock (m : RecursiveMutex) (tid : Int) : Option RecursiveMutex :=
  match m.owner with
  | none => some { owner := some tid, count := 1 }
  | some o => if o = tid then some { owner := some tid, count := m.count + 1 } else none

/-- The call `unlock()` by the thread `tid`; `none`: the thread does not own the
mutex. -/
def RecursiveMutex.unlock (m : RecursiveMutex) (tid : Int) : Option RecursiveMutex :=
  match m.owner, m.count with
  | some o, n + 1 =>
      if o = tid then
        (if n = 0 then some { owner := none, count := 0 }
         else some { owner := some tid, count := n })
      else none
  | _, _ => none

/-- The number of levels of ownership the thread `tid` holds. -/
def RecursiveMutex.held (m : RecursiveMutex) (tid : Int) : Nat :=
  if m.owner = some tid then m.count else 0

/-- The globals of `engine.cpp`. -/
structure EngineState where
  engine_lock : RecursiveMutex
  Reservations : List Reservation
deriving DecidableEq

/-- The bucket of the key `k`, if there is one. -/
def find (t : List Reservation) (k : Key) : Option Reservation :=
  t.find? (fun r => decide (r.key = k))

/-- The table after `Reservations[k]`: a bucket with the value `(0, NULL)` is
added when the key has none. -/
def index (t : List Reservation) (k : Key) : List Reservation :=
  match find t k with
  | some _ => t
  | none => t ++ [{ key := k, first := 0, second := NULL }]

/-- The value of the key `k`, the pair `Reservations[k]` refers to. -/
def value (t : List Reservation) (k : Key) : Int × Ptr :=
  match find t k with
  | some r => (r.first, r.second)
  | none => (0, NULL)

/-- The table after the assignments `ci.first = first; ci.second = second`
through the reference `ci` to the value of the key `k`. -/
def assign (t : List Reservation) (k : Key) (first : Int) (second : Ptr) :
    List Reservation :=
  t.map (fun r => if r.key = k then { key := k, first := first, second := second } else r)

/-- The keys of a `DenseMap` are pairwise distinct. -/
def wf (t : List Reservation) : Prop :=
  (t.map Reservation.key).Nodup

/-- The function `jl_engine_reserve`, called by the thread `tid`; `newci` is the
code instance `jl_new_codeinst_uninit(m, owner)` returns if it is called.  The
result is the new state and the code instance returned. -/
def jl_engine_reserve (s : EngineState) (tid : Int) (m owner : Ptr) (newci : Ptr) :
    Option (EngineState × Ptr) :=
  match s.engine_lock.lock tid with
  | none => none
  | some l =>
      let t1 := index s.Reservations (m, owner)
      let ci := value t1 (m, owner)
      if ci.2 ≠ NULL then
        some ({ engine_lock := l, Reservations := t1 }, ci.2)
      else
        some ({ engine_lock := l, Reservations := assign t1 (m, owner) tid newci }, newci)

/-- The function `gc_marked`, with the mask `GC_MARKED` as a parameter. -/
def gc_marked (GC_MARKED : Nat) (bits : Nat) : Bool :=
  (bits &&& GC_MARKED) != 0

/-- The function `jl_engine_sweep`; `gc h` is
`jl_astaggedvalue(h)->bits.gc`, the header bits of the object `h`. -/
def jl_engine_sweep (s : EngineState) (gc : Ptr → Nat) (GC_MARKED : Nat) : EngineState :=
  { s with Reservations := s.Reservations.filter (fun r => gc_marked GC_MARKED (gc r.second)) }

/-- The function `jl_engine_fulfill`, called by the thread `tid`. -/
def jl_engine_fulfill (s : EngineState) (tid : Int) (_ci _src : Ptr) : Option EngineState :=
  match s.engine_lock.unlock tid with
  | none => none
  | some l => some { s with engine_lock := l }

/-- A call of `jl_engine_reserve` or `jl_engine_fulfill`. -/
inductive EOp where
  | reserve (tid : Int) (m owner : Ptr) (newci : Ptr)
  | fulfill (tid : Int) (ci src : Ptr)
deriving DecidableEq

/-- The thread of a call. -/
def EOp.tid : EOp → Int
  | .reserve tid _ _ _ => tid
  | .fulfill tid _ _ => tid

/-- A completed call of `jl_engine_reserve`: the caller, the key, the code
instance it would allocate, the code instance returned, and whether the call
added a bucket to the table. -/
structure Call where
  tid : Int
  key : Key
  newci : Ptr
  result : Ptr
  created : Bool
deriving DecidableEq

/-- The state after the call `op`, and the record of the call if it is a
`jl_engine_reserve`; `none` when the call cannot complete (it blocks on the
lock, or unlocks a lock the thread does not own). -/
def EOp.apply (s : EngineState) : EOp → Option (EngineState × List Call)
  | .reserve tid m owner newci =>
      match jl_engine_reserve s tid m owner newci with
      | none => none
      | some r =>
          some (r.1, [{ tid := tid, key := (m, owner), newci := newci, result := r.2,
                        created := decide (r.1.Reservations.length ≠ s.Reservations.length) }])
  | .fulfill tid ci src =>
      match jl_engine_fulfill s tid ci src with
      | none => none
      | some s1 => some (s1, [])

/-- The state after the calls `ops`, in order, and the record of the
`jl_engine_reserve` calls. -/
def runEOps (s : EngineState) : List EOp → Option (EngineState × List Call)
  | [] => some (s, [])
  | op :: ops =>
      match op.apply s with
      | none => none
      | some r =>
          match runEOps r.1 ops with
          | none => none
          | some rs => some (rs.1, r.2 ++ rs.2)

/-- The number of `jl_engine_reserve` calls in `ops`. -/
def reserves (ops : List EOp) : Nat :=
  (ops.filter (fun op => match op with | .reserve _ _ _ _ => true | _ => false)).length

/-- The number of `jl_engine_fulfill` calls in `ops`. -/
def fulfills (ops : List EOp) : Nat :=
  (ops.filter (fun op => match op with | .fulfill _ _ _ => true | _ => false)).length

/-- The initial state: the lock is free and the table is empty. -/
def EngineState.init : EngineState :=
  { engine_lock := { owner := none, count := 0 }, Reservations := [] }

/-- Threads 1 and 2 reserve the key `(10, 20)`: thread 1 reserves (and would
allocate 100), reserves again, fulfills twice; thread 2 reserves (and would
allocate 200) and fulfills. -/
def demoOps : List EOp :=
  [.reserve 1 10 20 100, .reserve 1 10 20 101, .fulfill 1 100 0, .fulfill 1 100 0,
   .reserve 2 10 20 200, .fulfill 2 100 0]

/-- The state after `demoOps`: the lock is free, the table has one bucket. -/
def demoFinal : EngineState :=
  { engine_lock := { owner := none, count := 0 }, Reservations := [⟨(10, 20), 1, 100⟩] }

/-- The record of the reserve calls of `demoOps`. -/
def demoLog : List Call :=
  [⟨1, (10, 20), 100, 100, true⟩, ⟨1, (10, 20), 101, 100, false⟩,
   ⟨2, (10, 20), 200, 100, false⟩]

/-- A table of three reservations. -/
def demoTable : List Reservation :=
  [⟨(10, 20), 1, 100⟩, ⟨(11, 20), 2, 101⟩, ⟨(12, 20), 1, 102⟩]

/-- Header bits: the objects 100 and 102 are marked (with `GC_MARKED = 1`). -/
def demoBits (h : Ptr) : Nat :=
  if h = 100 then 1 else if h = 102 then 3 else 0

end Engine

namespace WSQueue

/-! ## Theorems -/

/-- Two non-negative indices less than `capacity` apart have different slots. -/
theorem slot_inj {i j : Int} {c : Nat} (hi : 0 ≤ i) (hj : 0 ≤ j)
    (h1 : i - j < c) (h2 : j - i < c) (h : slot i c = slot j c) : i = j := by
  unfold slot at h
  have hc : (0 : Int) < c := by omega
  rw [Int.tmod_eq_emod hi (by omega), Int.tmod_eq_emod hj (by omega)] at h
  have hi' := Int.emod_nonneg i (by omega : (c : Int) ≠ 0)
  have hj' := Int.emod_nonneg j (by omega : (c : Int) ≠ 0)
  have h3 : i % (c : Int) = j % (c : Int) := by
    have := congrArg (fun n : Nat => (n : Int)) h
    simp only [Int.toNat_of_nonneg hi', Int.toNat_of_nonneg hj'] at this
    exact this
  have h4 : (c : Int) ∣ (i - j) := Int.ModEq.dvd (a := j) (b := i) h3.symm
  have h5 : i - j = 0 := by
    apply Int.eq_zero_of_abs_lt_dvd h4
    rw [abs_lt]; constructor <;> omega
  omega

/-! ### The steps of a call, run without interference, make up the call -/

/-- The four accesses of `ws_queue_push` in a row are `ws_queue_push`. -/
theorem push_step_run (q : ws_queue_t) (v : Ptr) :
    Nat.iterate (fun p : PushPC × ws_queue_t => push_step p.1 p.2) 4 (.entry v, q)
      = (.done (ws_queue_push q v).2, (ws_queue_push q v).1) := by
  by_cases h : q.bottom - q.top > (q.array.capacity : Int) - 1 <;>
    simp [Nat.iterate, push_step, ws_queue_push, h]

/-- The six accesses of `ws_queue_pop` in a row are `ws_queue_pop`. -/
theorem pop_step_run (q : ws_queue_t) :
    Nat.iterate (fun p : PopPC × ws_queue_t => pop_step p.1 p.2) 6 (.entry, q)
      = (.done (ws_queue_pop q).2, (ws_queue_pop q).1) := by
  by_cases h : q.top ≤ q.bottom - 1
  · by_cases h1 : q.top = q.bottom - 1
    · simp [Nat.iterate, pop_step, ws_queue_pop, cmpswap_top, h1]
    · simp [Nat.iterate, pop_step, ws_queue_pop, cmpswap_top, h, h1]
  · simp [Nat.iterate, pop_step, ws_queue_pop, cmpswap_top, h]

/-- The four accesses of `ws_queue_steal_from` in a row are
`ws_queue_steal_from`. -/
theorem steal_step_run (q : ws_queue_t) :
    Nat.iterate (fun p : StealPC × ws_queue_t => steal_step p.1 p.2) 4 (.entry, q)
      = (.done (ws_queue_steal_from q).2, (ws_queue_steal_from q).1) := by
  by_cases h : q.top < q.bottom <;>
    simp [Nat.iterate, steal_step, ws_queue_steal_from, cmpswap_top, h]

/-- The three accesses of `idemp_ws_queue_push` in a row are
`idemp_ws_queue_push`. -/
theorem ipush_step_run (q : idemp_ws_queue_t) (elt : Ptr) :
    Nat.iterate (fun p : IPushPC × idemp_ws_queue_t => ipush_step p.1 p.2) 3 (.entry elt, q)
      = (.done (idemp_ws_queue_push q elt).2, (idemp_ws_queue_push q elt).1) := by
  by_cases h : q.anchor.size = q.array.capacity <;>
    simp [Nat.iterate, ipush_step, idemp_ws_queue_push, h]

/-- The three accesses of `idemp_ws_queue_pop` in a row are
`idemp_ws_queue_pop`. -/
theorem ipop_step_run (q : idemp_ws_queue_t) :
    Nat.iterate (fun p : IPopPC × idemp_ws_queue_t => ipop_step p.1 p.2) 3 (.entry, q)
      = (.done (idemp_ws_queue_pop q).2, (idemp_ws_queue_pop q).1) := by
  by_cases h : q.anchor.size = 0 <;>
    simp [Nat.iterate, ipop_step, idemp_ws_queue_pop, h]

/-- The three accesses of `idemp_ws_queue_steal_from` in a row are
`idemp_ws_queue_steal_from`. -/
theorem isteal_step_run (q : idemp_ws_queue_t) :
    Nat.iterate (fun p : IStealPC × idemp_ws_queue_t => isteal_step p.1 p.2) 3 (.entry, q)
      = (.done (idemp_ws_queue_steal_from q).2, (idemp_ws_queue_steal_from q).1) := by
  by_cases h : q.anchor.size = 0 <;>
    simp [Nat.iterate, isteal_step, idemp_ws_queue_steal_from, cmpswap_anchor, h]

/-! ### Preservation of the invariant -/

theorem logReturn_null (l : List Ptr) : logReturn NULL l = l := by
  simp [logReturn]

theorem logReturn_of_ne {r : Ptr} (h : r ≠ NULL) (l : List Ptr) : logReturn r l = r :: l := by
  simp [logReturn, h]

/-- Changing the program counter of one thief to one that is consistent with the
shared state keeps the invariant. -/
theorem Sys.Inv.set_thief {s : Sys} (h : s.Inv) (i : Nat) (pc : Option StealPC)
    (hpc : s.thiefOK pc) : Sys.Inv { s with thief := Function.update s.thief i pc } := by
  refine ⟨h.top_nonneg, h.top_le_hi, h.hi_le, h.bottom_le_hi, h.owner_ok, h.live_pushed,
    h.live_fresh, h.live_inj, h.claimed_ok, h.ret_nodup, h.ret_pushed, h.pushed_nodup,
    h.pushed_nonnull, h.conserved, ?_⟩
  intro k
  by_cases hk : k = i
  · subst hk
    simpa [Function.update] using hpc
  · have := h.thieves_ok k
    simpa [Function.update, hk] using this

/-- A thief that wins the compare-and-swap of `top` takes the item of index
`top` out of the queue and returns it. -/
theorem Sys.Inv.steal_win {s : Sys} (h : s.Inv) (i : Nat) (v : Ptr)
    (hk : s.thiefOK (some (.gotSlot s.q.top v))) :
    Sys.Inv { s with q := { s.q with top := s.q.top + 1 },
                     thief := Function.update s.thief i none,
                     returned := logReturn v s.returned } := by
  obtain ⟨-, hk⟩ := hk
  obtain ⟨hlt, hv⟩ := hk rfl
  have hvp : v ∈ s.pushed := hv ▸ h.live_pushed _ le_rfl hlt
  have hvn : v ≠ NULL := fun e => h.pushed_nonnull (e ▸ hvp)
  have hvr : v ∉ s.returned := hv ▸ h.live_fresh _ le_rfl hlt
  rw [logReturn_of_ne hvn]
  have hown := h.owner_ok
  have hble := h.bottom_le_hi
  have hle := h.hi_le
  have h0 := h.top_nonneg
  -- the owner is not in the last step of a pop: there `top = hi`
  have hhi : ∀ q1 th r, Sys.hi { s with q := { s.q with top := q1 }, thief := th, returned := r }
      = s.hi := by
    intro q1 th r; unfold Sys.hi; rfl
  have hcl : ∀ q1 th r,
      Sys.claimed { s with q := { s.q with top := q1 }, thief := th, returned := r }
        = s.claimed := by
    intro q1 th r; unfold Sys.claimed; rfl
  refine ⟨?_, ?_, ?_, ?_, ?_, ?_, ?_, ?_, ?_, ?_, ?_, h.pushed_nodup, h.pushed_nonnull, ?_, ?_⟩
  · show 0 ≤ s.q.top + 1
    omega
  · rw [hhi]; show s.q.top + 1 ≤ s.hi; omega
  · rw [hhi]; show s.hi - (s.q.top + 1) ≤ _; simp only; omega
  · rw [hhi]; exact hble
  · revert hown hlt
    unfold Sys.ownerOK Sys.hi
    cases s.owner with
    | idle => simp
    | push pc =>
      cases pc <;> simp <;> intros <;> (try simp_all [Sys.buf]) <;> omega
    | pop pc =>
      cases pc <;> simp <;> intros <;> (try simp_all [Sys.buf]) <;> omega
  · intro j hj1 hj2
    rw [hhi] at hj2
    exact h.live_pushed j (by simp only at hj1; omega) hj2
  · intro j hj1 hj2
    rw [hhi] at hj2
    simp only at hj1
    show s.buf j ∉ v :: s.returned
    rw [List.mem_cons, not_or]
    refine ⟨?_, h.live_fresh j (by omega) hj2⟩
    intro e
    have := h.live_inj j s.q.top (by omega) hj2 le_rfl hlt (by rw [e, hv])
    omega
  · intro j k hj1 hj2 hk1 hk2 e
    rw [hhi] at hj2 hk2
    simp only at hj1 hk1
    exact h.live_inj j k (by omega) hj2 (by omega) hk2 e
  · intro c hc
    rw [hcl] at hc
    obtain ⟨c1, c2, c3⟩ := h.claimed_ok c hc
    refine ⟨c1, ?_, ?_⟩
    · show c ∉ v :: s.returned
      rw [List.mem_cons, not_or]
      refine ⟨?_, c2⟩
      intro e
      exact c3 s.q.top le_rfl hlt (by rw [e, hv])
    · intro j hj1 hj2
      rw [hhi] at hj2
      simp only at hj1
      exact c3 j (by omega) hj2
  · exact List.nodup_cons.2 ⟨hvr, h.ret_nodup⟩
  · intro x hx
    rcases List.mem_cons.1 hx with rfl | hx
    · exact hvp
    · exact h.ret_pushed x hx
  · intro x hx
    rcases h.conserved x hx with hr | hc | ⟨j, hj1, hj2, hj3⟩
    · exact Or.inl (List.mem_cons_of_mem _ hr)
    · exact Or.inr (Or.inl (by rw [hcl]; exact hc))
    · by_cases hjt : j = s.q.top
      · left
        subst hjt
        rw [← hj3, ← hv]
        exact List.mem_cons_self _ _
      · right; right
        refine ⟨j, ?_, ?_, hj3⟩
        · show s.q.top + 1 ≤ j
          omega
        · rw [hhi]; exact hj2
  · intro k
    by_cases hki : k = i
    · subst hki
      simp [Function.update, Sys.thiefOK]
    · have hth := h.thieves_ok k
      have e : (Function.update s.thief i none) k = s.thief k := by
        simp [Function.update, hki]
      show Sys.thiefOK _ ((Function.update s.thief i none) k)
      rw [e]
      revert hth
      cases s.thief k with
      | none => simp [Sys.thiefOK]
      | some pc =>
        cases pc <;> simp only [Sys.thiefOK, hhi] <;> intro hth
        · trivial
        · omega
        · exact ⟨by omega, fun e => by omega⟩
        · exact ⟨by omega, fun e => by omega⟩
        · exact hth

/-- A step of a thief keeps the invariant. -/
theorem Sys.Inv.thiefStep {s : Sys} (h : s.Inv) (i : Nat) : (s.thiefStep i).Inv := by
  unfold Sys.thiefStep
  have hk := h.thieves_ok i
  cases hti : s.thief i with
  | none => exact h
  | some pc =>
    rw [hti] at hk
    cases pc with
    | entry =>
      exact h.set_thief i (some (.gotTop s.q.top)) (by simp [Sys.thiefOK])
    | gotTop t =>
      simp only [steal_step]
      by_cases hb : t < s.q.bottom
      · simp only [hb, if_true]
        refine h.set_thief i (some (.gotBottom t)) ⟨hk, fun _ => ?_⟩
        have := h.bottom_le_hi
        omega
      · simp only [hb, if_false, logReturn_null]
        exact h.set_thief i none trivial
    | gotBottom t =>
      refine h.set_thief i (some (.gotSlot t (s.buf t))) ⟨hk.1, fun e => ⟨hk.2 e, rfl⟩⟩
    | gotSlot t v =>
      simp only [steal_step, cmpswap_top]
      by_cases ht : s.q.top = t
      · subst ht
        simp only [if_true]
        exact h.steal_win i v hk
      · simp only [ht, if_false, logReturn_null]
        exact h.set_thief i none trivial
    | done r => exact hk.elim

/-- A step that changes neither `top`, nor the range of live indices and their
slots, nor the claimed item, nor the records, keeps the invariant provided the
new program counter of the owner is consistent with the new state. -/
theorem Sys.Inv.transfer {s s1 : Sys} (h : s.Inv)
    (htop : s1.q.top = s.q.top) (hcap : s1.q.array.capacity = s.q.array.capacity)
    (hhi : s1.hi = s.hi)
    (hbuf : ∀ i, s.q.top ≤ i → i < s.hi → s1.buf i = s.buf i)
    (hcl : s1.claimed = s.claimed) (hp : s1.pushed = s.pushed)
    (hr : s1.returned = s.returned) (hth : s1.thief = s.thief)
    (hb : s1.q.bottom ≤ s1.hi) (hown : s1.ownerOK) : s1.Inv := by
  refine ⟨?_, ?_, ?_, hb, hown, ?_, ?_, ?_, ?_, ?_, ?_, ?_, ?_, ?_, ?_⟩
  · rw [htop]; exact h.top_nonneg
  · rw [htop, hhi]; exact h.top_le_hi
  · rw [htop, hhi, hcap]; exact h.hi_le
  · intro i h1 h2
    rw [htop] at h1; rw [hhi] at h2
    rw [hbuf i h1 h2, hp]; exact h.live_pushed i h1 h2
  · intro i h1 h2
    rw [htop] at h1; rw [hhi] at h2
    rw [hbuf i h1 h2, hr]; exact h.live_fresh i h1 h2
  · intro i j h1 h2 h3 h4
    rw [htop] at h1 h3; rw [hhi] at h2 h4
    rw [hbuf i h1 h2, hbuf j h3 h4]; exact h.live_inj i j h1 h2 h3 h4
  · intro c hc
    rw [hcl] at hc
    obtain ⟨c1, c2, c3⟩ := h.claimed_ok c hc
    refine ⟨hp ▸ c1, hr ▸ c2, ?_⟩
    intro i h1 h2
    rw [htop] at h1; rw [hhi] at h2
    rw [hbuf i h1 h2]; exact c3 i h1 h2
  · rw [hr]; exact h.ret_nodup
  · rw [hr, hp]; exact h.ret_pushed
  · rw [hp]; exact h.pushed_nodup
  · rw [hp]; exact h.pushed_nonnull
  · intro x hx
    rw [hp] at hx
    rw [hr, hcl, htop, hhi]
    rcases h.conserved x hx with h1 | h1 | ⟨i, h1, h2, h3⟩
    · exact Or.inl h1
    · exact Or.inr (Or.inl h1)
    · exact Or.inr (Or.inr ⟨i, h1, h2, by rw [hbuf i h1 h2]; exact h3⟩)
  · intro k
    rw [hth]
    have hk := h.thieves_ok k
    revert hk
    cases s.thief k with
    | none => exact id
    | some pc =>
      cases pc <;> simp only [Sys.thiefOK, htop, hhi] <;> intro hk
      · trivial
      · exact hk
      · exact hk
      · refine ⟨hk.1, fun e => ?_⟩
        obtain ⟨h1, h2⟩ := hk.2 e
        refine ⟨h1, ?_⟩
        rw [hbuf _ (by omega) h1]; exact h2
      · exact hk

/-- The steps of a `ws_queue_push` call before its last one keep the invariant. -/
theorem Sys.Inv.pushStep {s : Sys} (h : s.Inv) (pc : PushPC) (ho : s.owner = .push pc)
    (hpc : ∀ v b, pc ≠ .stored v b) : s.ownerStep.Inv := by
  have hown := h.owner_ok
  have hble := h.bottom_le_hi
  have hhi : s.hi = s.q.bottom := by simp [Sys.hi, ho]
  have hcl : s.claimed = none := by simp [Sys.claimed, ho]
  unfold Sys.ownerOK at hown
  rw [ho] at hown
  unfold Sys.ownerStep
  rw [ho]
  cases pc with
  | entry v =>
    apply h.transfer <;> simp [Sys.hi, Sys.claimed, Sys.buf, Sys.ownerOK, ho, push_step, hown]
  | gotBottom v b =>
    apply h.transfer <;> simp [Sys.hi, Sys.claimed, Sys.buf, Sys.ownerOK, ho, push_step, hown]
  | gotTop v b t =>
    simp only [push_step]
    obtain ⟨h1, h2, h3, h4⟩ := hown
    by_cases hf : b - t > (s.q.array.capacity : Int) - 1
    · simp only [hf, if_true, logPush]
      apply h.transfer <;> simp [Sys.hi, Sys.claimed, Sys.buf, Sys.ownerOK, ho]
    · simp only [hf, if_false]
      have h0 := h.top_nonneg
      have htl := h.top_le_hi
      apply h.transfer <;>
        simp only [Sys.hi, Sys.claimed, Sys.buf, Sys.ownerOK, ho, ws_array_t.store]
      · intro i hi1 hi2
        rw [Function.update_noteq]
        intro e
        have := slot_inj (by omega) (by omega) (by omega) (by omega) e
        omega
      · exact le_rfl
      · refine ⟨h1, h2, h3, by omega, ?_⟩
        simp
  | stored v b => exact absurd rfl (hpc v b)
  | done r => exact hown.elim

/-- The last step of a `ws_queue_push` call, the store of `bottom`, makes the
item live. -/
theorem Sys.Inv.pushLast {s : Sys} (h : s.Inv) (v : Ptr) (b : Int)
    (ho : s.owner = .push (.stored v b)) : s.ownerStep.Inv := by
  have hown := h.owner_ok
  have hhi : s.hi = s.q.bottom := by simp [Sys.hi, ho]
  have hcl : s.claimed = none := by simp [Sys.claimed, ho]
  unfold Sys.ownerOK at hown
  rw [ho] at hown
  obtain ⟨h1, h2, h3, h4, h5⟩ := hown
  subst h3
  have h0 := h.top_nonneg
  have htl := h.top_le_hi
  unfold Sys.ownerStep
  rw [ho]
  simp only [push_step, logPush, PushPC.arg, if_true]
  have hvr : v ∉ s.returned := fun hr => h2 (h.ret_pushed v hr)
  refine ⟨h0, ?_, ?_, ?_, trivial, ?_, ?_, ?_, ?_, h.ret_nodup, ?_, ?_, ?_, ?_, ?_⟩
  · show s.q.top ≤ s.q.bottom + 1
    omega
  · show s.q.bottom + 1 - s.q.top ≤ (s.q.array.capacity : Int)
    omega
  · exact le_rfl
  · intro i hi1 hi2
    change i < s.q.bottom + 1 at hi2
    change s.buf i ∈ v :: s.pushed
    by_cases e : i = s.q.bottom
    · subst e; rw [h5]; exact List.mem_cons_self _ _
    · exact List.mem_cons_of_mem _ (h.live_pushed i hi1 (by omega))
  · intro i hi1 hi2
    change i < s.q.bottom + 1 at hi2
    change s.buf i ∉ s.returned
    by_cases e : i = s.q.bottom
    · subst e; rw [h5]; exact hvr
    · exact h.live_fresh i hi1 (by omega)
  · intro i j hi1 hi2 hj1 hj2 e
    change i < s.q.bottom + 1 at hi2
    change j < s.q.bottom + 1 at hj2
    change s.buf i = s.buf j at e
    by_cases ei : i = s.q.bottom
    · by_cases ej : j = s.q.bottom
      · omega
      · exfalso
        have := h.live_pushed j hj1 (by omega)
        rw [← e, ei, h5] at this
        exact h2 this
    · by_cases ej : j = s.q.bottom
      · exfalso
        have := h.live_pushed i hi1 (by omega)
        rw [e, ej, h5] at this
        exact h2 this
      · exact h.live_inj i j hi1 (by omega) hj1 (by omega) e
  · intro c hc
    simp [Sys.claimed] at hc
  · intro x hx
    exact List.mem_cons_of_mem _ (h.ret_pushed x hx)
  · exact List.nodup_cons.2 ⟨h2, h.pushed_nodup⟩
  · intro hn
    rcases List.mem_cons.1 hn with e | e
    · exact h1 e.symm
    · exact h.pushed_nonnull e
  · intro x hx
    rcases List.mem_cons.1 hx with e | e
    · right; right
      exact ⟨s.q.bottom, by show s.q.top ≤ s.q.bottom; omega,
        by show s.q.bottom < s.q.bottom + 1; omega, by rw [e]; exact h5⟩
    · rcases h.conserved x e with c1 | c1 | ⟨i, c1, c2, c3⟩
      · exact Or.inl c1
      · rw [hcl] at c1; cases c1
      · right; right
        exact ⟨i, c1, by show i < s.q.bottom + 1; omega, c3⟩
  · intro k
    have hk := h.thieves_ok k
    change Sys.thiefOK _ (s.thief k)
    revert hk
    cases s.thief k with
    | none => exact id
    | some pc =>
      cases pc <;> simp only [Sys.thiefOK, Sys.hi, ho] <;> intro hk
      · trivial
      · exact hk
      · exact ⟨hk.1, fun e => by have := hk.2 e; omega⟩
      · refine ⟨hk.1, fun e => ?_⟩
        obtain ⟨a1, a2⟩ := hk.2 e
        exact ⟨by omega, a2⟩
      · exact hk

/-- A step in which the owner returns the item it had taken out of the queue
keeps the invariant. -/
theorem Sys.Inv.retClaimed {s s1 : Sys} (h : s.Inv) (v : Ptr) (hv : s.claimed = some v)
    (htop : s1.q.top = s.q.top) (hcap : s1.q.array.capacity = s.q.array.capacity)
    (hhi : s1.hi = s.hi)
    (hbuf : ∀ i, s1.buf i = s.buf i)
    (hcl : s1.claimed = none) (hp : s1.pushed = s.pushed)
    (hr : s1.returned = v :: s.returned) (hth : s1.thief = s.thief)
    (hb : s1.q.bottom ≤ s1.hi) (hown : s1.ownerOK) : s1.Inv := by
  obtain ⟨v1, v2, v3⟩ := h.claimed_ok v hv
  refine ⟨?_, ?_, ?_, hb, hown, ?_, ?_, ?_, ?_, ?_, ?_, ?_, ?_, ?_, ?_⟩
  · rw [htop]; exact h.top_nonneg
  · rw [htop, hhi]; exact h.top_le_hi
  · rw [htop, hhi, hcap]; exact h.hi_le
  · intro i h1 h2
    rw [htop] at h1; rw [hhi] at h2
    rw [hbuf i, hp]; exact h.live_pushed i h1 h2
  · intro i h1 h2
    rw [htop] at h1; rw [hhi] at h2
    rw [hbuf i, hr, List.mem_cons, not_or]
    exact ⟨v3 i h1 h2, h.live_fresh i h1 h2⟩
  · intro i j h1 h2 h3 h4
    rw [htop] at h1 h3; rw [hhi] at h2 h4
    rw [hbuf i, hbuf j]; exact h.live_inj i j h1 h2 h3 h4
  · intro c hc
    rw [hcl] at hc; cases hc
  · rw [hr]; exact List.nodup_cons.2 ⟨v2, h.ret_nodup⟩
  · rw [hr, hp]
    intro x hx
    rcases List.mem_cons.1 hx with e | e
    · exact e ▸ v1
    · exact h.ret_pushed x e
  · rw [hp]; exact h.pushed_nodup
  · rw [hp]; exact h.pushed_nonnull
  · intro x hx
    rw [hp] at hx
    rw [hr, htop, hhi]
    rcases h.conserved x hx with h1 | h1 | ⟨i, h1, h2, h3⟩
    · exact Or.inl (List.mem_cons_of_mem _ h1)
    · left
      rw [hv] at h1
      cases h1
      exact List.mem_cons_self _ _
    · exact Or.inr (Or.inr ⟨i, h1, h2, by rw [hbuf i]; exact h3⟩)
  · intro k
    rw [hth]
    have hk := h.thieves_ok k
    revert hk
    cases s.thief k with
    | none => exact id
    | some pc =>
      cases pc <;> simp only [Sys.thiefOK, htop, hhi, hbuf] <;> exact id

/-- The load of `top` in `ws_queue_pop`, when it finds `top < bottom`: the owner
takes the item of the last live index. -/
theorem Sys.Inv.popClaim {s : Sys} (h : s.Inv) (b : Int) (ho : s.owner = .pop (.stored b))
    (hlt : s.q.top < b) : Sys.Inv { s with owner := .pop (.gotTop b s.q.top) } := by
  have hown := h.owner_ok
  unfold Sys.ownerOK at hown
  rw [ho] at hown
  have hhi : s.hi = b + 1 := by simp [Sys.hi, ho]
  have hcl : s.claimed = none := by simp [Sys.claimed, ho]
  have hhi1 : Sys.hi { s with owner := .pop (.gotTop b s.q.top) } = b := by
    simp [Sys.hi, hlt]
  have hcl1 : Sys.claimed { s with owner := .pop (.gotTop b s.q.top) } = some (s.buf b) := by
    simp [Sys.claimed, hlt, Sys.buf]
  have hle := h.hi_le
  refine ⟨h.top_nonneg, ?_, ?_, ?_, ?_, ?_, ?_, ?_, ?_, h.ret_nodup, h.ret_pushed,
    h.pushed_nodup, h.pushed_nonnull, ?_, ?_⟩
  · rw [hhi1]; exact le_of_lt hlt
  · rw [hhi1]; show b - s.q.top ≤ (s.q.array.capacity : Int); omega
  · rw [hhi1]; show s.q.bottom ≤ b; omega
  · exact ⟨hown, le_rfl⟩
  · intro i h1 h2
    rw [hhi1] at h2
    exact h.live_pushed i h1 (by omega)
  · intro i h1 h2
    rw [hhi1] at h2
    exact h.live_fresh i h1 (by omega)
  · intro i j h1 h2 h3 h4
    rw [hhi1] at h2 h4
    exact h.live_inj i j h1 (by omega) h3 (by omega)
  · intro c hc
    rw [hcl1] at hc
    cases hc
    refine ⟨h.live_pushed b (le_of_lt hlt) (by omega), h.live_fresh b (le_of_lt hlt) (by omega),
      ?_⟩
    intro i h1 h2 e
    rw [hhi1] at h2
    have := h.live_inj i b h1 (by omega) (le_of_lt hlt) (by omega) e
    omega
  · intro x hx
    rw [hcl1, hhi1]
    rcases h.conserved x hx with c1 | c1 | ⟨i, c1, c2, c3⟩
    · exact Or.inl c1
    · rw [hcl] at c1; cases c1
    · by_cases e : i = b
      · right; left; rw [← c3, e]
      · right; right
        exact ⟨i, c1, by omega, c3⟩
  · intro k
    have hk := h.thieves_ok k
    change Sys.thiefOK _ (s.thief k)
    revert hk
    cases s.thief k with
    | none => exact id
    | some pc =>
      cases pc <;> simp only [Sys.thiefOK, hhi, hhi1] <;> intro hk
      · trivial
      · exact hk
      · exact ⟨hk.1, fun e => by omega⟩
      · refine ⟨hk.1, fun e => ⟨by omega, (hk.2 e).2⟩⟩
      · exact hk

/-- The compare-and-swap of `ws_queue_pop`, when it succeeds: the owner takes the
item of the only live index. -/
theorem Sys.Inv.popWin {s : Sys} (h : s.Inv) (b : Int) (v : Ptr)
    (ho : s.owner = .pop (.cas b s.q.top v)) :
    Sys.Inv { s with q := { s.q with top := s.q.top + 1 }, owner := .pop (.restore b v) } := by
  have hown := h.owner_ok
  unfold Sys.ownerOK at hown
  rw [ho] at hown
  obtain ⟨o1, o2, -, o4⟩ := hown
  have hhi : s.hi = b + 1 := by simp [Sys.hi, ho]
  have hcl : s.claimed = none := by simp [Sys.claimed, ho]
  have hvp : v ∈ s.pushed := o4 ▸ h.live_pushed b (by omega) (by omega)
  have hvr : v ∉ s.returned := o4 ▸ h.live_fresh b (by omega) (by omega)
  have hvn : v ≠ NULL := fun e => h.pushed_nonnull (e ▸ hvp)
  have hhi1 : ∀ q1 : ws_queue_t, Sys.hi { s with q := q1, owner := .pop (.restore b v) }
      = b + 1 := by
    intro q1; simp [Sys.hi]
  have hcl1 : ∀ q1 : ws_queue_t, Sys.claimed { s with q := q1, owner := .pop (.restore b v) }
      = some v := by
    intro q1; simp [Sys.claimed, hvn]
  have h0 := h.top_nonneg
  refine ⟨?_, ?_, ?_, ?_, ?_, ?_, ?_, ?_, ?_, h.ret_nodup, h.ret_pushed,
    h.pushed_nodup, h.pushed_nonnull, ?_, ?_⟩
  · show 0 ≤ s.q.top + 1; omega
  · rw [hhi1]; show s.q.top + 1 ≤ b + 1; omega
  · rw [hhi1]; show b + 1 - (s.q.top + 1) ≤ (s.q.array.capacity : Int); omega
  · rw [hhi1]; show s.q.bottom ≤ b + 1; omega
  · exact ⟨o1, by show s.q.top + 1 = b + 1; omega⟩
  · intro i h1 h2
    rw [hhi1] at h2
    change s.q.top + 1 ≤ i at h1
    omega
  · intro i h1 h2
    rw [hhi1] at h2
    change s.q.top + 1 ≤ i at h1
    omega
  · intro i j h1 h2 h3 h4
    rw [hhi1] at h2
    change s.q.top + 1 ≤ i at h1
    omega
  · intro c hc
    rw [hcl1] at hc
    cases hc
    refine ⟨hvp, hvr, ?_⟩
    intro i h1 h2
    rw [hhi1] at h2
    change s.q.top + 1 ≤ i at h1
    omega
  · intro x hx
    rw [hcl1]
    rcases h.conserved x hx with c1 | c1 | ⟨i, c1, c2, c3⟩
    · exact Or.inl c1
    · rw [hcl] at c1; cases c1
    · right; left
      have e : i = b := by omega
      rw [← c3, e, o4]
  · intro k
    have hk := h.thieves_ok k
    change Sys.thiefOK _ (s.thief k)
    revert hk
    cases s.thief k with
    | none => exact id
    | some pc =>
      cases pc <;> simp only [Sys.thiefOK, hhi, hhi1] <;> intro hk
      · trivial
      · omega
      · exact ⟨by omega, fun e => by omega⟩
      · exact ⟨by omega, fun e => by omega⟩
      · exact hk

/-- The steps of a `ws_queue_pop` call keep the invariant. -/
theorem Sys.Inv.popStep {s : Sys} (h : s.Inv) (pc : PopPC) (ho : s.owner = .pop pc) :
    s.ownerStep.Inv := by
  have hown := h.owner_ok
  have hble := h.bottom_le_hi
  have h0 := h.top_nonneg
  have htl := h.top_le_hi
  have hle := h.hi_le
  unfold Sys.ownerOK at hown
  rw [ho] at hown
  unfold Sys.ownerStep
  rw [ho]
  cases pc with
  | entry =>
    apply h.transfer <;> simp [Sys.hi, Sys.claimed, Sys.buf, Sys.ownerOK, ho, pop_step]
  | gotBottom b =>
    apply h.transfer <;> simp [Sys.hi, Sys.claimed, Sys.buf, Sys.ownerOK, ho, pop_step, hown]
  | stored b =>
    simp only [pop_step]
    by_cases hlt : s.q.top < b
    · exact h.popClaim b ho hlt
    · apply h.transfer <;> simp [Sys.hi, Sys.claimed, Sys.buf, Sys.ownerOK, ho, hlt]
      all_goals omega
  | gotTop b t =>
    simp only [pop_step]
    obtain ⟨o1, o2⟩ := hown
    subst o1
    by_cases hle1 : t ≤ s.q.bottom
    · simp only [hle1, if_true]
      by_cases heq : t = s.q.bottom
      · simp only [heq, if_true]
        apply h.transfer <;> simp [Sys.hi, Sys.claimed, Sys.buf, Sys.ownerOK, ho, heq]
        omega
      · simp only [heq, if_false]
        have hlt : t < s.q.bottom := by omega
        have hcl : s.claimed = some (s.buf s.q.bottom) := by simp [Sys.claimed, ho, hlt]
        have hvn : s.buf s.q.bottom ≠ NULL := fun e =>
          h.pushed_nonnull (e ▸ (h.claimed_ok _ hcl).1)
        apply h.retClaimed (s.buf s.q.bottom) hcl <;>
          simp [Sys.hi, Sys.claimed, Sys.buf, Sys.ownerOK, ho, hlt]
        exact logReturn_of_ne hvn _
    · simp only [hle1, if_false, logReturn_null]
      have hlt : ¬ t < s.q.bottom := by omega
      apply h.transfer <;> simp [Sys.hi, Sys.claimed, Sys.buf, Sys.ownerOK, ho, hlt]
  | cas b t v =>
    simp only [pop_step, cmpswap_top]
    obtain ⟨o1, o2, o3, o4⟩ := hown
    by_cases ht : s.q.top = t
    · subst ht
      simp only [if_true]
      exact h.popWin b v ho
    · simp only [ht, if_false]
      have hhi : s.hi = b + 1 := by simp [Sys.hi, ho]
      apply h.transfer <;> simp [Sys.hi, Sys.claimed, Sys.buf, Sys.ownerOK, ho, o1]
      all_goals omega
  | restore b v =>
    simp only [pop_step]
    obtain ⟨o1, o2⟩ := hown
    by_cases hv : v = NULL
    · subst hv
      simp only [logReturn_null]
      apply h.transfer <;> simp [Sys.hi, Sys.claimed, Sys.buf, Sys.ownerOK, ho, o1]
    · have hcl : s.claimed = some v := by simp [Sys.claimed, ho, hv]
      apply h.retClaimed v hcl <;>
        simp [Sys.hi, Sys.claimed, Sys.buf, Sys.ownerOK, ho, o1]
      exact logReturn_of_ne hv _
  | done r => exact hown.elim

/-- A step of the owner keeps the invariant. -/
theorem Sys.Inv.ownerStep {s : Sys} (h : s.Inv) : s.ownerStep.Inv := by
  cases ho : s.owner with
  | idle =>
    unfold Sys.ownerStep
    rw [ho]
    exact h
  | push pc =>
    by_cases hpc : ∃ v b, pc = .stored v b
    · obtain ⟨v, b, rfl⟩ := hpc
      exact h.pushLast v b ho
    · exact h.pushStep pc ho (fun v b e => hpc ⟨v, b, e⟩)
  | pop pc => exact h.popStep pc ho

/-- Every action keeps the invariant. -/
theorem Sys.Inv.step {s : Sys} (h : s.Inv) (N : Nat) (a : Act) : (s.step N a).Inv := by
  cases a with
  | callPush v =>
    unfold Sys.step
    cases ho : s.owner with
    | idle =>
      simp only
      by_cases hg : v ≠ NULL ∧ v ∉ s.pushed
      · rw [if_pos hg]
        apply h.transfer <;> simp [Sys.hi, Sys.claimed, Sys.buf, Sys.ownerOK, ho, hg]
      · rw [if_neg hg]
        exact h
    | push pc => exact h
    | pop pc => exact h
  | callPop =>
    unfold Sys.step
    cases ho : s.owner with
    | idle =>
      apply h.transfer <;> simp [Sys.hi, Sys.claimed, Sys.buf, Sys.ownerOK, ho]
    | push pc => exact h
    | pop pc => exact h
  | callSteal i =>
    unfold Sys.step
    by_cases hi : i < N
    · simp only [hi, if_true]
      cases hti : s.thief i with
      | none => exact h.set_thief i (some .entry) trivial
      | some pc => exact h
    · simp only [hi, if_false]
      exact h
  | owner => exact h.ownerStep
  | thief i =>
    unfold Sys.step
    by_cases hi : i < N
    · simp only [hi, if_true]
      exact h.thiefStep i
    · simp only [hi, if_false]
      exact h

/-- The invariant holds in the initial state. -/
theorem Sys.init_inv (a : ws_array_t) (t0 : Int) (h0 : 0 ≤ t0) : (Sys.init a t0).Inv := by
  refine ⟨h0, ?_, ?_, ?_, trivial, ?_, ?_, ?_, ?_, List.nodup_nil, ?_, List.nodup_nil, ?_, ?_, ?_⟩
  · exact le_refl t0
  · show t0 - t0 ≤ (a.capacity : Int)
    omega
  · exact le_refl t0
  · intro i h1 h2
    change t0 ≤ i at h1
    change i < t0 at h2
    omega
  · intro i h1 h2
    change t0 ≤ i at h1
    change i < t0 at h2
    omega
  · intro i j h1 h2
    change t0 ≤ i at h1
    change i < t0 at h2
    omega
  · intro c hc
    cases hc
  · intro x hx
    cases hx
  · intro hx
    cases hx
  · intro x hx
    cases hx
  · intro k
    trivial

/-- The invariant holds after every execution. -/
theorem Sys.run_inv (N : Nat) (acts : List Act) : ∀ s : Sys, s.Inv → (s.run N acts).Inv := by
  induction acts with
  | nil => intro s h; exact h
  | cons a as ih =>
    intro s h
    exact ih (s.step N a) (h.step N a)

/-! ### Preservation of the invariant of the idempotent queue -/

/-- Two offsets less than `c` apart from the same base have different slots. -/
theorem mod_add_ne {h j n c : Nat} (hj : j < n) (hn : n - j < c) :
    (h + j) % c ≠ (h + n) % c := by
  intro e
  have e1 : j ≡ n [MOD c] := Nat.ModEq.add_left_cancel' h e
  have e2 : c ∣ n - j := (Nat.modEq_iff_dvd' (le_of_lt hj)).1 e1
  have e3 : c ≤ n - j := Nat.le_of_dvd (by omega) e2
  omega

/-- Congruent bases stay congruent when the same offset is added. -/
theorem mod_shift {x y c : Nat} (h : x % c = y % c) (j : Nat) : (x + j) % c = (y + j) % c :=
  Nat.ModEq.add_right j h

/-- The slot `j` places after the head stored by a steal. -/
theorem mod_succ_add (x j c : Nat) : ((x + 1) % c + j) % c = (x + (j + 1)) % c := by
  rw [Nat.mod_add_mod]
  congr 1
  omega

/-- The contents of a slot depend on the index modulo the capacity only. -/
theorem ISys.buf_congr (s : ISys) {n m : Nat}
    (h : n % s.q.array.capacity = m % s.q.array.capacity) : s.buf n = s.buf m := by
  unfold ISys.buf
  rw [h]

/-- The slots of the current anchor are slots of the owner's view. -/
theorem ISys.Inv.anchor_slot {s : ISys} (h : s.Inv) :
    ∃ k, s.q.anchor.size + k = s.view.size ∧
      ∀ j, s.buf (s.q.anchor.head + j) = s.buf (s.view.head + (k + j)) := by
  obtain ⟨k, h1, h2⟩ := h.stolen
  refine ⟨k, h1, fun j => ?_⟩
  apply s.buf_congr
  rw [← Nat.add_assoc]
  exact mod_shift h2 j

/-- No return to an earlier anchor: an anchor whose end `head + size` is `p ≥ 1`
slots after the end of the owner's view is not the current anchor. -/
theorem no_aba {c ah asz vh vsz k p : Nat} (hk1 : asz + k = vsz)
    (hk2 : ah % c = (vh + k) % c) (hs : asz ≠ 0) (hp : p ≠ 0)
    (h1 : (ah + asz) % c = (vh + vsz + p) % c) (h2 : vsz + p ≤ c) : False := by
  have e1 : (ah + asz) % c = (vh + vsz) % c := by
    have := mod_shift hk2 asz
    rw [this]
    congr 1
    omega
  rw [e1] at h1
  have e2 : 0 ≡ p [MOD c] := Nat.ModEq.add_left_cancel' (vh + vsz) h1
  have e3 : c ∣ p := (Nat.modEq_zero_iff_dvd).1 e2.symm
  have e4 : c ≤ p := Nat.le_of_dvd (by omega) e3
  omega

/-- The owner's view is either the current anchor (between two calls and before
the load of a call) or the anchor loaded by the call in progress. -/
theorem ISys.view_cases (s : ISys) :
    (∀ (q1 : idemp_ws_queue_t) (th : Nat → Option IStealPC) (r : List Ptr),
        ISys.view { s with q := q1, thief := th, returned := r } = q1.anchor) ∨
    (∀ (q1 : idemp_ws_queue_t) (th : Nat → Option IStealPC) (r : List Ptr),
        ISys.view { s with q := q1, thief := th, returned := r } = s.view) := by
  unfold ISys.view
  cases s.owner with
  | idle => left; intros; rfl
  | push pc => cases pc <;> first | (left; intros; rfl) | (right; intros; rfl)
  | pop pc => cases pc <;> first | (left; intros; rfl) | (right; intros; rfl)

/-- Changing the program counter of one thief to one that is consistent with the
shared state keeps the invariant. -/
theorem ISys.Inv.set_thief_idemp {s : ISys} (h : s.Inv) (i : Nat) (pc : Option IStealPC)
    (hpc : s.thiefOK pc) : ISys.Inv { s with thief := Function.update s.thief i pc } := by
  refine ⟨h.view_le, h.tag_eq, h.stolen, h.owner_ok, h.window, h.kept, h.ret_pushed,
    h.pushed_nonnull, ?_⟩
  intro k
  by_cases hk : k = i
  · subst hk
    simpa [Function.update] using hpc
  · have := h.thieves_ok k
    simpa [Function.update, hk] using this

/-- A step that changes neither the anchor, nor the owner's view and its slots,
nor the slot under the current head, nor the records, keeps the invariant
provided the new program counter of the owner is consistent with the new
state. -/
theorem ISys.Inv.transfer_idemp {s s1 : ISys} (h : s.Inv)
    (hanc : s1.q.anchor = s.q.anchor) (hcap : s1.q.array.capacity = s.q.array.capacity)
    (hview : s1.view = s.view)
    (hbuf : ∀ j, j < s.view.size → s1.buf (s.view.head + j) = s.buf (s.view.head + j))
    (hp : s1.pushed = s.pushed) (hr : s1.returned = s.returned) (hth : s1.thief = s.thief)
    (hown : s1.ownerOK) : s1.Inv := by
  obtain ⟨k, hk1, hk2⟩ := h.anchor_slot
  have hk3 : ∀ j, s1.buf (s.q.anchor.head + j) = s1.buf (s.view.head + (k + j)) := by
    obtain ⟨k1, a1, a2⟩ := h.stolen
    have : k1 = k := by omega
    subst this
    intro j
    apply s1.buf_congr
    rw [hcap, ← Nat.add_assoc]
    exact mod_shift a2 j
  have hwin : ∀ j, j < s.q.anchor.size → s1.buf (s.q.anchor.head + j)
      = s.buf (s.q.anchor.head + j) := by
    intro j hj
    rw [hk3, hk2]
    exact hbuf _ (by omega)
  refine ⟨?_, ?_, ?_, hown, ?_, ?_, ?_, ?_, ?_⟩
  · rw [hview, hcap]; exact h.view_le
  · rw [hview, hanc]; exact h.tag_eq
  · rw [hview, hanc, hcap]; exact h.stolen
  · intro j hj
    rw [hview] at hj ⊢
    rw [hbuf j hj, hp]
    exact h.window j hj
  · intro x hx
    rw [hp] at hx
    rw [hr, hanc]
    rcases h.kept x hx with c1 | ⟨j, c1, c2⟩
    · exact Or.inl c1
    · exact Or.inr ⟨j, c1, by rw [hwin j c1]; exact c2⟩
  · rw [hr, hp]; exact h.ret_pushed
  · rw [hp]; exact h.pushed_nonnull
  · intro i
    rw [hth]
    have hi := h.thieves_ok i
    revert hi
    cases s.thief i with
    | none => exact id
    | some pc =>
      cases pc <;> simp only [ISys.thiefOK, ISys.past, hanc, hview, hcap] <;> intro hi
      · trivial
      · exact hi
      · refine ⟨hi.1, hi.2.1, hi.2.2.1, fun e => ?_⟩
        rw [hi.2.2.2 e]
        subst e
        have := hwin 0 (Nat.pos_of_ne_zero hi.1)
        simpa using this.symm
      · exact hi

/-- A thief that wins the compare-and-swap of the anchor takes the item under
the head out of the queue and returns it. -/
theorem ISys.Inv.steal_win_idemp {s : ISys} (h : s.Inv) (i : Nat) (elt : Ptr)
    (hk : s.thiefOK (some (.gotElt s.q.anchor elt))) :
    ISys.Inv { s with
      q := { s.q with anchor :=
        ⟨(s.q.anchor.head + 1) % s.q.array.capacity, s.q.anchor.size - 1, s.q.anchor.tag⟩ },
      thief := Function.update s.thief i none,
      returned := logReturn elt s.returned } := by
  obtain ⟨hs, -, -, he⟩ := hk
  have he := he rfl
  obtain ⟨k, hk1, hk2⟩ := h.stolen
  obtain ⟨k0, hk3, hk4⟩ := h.anchor_slot
  have hk0 : k0 = k := by omega
  rw [hk0] at hk3 hk4
  have hep : elt ∈ s.pushed := by
    rw [he]
    have := hk4 0
    rw [Nat.add_zero] at this
    rw [this]
    exact h.window _ (by omega)
  have hen : elt ≠ NULL := fun e => h.pushed_nonnull (e ▸ hep)
  rw [logReturn_of_ne hen]
  have hbuf : ∀ j, s.buf ((s.q.anchor.head + 1) % s.q.array.capacity + j)
      = s.buf (s.q.anchor.head + (j + 1)) := by
    intro j
    apply s.buf_congr
    exact mod_succ_add _ _ _
  have hvle := h.view_le
  have htag := h.tag_eq
  -- the facts that depend on the owner's view
  have hview : ∃ V : ws_anchor_t,
      ISys.view { s with
        q := { s.q with anchor :=
          ⟨(s.q.anchor.head + 1) % s.q.array.capacity, s.q.anchor.size - 1, s.q.anchor.tag⟩ },
        thief := Function.update s.thief i none,
        returned := elt :: s.returned } = V ∧
      V.size ≤ s.view.size ∧ V.tag = s.view.tag ∧
      (∃ k1, s.q.anchor.size - 1 + k1 = V.size ∧
        (s.q.anchor.head + 1) % s.q.array.capacity % s.q.array.capacity
          = (V.head + k1) % s.q.array.capacity) ∧
      (∀ j, j < V.size → s.buf (V.head + j) ∈ s.pushed) ∧
      (∀ p, (V.head + V.size + p) % s.q.array.capacity
        = (s.view.head + s.view.size + p) % s.q.array.capacity) := by
    rcases s.view_cases with hv | hv
    · have hv0 : s.view = s.q.anchor := hv s.q s.thief s.returned
      refine ⟨_, hv _ _ _, ?_, ?_, ⟨0, rfl, ?_⟩, ?_, ?_⟩
      · show s.q.anchor.size - 1 ≤ s.view.size
        rw [hv0]; omega
      · show s.q.anchor.tag = s.view.tag
        rw [hv0]
      · simp
      · intro j hj
        change j < s.q.anchor.size - 1 at hj
        show s.buf ((s.q.anchor.head + 1) % s.q.array.capacity + j) ∈ s.pushed
        rw [hbuf]
        have := h.window (j + 1) (by rw [hv0]; omega)
        rw [hv0] at this
        exact this
      · intro p
        show ((s.q.anchor.head + 1) % s.q.array.capacity + (s.q.anchor.size - 1) + p)
          % s.q.array.capacity = _
        rw [hv0, Nat.add_assoc, Nat.mod_add_mod]
        congr 1
        omega
    · refine ⟨_, hv _ _ _, le_rfl, rfl, ⟨k + 1, by omega, ?_⟩, h.window, fun p => rfl⟩
      rw [Nat.mod_mod, ← Nat.add_assoc]
      exact mod_shift hk2 1
  obtain ⟨V, hV, hV1, hV2, hV3, hV4, hV5⟩ := hview
  refine ⟨?_, ?_, ?_, h.owner_ok, ?_, ?_, ?_, h.pushed_nonnull, ?_⟩
  · rw [hV]; exact le_trans hV1 hvle
  · rw [hV, hV2]; exact htag
  · rw [hV]
    exact hV3
  · rw [hV]; exact hV4
  · intro x hx
    rcases h.kept x hx with c1 | ⟨j, c1, c2⟩
    · exact Or.inl (List.mem_cons_of_mem _ c1)
    · cases j with
      | zero =>
        left
        rw [Nat.add_zero] at c2
        rw [← c2, ← he]
        exact List.mem_cons_self _ _
      | succ j =>
        right
        refine ⟨j, ?_, ?_⟩
        · show j < s.q.anchor.size - 1
          omega
        · show s.buf ((s.q.anchor.head + 1) % s.q.array.capacity + j) = x
          rw [hbuf]; exact c2
  · intro x hx
    rcases List.mem_cons.1 hx with e | e
    · exact e ▸ hep
    · exact h.ret_pushed x e
  · intro m
    by_cases hmi : m = i
    · subst hmi
      simp [Function.update, ISys.thiefOK]
    · have hth := h.thieves_ok m
      have e : (Function.update s.thief i none) m = s.thief m := by
        simp [Function.update, hmi]
      show ISys.thiefOK _ ((Function.update s.thief i none) m)
      rw [e]
      have hpast : ∀ a : ws_anchor_t, a.size ≠ 0 → s.past a →
          (ISys.past { s with
            q := { s.q with anchor :=
              ⟨(s.q.anchor.head + 1) % s.q.array.capacity, s.q.anchor.size - 1,
                s.q.anchor.tag⟩ },
            thief := Function.update s.thief i none,
            returned := elt :: s.returned } a) ∧
          a ≠ ⟨(s.q.anchor.head + 1) % s.q.array.capacity, s.q.anchor.size - 1,
                s.q.anchor.tag⟩ := by
        intro a has ⟨p, p1, p2, p3⟩
        have hp' : (a.head + a.size) % s.q.array.capacity
            = (V.head + V.size + p) % s.q.array.capacity := by
          rw [hV5 p]; exact p1
        refine ⟨⟨p, ?_, ?_, ?_⟩, ?_⟩
        · rw [hV]; exact hp'
        · rw [hV]; show V.size + p ≤ s.q.array.capacity; omega
        · intro e0
          have := p3 e0
          show s.q.anchor.size - 1 ≤ a.size
          omega
        · intro e0
          by_cases hp0 : p = 0
          · have := p3 hp0
            have e1 := congrArg ws_anchor_t.size e0
            simp only at e1
            omega
          · obtain ⟨k1, a1, a2⟩ := hV3
            have e1 := congrArg ws_anchor_t.size e0
            have e2 := congrArg ws_anchor_t.head e0
            simp only at e1 e2
            rw [Nat.mod_mod] at a2
            refine @no_aba s.q.array.capacity a.head a.size V.head V.size k1 p (by omega) ?_ has
              hp0 hp' (by omega)
            rw [e2, Nat.mod_mod]; exact a2
      revert hth
      cases s.thief m with
      | none => exact id
      | some pc =>
        cases pc with
        | entry => exact id
        | gotAnchor a =>
          intro hth
          obtain ⟨t1, t2, t3⟩ := hth
          exact ⟨t1, t2, fun e => (hpast a t1 (t3 e)).1⟩
        | gotElt a elt1 =>
          intro hth
          obtain ⟨t1, t2, t3, t4⟩ := hth
          refine ⟨t1, t2, fun e => (hpast a t1 (t3 e)).1, fun e => ?_⟩
          exfalso
          have e1 : a.tag = s.q.anchor.tag := by
            have := congrArg ws_anchor_t.tag e
            exact this.symm
          exact (hpast a t1 (t3 e1)).2 e.symm
        | done r => exact id

/-- The anchor a thief has just loaded lies in the past of the current state,
with no pop completed since. -/
theorem ISys.Inv.past_anchor {s : ISys} (h : s.Inv) : s.past s.q.anchor := by
  obtain ⟨k, hk1, hk2⟩ := h.stolen
  refine ⟨0, ?_, h.view_le, fun _ => le_rfl⟩
  have := mod_shift hk2 s.q.anchor.size
  rw [this]
  congr 1
  omega

/-- A step of a thief keeps the invariant. -/
theorem ISys.Inv.thiefStep_idemp {s : ISys} (h : s.Inv) (i : Nat) : (s.thiefStep i).Inv := by
  unfold ISys.thiefStep
  have hk := h.thieves_ok i
  cases hti : s.thief i with
  | none => exact h
  | some pc =>
    rw [hti] at hk
    cases pc with
    | entry =>
      simp only [isteal_step]
      by_cases hz : s.q.anchor.size = 0
      · simp only [hz, if_true, logReturn_null]
        exact h.set_thief_idemp i none trivial
      · simp only [hz, if_false]
        exact h.set_thief_idemp i (some (.gotAnchor s.q.anchor))
          ⟨hz, le_rfl, fun _ => h.past_anchor⟩
    | gotAnchor a =>
      exact h.set_thief_idemp i (some (.gotElt a (s.buf a.head))) ⟨hk.1, hk.2.1, hk.2.2, fun _ => rfl⟩
    | gotElt a elt =>
      simp only [isteal_step, cmpswap_anchor]
      by_cases ha : s.q.anchor = a
      · subst ha
        simp only [if_true]
        exact h.steal_win_idemp i elt hk
      · simp only [ha, if_false, logReturn_null]
        exact h.set_thief_idemp i none trivial
    | done r => exact hk.elim

/-- The steps of an `idemp_ws_queue_push` call before its last one keep the
invariant. -/
theorem ISys.Inv.pushStep_idemp {s : ISys} (h : s.Inv) (pc : IPushPC) (ho : s.owner = .push pc)
    (hpc : ∀ v a, pc ≠ .wrote v a) : s.ownerStep.Inv := by
  have hown := h.owner_ok
  have hvle := h.view_le
  obtain ⟨k, hk1, hk2⟩ := h.stolen
  unfold ISys.ownerOK at hown
  rw [ho] at hown
  unfold ISys.ownerStep
  rw [ho]
  cases pc with
  | entry v =>
    have hv : s.view = s.q.anchor := by simp [ISys.view, ho]
    simp only [ipush_step]
    by_cases hf : s.q.anchor.size = s.q.array.capacity
    · simp only [hf, if_true, logPush]
      apply h.transfer_idemp <;> simp [ISys.view, ISys.buf, ISys.ownerOK, ho]
    · simp only [hf, if_false]
      apply h.transfer_idemp <;> simp [ISys.view, ISys.buf, ISys.ownerOK, ho, hown]
      rw [hv] at hvle
      omega
  | gotAnchor v a =>
    have hv : s.view = a := by simp [ISys.view, ho]
    simp only [ipush_step]
    apply h.transfer_idemp <;> simp only [ISys.view, ISys.buf, ISys.ownerOK, ho, ws_array_t.store]
    · intro j hj
      rw [Function.update_noteq]
      exact mod_add_ne hj (by have := hown.2; omega)
    · refine ⟨hown.1, hown.2, ?_⟩
      simp
  | wrote v a => exact absurd rfl (hpc v a)
  | done r => exact hown.elim

/-- The last step of an `idemp_ws_queue_push` call, the store of the anchor,
puts the item in the queue. -/
theorem ISys.Inv.pushLast_idemp {s : ISys} (h : s.Inv) (v : Ptr) (a : ws_anchor_t)
    (ho : s.owner = .push (.wrote v a)) : s.ownerStep.Inv := by
  have hown := h.owner_ok
  have hv : s.view = a := by simp [ISys.view, ho]
  have htag := h.tag_eq
  have hwin := h.window
  obtain ⟨k, hk1, hk2⟩ := h.anchor_slot
  rw [hv] at htag hwin hk1 hk2
  unfold ISys.ownerOK at hown
  rw [ho] at hown
  obtain ⟨o1, o2, o3⟩ := hown
  unfold ISys.ownerStep
  rw [ho]
  simp only [ipush_step, logPush, IPushPC.arg, if_true]
  refine ⟨?_, rfl, ⟨0, rfl, rfl⟩, trivial, ?_, ?_, ?_, ?_, ?_⟩
  · show a.size + 1 ≤ s.q.array.capacity
    omega
  · intro j hj
    change j < a.size + 1 at hj
    show s.buf (a.head + j) ∈ v :: s.pushed
    by_cases e : j = a.size
    · rw [e, o3]; exact List.mem_cons_self _ _
    · exact List.mem_cons_of_mem _ (hwin j (by omega))
  · intro x hx
    rcases List.mem_cons.1 hx with e | e
    · right
      exact ⟨a.size, by show a.size < a.size + 1; omega, by rw [e]; exact o3⟩
    · rcases h.kept x e with c1 | ⟨j, c1, c2⟩
      · exact Or.inl c1
      · right
        refine ⟨k + j, by show k + j < a.size + 1; omega, ?_⟩
        show s.buf (a.head + (k + j)) = x
        rw [← hk2]; exact c2
  · intro x hx
    exact List.mem_cons_of_mem _ (h.ret_pushed x hx)
  · intro hn
    rcases List.mem_cons.1 hn with e | e
    · exact o1 e.symm
    · exact h.pushed_nonnull e
  · intro m
    have hth := h.thieves_ok m
    change ISys.thiefOK _ (s.thief m)
    revert hth
    cases s.thief m with
    | none => exact id
    | some pc =>
      cases pc with
      | entry => exact id
      | gotAnchor a1 =>
        intro hth
        obtain ⟨t1, t2, t3⟩ := hth
        refine ⟨t1, ?_, fun e => ?_⟩
        · show a1.tag ≤ a.tag + 1
          omega
        · change a1.tag = a.tag + 1 at e
          omega
      | gotElt a1 elt1 =>
        intro hth
        obtain ⟨t1, t2, t3, t4⟩ := hth
        refine ⟨t1, ?_, fun e => ?_, fun e => ?_⟩
        · show a1.tag ≤ a.tag + 1
          omega
        · change a1.tag = a.tag + 1 at e
          omega
        · have e1 := congrArg ws_anchor_t.tag e
          change a.tag + 1 = a1.tag at e1
          omega
      | done r => exact id

/-- The last step of an `idemp_ws_queue_pop` call, the store of the anchor,
takes the last item of the owner's view out of the queue and returns it. -/
theorem ISys.Inv.popLast {s : ISys} (h : s.Inv) (a : ws_anchor_t) (elt : Ptr)
    (ho : s.owner = .pop (.gotElt a elt)) : s.ownerStep.Inv := by
  have hown := h.owner_ok
  have hv : s.view = { a with size := a.size + 1 } := by simp [ISys.view, ho]
  have htag := h.tag_eq
  have hwin := h.window
  have hvle := h.view_le
  obtain ⟨k, hk1, hk2⟩ := h.anchor_slot
  rw [hv] at htag hwin hk1 hk2 hvle
  simp only at htag hwin hk1 hk2 hvle
  unfold ISys.ownerOK at hown
  rw [ho] at hown
  have hep : elt ∈ s.pushed := hown ▸ hwin a.size (by omega)
  have hen : elt ≠ NULL := fun e => h.pushed_nonnull (e ▸ hep)
  unfold ISys.ownerStep
  rw [ho]
  simp only [ipop_step, logReturn_of_ne hen]
  refine ⟨?_, rfl, ⟨0, rfl, rfl⟩, trivial, ?_, ?_, ?_, h.pushed_nonnull, ?_⟩
  · show a.size ≤ s.q.array.capacity
    omega
  · intro j hj
    change j < a.size at hj
    exact hwin j (by omega)
  · intro x hx
    rcases h.kept x hx with c1 | ⟨j, c1, c2⟩
    · exact Or.inl (List.mem_cons_of_mem _ c1)
    · rw [hk2] at c2
      by_cases e : k + j = a.size
      · left
        rw [e, ← hown] at c2
        rw [← c2]
        exact List.mem_cons_self _ _
      · right
        exact ⟨k + j, by show k + j < a.size; omega, c2⟩
  · intro x hx
    rcases List.mem_cons.1 hx with e | e
    · exact e ▸ hep
    · exact h.ret_pushed x e
  · intro m
    have hth := h.thieves_ok m
    change ISys.thiefOK _ (s.thief m)
    have hpast : ∀ a1 : ws_anchor_t, a1.size ≠ 0 → s.past a1 →
        ISys.past { s with q := { s.q with anchor := a }, owner := .idle,
                           returned := elt :: s.returned } a1 ∧ a ≠ a1 := by
      intro a1 has ⟨p, p1, p2, p3⟩
      rw [hv] at p1 p2
      simp only at p1 p2
      have p1' : (a1.head + a1.size) % s.q.array.capacity
          = (a.head + a.size + (p + 1)) % s.q.array.capacity := by
        rw [p1]; congr 1; omega
      refine ⟨⟨p + 1, p1', ?_, fun e => by omega⟩, fun e => ?_⟩
      · show a.size + (p + 1) ≤ s.q.array.capacity
        omega
      · subst e
        exact @no_aba s.q.array.capacity a.head a.size a.head a.size 0 (p + 1) rfl rfl has
          (by omega) p1' (by omega)
    revert hth
    cases s.thief m with
    | none => exact id
    | some pc =>
      cases pc with
      | entry => exact id
      | gotAnchor a1 =>
        intro hth
        obtain ⟨t1, t2, t3⟩ := hth
        refine ⟨t1, ?_, fun e => ?_⟩
        · show a1.tag ≤ a.tag
          omega
        · change a1.tag = a.tag at e
          exact (hpast a1 t1 (t3 (by omega))).1
      | gotElt a1 elt1 =>
        intro hth
        obtain ⟨t1, t2, t3, t4⟩ := hth
        refine ⟨t1, ?_, fun e => ?_, fun e => ?_⟩
        · show a1.tag ≤ a.tag
          omega
        · change a1.tag = a.tag at e
          exact (hpast a1 t1 (t3 (by omega))).1
        · exfalso
          change a = a1 at e
          have e1 : a1.tag = a.tag := by rw [e]
          exact (hpast a1 t1 (t3 (by omega))).2 e
      | done r => exact id

/-- The steps of an `idemp_ws_queue_pop` call before its last one keep the
invariant. -/
theorem ISys.Inv.popStep_idemp {s : ISys} (h : s.Inv) (pc : IPopPC) (ho : s.owner = .pop pc)
    (hpc : ∀ a elt, pc ≠ .gotElt a elt) : s.ownerStep.Inv := by
  have hown := h.owner_ok
  unfold ISys.ownerOK at hown
  rw [ho] at hown
  unfold ISys.ownerStep
  rw [ho]
  cases pc with
  | entry =>
    simp only [ipop_step]
    by_cases hz : s.q.anchor.size = 0
    · simp only [hz, if_true, logReturn_null]
      apply h.transfer_idemp <;> simp [ISys.view, ISys.buf, ISys.ownerOK, ho]
    · simp only [hz, if_false]
      apply h.transfer_idemp <;> simp [ISys.view, ISys.buf, ISys.ownerOK, ho, hz]
  | gotAnchor a =>
    simp only [ipop_step]
    have e : a.size - 1 + 1 = a.size := by omega
    apply h.transfer_idemp <;> simp [ISys.view, ISys.buf, ISys.ownerOK, ho, e]
  | gotElt a elt => exact absurd rfl (hpc a elt)
  | done r => exact hown.elim

/-- A step of the owner keeps the invariant. -/
theorem ISys.Inv.ownerStep_idemp {s : ISys} (h : s.Inv) : s.ownerStep.Inv := by
  cases ho : s.owner with
  | idle =>
    unfold ISys.ownerStep
    rw [ho]
    exact h
  | push pc =>
    by_cases hpc : ∃ v a, pc = .wrote v a
    · obtain ⟨v, a, rfl⟩ := hpc
      exact h.pushLast_idemp v a ho
    · exact h.pushStep_idemp pc ho (fun v a e => hpc ⟨v, a, e⟩)
  | pop pc =>
    by_cases hpc : ∃ a elt, pc = .gotElt a elt
    · obtain ⟨a, elt, rfl⟩ := hpc
      exact h.popLast a elt ho
    · exact h.popStep_idemp pc ho (fun a elt e => hpc ⟨a, elt, e⟩)

/-- Every action keeps the invariant. -/
theorem ISys.Inv.step_idemp {s : ISys} (h : s.Inv) (N : Nat) (a : Act) : (s.step N a).Inv := by
  cases a with
  | callPush v =>
    unfold ISys.step
    cases ho : s.owner with
    | idle =>
      simp only
      by_cases hg : v ≠ NULL ∧ v ∉ s.pushed
      · rw [if_pos hg]
        apply h.transfer_idemp <;> simp [ISys.view, ISys.buf, ISys.ownerOK, ho, hg]
      · rw [if_neg hg]
        exact h
    | push pc => exact h
    | pop pc => exact h
  | callPop =>
    unfold ISys.step
    cases ho : s.owner with
    | idle =>
      apply h.transfer_idemp <;> simp [ISys.view, ISys.buf, ISys.ownerOK, ho]
    | push pc => exact h
    | pop pc => exact h
  | callSteal i =>
    unfold ISys.step
    by_cases hi : i < N
    · simp only [hi, if_true]
      cases hti : s.thief i with
      | none => exact h.set_thief_idemp i (some .entry) trivial
      | some pc => exact h
    · simp only [hi, if_false]
      exact h
  | owner => exact h.ownerStep_idemp
  | thief i =>
    unfold ISys.step
    by_cases hi : i < N
    · simp only [hi, if_true]
      exact h.thiefStep_idemp i
    · simp only [hi, if_false]
      exact h

/-- The invariant holds in the initial state. -/
theorem ISys.init_inv_idemp (a : ws_array_t) (head tag : Nat) : (ISys.init a head tag).Inv := by
  refine ⟨Nat.zero_le _, rfl, ⟨0, rfl, rfl⟩, trivial, ?_, ?_, ?_, ?_, fun _ => trivial⟩
  · intro j hj
    change j < 0 at hj
    omega
  · intro x hx
    cases hx
  · intro x hx
    cases hx
  · intro hx
    cases hx

/-- The invariant holds after every execution. -/
theorem ISys.run_inv_idemp (N : Nat) (acts : List Act) :
    ∀ s : ISys, s.Inv → (s.run N acts).Inv := by
  induction acts with
  | nil => intro s h; exact h
  | cons a as ih =>
    intro s h
    exact ih (s.step N a) (h.step_idemp N a)

/-! ## Exactly-once delivery (Chase-Lev queue), at-least-once delivery (idempotent queue) -/

/-- C1: in every interleaved execution of one owner (`ws_queue_push`,
`ws_queue_pop`) and `N` thieves (`ws_queue_steal_from`) on a Chase-Lev queue that
starts empty, with non-null pairwise distinct items: no item is returned twice,
every returned item is an item whose push returned 1, every item whose push
returned 1 has been returned, or is held by the pop in progress that is about to
return it, or is still live in the queue; and once the owner is idle and the
queue is empty, the returned items are exactly the pushed items, each once. -/
theorem ws_queue_exactly_once (N : Nat) (a : ws_array_t) (t0 : Int) (h0 : 0 ≤ t0)
    (acts : List Act) (s : Sys) (hs : s = (Sys.init a t0).run N acts) :
    s.returned.Nodup ∧
    (∀ x ∈ s.returned, x ∈ s.pushed) ∧
    (∀ x ∈ s.pushed, x ∈ s.returned ∨ s.claimed = some x ∨
      ∃ i, s.q.top ≤ i ∧ i < s.hi ∧ s.buf i = x) ∧
    (s.owner = .idle → s.q.top = s.q.bottom → s.returned.Perm s.pushed) := by
  have h : s.Inv := hs ▸ Sys.run_inv N acts _ (Sys.init_inv a t0 h0)
  refine ⟨h.ret_nodup, h.ret_pushed, h.conserved, fun ho he => ?_⟩
  refine (List.perm_ext_iff_of_nodup h.ret_nodup h.pushed_nodup).2 (fun x => ⟨h.ret_pushed x, ?_⟩)
  intro hx
  have hhi : s.hi = s.q.bottom := by simp [Sys.hi, ho]
  have hcl : s.claimed = none := by simp [Sys.claimed, ho]
  rcases h.conserved x hx with c | c | ⟨i, c1, c2, -⟩
  · exact c
  · rw [hcl] at c; cases c
  · omega

/-- The execution `demoActs`: 7 and 8 are pushed, the thief gets 7 and the owner
pops 8. -/
theorem ws_queue_exactly_once_witness :
    ((Sys.init demoArray 0).run 2 demoActs).pushed = [8, 7] ∧
    ((Sys.init demoArray 0).run 2 demoActs).returned = [8, 7] ∧
    ((Sys.init demoArray 0).run 2 demoActs).returned.Nodup ∧
    ((Sys.init demoArray 0).run 2 demoActs).returned.Perm
      ((Sys.init demoArray 0).run 2 demoActs).pushed :=
  ⟨by decide, by decide,
    (ws_queue_exactly_once 2 demoArray 0 (by decide) demoActs _ rfl).1,
    (ws_queue_exactly_once 2 demoArray 0 (by decide) demoActs _ rfl).2.2.2 (by rfl) (by decide)⟩

/-- C2, as stated, fails: in the execution `raceActs` the item 7, pushed once,
is returned twice, by the steal and by the pop. -/
theorem idemp_ws_queue_returns_twice :
    ((ISys.init demoArray 0 0).run 1 raceActs).pushed = [7] ∧
    ((ISys.init demoArray 0 0).run 1 raceActs).returned = [7, 7] ∧
    ¬ ((ISys.init demoArray 0 0).run 1 raceActs).returned.Nodup := by
  refine ⟨by decide, by decide, ?_⟩
  have e : ((ISys.init demoArray 0 0).run 1 raceActs).returned = [7, 7] := by decide
  rw [e]
  decide

/-- C2, amended: in every interleaved execution of one owner
(`idemp_ws_queue_push`, `idemp_ws_queue_pop`) and `N` thieves
(`idemp_ws_queue_steal_from`) on an idempotent queue that starts empty, with
non-null pairwise distinct items, every returned item is an item whose push
returned 1, and every item whose push returned 1 has been returned at least
once or is still in the queue, in one of the `size` slots from `head` on. -/
theorem idemp_ws_queue_at_least_once (N : Nat) (a : ws_array_t) (head tag : Nat)
    (acts : List Act) (s : ISys) (hs : s = (ISys.init a head tag).run N acts) :
    (∀ x ∈ s.returned, x ∈ s.pushed) ∧
    (∀ x ∈ s.pushed, x ∈ s.returned ∨
      ∃ j, j < s.q.anchor.size ∧ s.buf (s.q.anchor.head + j) = x) := by
  have h : s.Inv := hs ▸ ISys.run_inv_idemp N acts _ (ISys.init_inv_idemp a head tag)
  exact ⟨h.ret_pushed, h.kept⟩

/-- The execution `raceActs`: the item pushed is returned (twice). -/
theorem idemp_ws_queue_at_least_once_witness :
    ((ISys.init demoArray 0 0).run 1 raceActs).returned = [7, 7] ∧
    (∀ x ∈ ((ISys.init demoArray 0 0).run 1 raceActs).returned,
      x ∈ ((ISys.init demoArray 0 0).run 1 raceActs).pushed) :=
  ⟨by decide, (idemp_ws_queue_at_least_once 1 demoArray 0 0 raceActs _ rfl).1⟩

/-! ## The calls run one at a time: the Chase-Lev queue as a sequence -/

/-- The number of live items. -/
theorem ws_queue_t.contents_length (q : ws_queue_t) :
    q.contents.length = (q.bottom - q.top).toNat := by
  simp [ws_queue_t.contents]

/-- A push on a queue that is not full appends the item. -/
theorem ws_queue_push_contents (q : ws_queue_t) (v : Ptr) (hw : q.wf)
    (hlt : q.bottom - q.top < (q.array.capacity : Int)) :
    (ws_queue_push q v).2 = 1 ∧ (ws_queue_push q v).1.wf ∧
    (ws_queue_push q v).1.contents = q.contents ++ [v] ∧
    (ws_queue_push q v).1.array.capacity = q.array.capacity := by
  obtain ⟨w1, w2, w3⟩ := hw
  have hf : ¬ (q.bottom - q.top > (q.array.capacity : Int) - 1) := by omega
  simp only [ws_queue_push, hf, if_false]
  refine ⟨trivial, ⟨w1, ?_, ?_⟩, ?_, rfl⟩
  · show q.top ≤ q.bottom + 1
    omega
  · show q.bottom + 1 - q.top ≤ (q.array.capacity : Int)
    omega
  · simp only [ws_queue_t.contents, ws_array_t.store]
    have e : (q.bottom + 1 - q.top).toNat = (q.bottom - q.top).toNat + 1 := by omega
    rw [e, List.range_succ, List.map_append, List.map_singleton]
    congr 1
    · apply List.map_congr_left
      intro k hk
      rw [List.mem_range] at hk
      rw [Function.update_noteq]
      intro e1
      have := slot_inj (by omega) (by omega) (by omega) (by omega) e1
      omega
    · have e2 : q.top + ((q.bottom - q.top).toNat : Int) = q.bottom := by omega
      rw [e2, Function.update_same]

/-- A push on a full queue returns 0 and changes nothing. -/
theorem ws_queue_push_full (q : ws_queue_t) (v : Ptr)
    (hge : ¬ q.bottom - q.top < (q.array.capacity : Int)) : ws_queue_push q v = (q, 0) := by
  have hf : q.bottom - q.top > (q.array.capacity : Int) - 1 := by omega
  simp only [ws_queue_push, hf, if_true]

/-- A pop on a queue that is not empty removes and returns the newest item. -/
theorem ws_queue_pop_contents (q : ws_queue_t) (hw : q.wf) (hlt : q.top < q.bottom) :
    q.contents = (ws_queue_pop q).1.contents ++ [(ws_queue_pop q).2] ∧
    (ws_queue_pop q).1.wf ∧
    (ws_queue_pop q).1.array.capacity = q.array.capacity := by
  obtain ⟨w1, w2, w3⟩ := hw
  have e : (q.bottom - q.top).toNat = (q.bottom - 1 - q.top).toNat + 1 := by omega
  have e2 : q.top + ((q.bottom - 1 - q.top).toNat : Int) = q.bottom - 1 := by omega
  have hc : q.contents = (List.range (q.bottom - 1 - q.top).toNat).map
      (fun k : Nat => q.array.buffer (slot (q.top + (k : Int)) q.array.capacity))
      ++ [q.array.buffer (slot (q.bottom - 1) q.array.capacity)] := by
    simp only [ws_queue_t.contents]
    rw [e, List.range_succ, List.map_append, List.map_singleton, e2]
  have hle : q.top ≤ q.bottom - 1 := by omega
  by_cases ht : q.top = q.bottom - 1
  · have hpop : ws_queue_pop q =
        ({ top := q.top + 1, bottom := q.bottom - 1 + 1, array := q.array },
          q.array.buffer (slot (q.bottom - 1) q.array.capacity)) := by
      simp only [ws_queue_pop, cmpswap_top]
      rw [if_pos hle, if_pos ht]
      simp
    have e3 : (q.bottom - 1 - q.top).toNat = 0 := by omega
    have e4 : (q.bottom - 1 + 1 - (q.top + 1)).toNat = 0 := by omega
    rw [hc, hpop]
    simp only [ws_queue_t.contents, e3, e4, List.range_zero, List.map_nil, true_and]
    refine ⟨⟨?_, ?_, ?_⟩, trivial⟩
    · show 0 ≤ q.top + 1; omega
    · show q.top + 1 ≤ q.bottom - 1 + 1; omega
    · show q.bottom - 1 + 1 - (q.top + 1) ≤ (q.array.capacity : Int); omega
  · have hpop : ws_queue_pop q = ({ q with bottom := q.bottom - 1 },
        q.array.buffer (slot (q.bottom - 1) q.array.capacity)) := by
      simp only [ws_queue_pop]
      rw [if_pos hle, if_neg ht]
    rw [hc, hpop]
    simp only [ws_queue_t.contents, true_and]
    refine ⟨⟨w1, ?_, ?_⟩, trivial⟩
    · show q.top ≤ q.bottom - 1; omega
    · show q.bottom - 1 - q.top ≤ (q.array.capacity : Int); omega

/-- A pop on an empty queue returns null and changes nothing. -/
theorem ws_queue_pop_empty (q : ws_queue_t) (he : q.bottom ≤ q.top) :
    ws_queue_pop q = (q, NULL) := by
  have hle : ¬ q.top ≤ q.bottom - 1 := by omega
  simp only [ws_queue_pop, hle, if_false]
  have e : q.bottom - 1 + 1 = q.bottom := by omega
  rw [e]

/-- A steal on a queue that is not empty removes and returns the oldest item. -/
theorem ws_queue_steal_contents (q : ws_queue_t) (hw : q.wf) (hlt : q.top < q.bottom) :
    q.contents = (ws_queue_steal_from q).2 :: (ws_queue_steal_from q).1.contents ∧
    (ws_queue_steal_from q).1.wf ∧
    (ws_queue_steal_from q).1.array.capacity = q.array.capacity := by
  obtain ⟨w1, w2, w3⟩ := hw
  have e : (q.bottom - q.top).toNat = (q.bottom - (q.top + 1)).toNat + 1 := by omega
  simp only [ws_queue_steal_from, cmpswap_top, hlt, if_true, ws_queue_t.contents]
  refine ⟨?_, ⟨?_, ?_, ?_⟩, trivial⟩
  · rw [e, List.range_succ_eq_map, List.map_cons, List.map_map]
    congr 1
    · simp
    · apply List.map_congr_left
      intro k _
      simp only [Function.comp]
      congr 2
      push_cast
      omega
  · show 0 ≤ q.top + 1; omega
  · show q.top + 1 ≤ q.bottom; omega
  · show q.bottom - (q.top + 1) ≤ (q.array.capacity : Int); omega

/-- A steal on an empty queue returns null and changes nothing. -/
theorem ws_queue_steal_empty (q : ws_queue_t) (he : q.bottom ≤ q.top) :
    ws_queue_steal_from q = (q, NULL) := by
  have hle : ¬ q.top < q.bottom := by omega
  simp only [ws_queue_steal_from, hle, if_false]

/-- The results of pushes for which there is room: all 1, and `bottom` advances
by the number of items. -/
theorem pushAll_results (xs : List Ptr) : ∀ q : ws_queue_t,
    q.bottom - q.top + (xs.length : Int) ≤ (q.array.capacity : Int) →
    (pushAll q xs).2 = List.replicate xs.length 1 ∧
    (pushAll q xs).1.bottom = q.bottom + (xs.length : Int) ∧
    (pushAll q xs).1.top = q.top ∧
    (pushAll q xs).1.array.capacity = q.array.capacity := by
  induction xs with
  | nil => intro q _; simp [pushAll]
  | cons x xs ih =>
    intro q h
    simp only [List.length_cons, Nat.cast_add, Nat.cast_one] at h
    have hf : ¬ (q.bottom - q.top > (q.array.capacity : Int) - 1) := by omega
    have hp : ws_queue_push q x =
        ({ top := q.top, bottom := q.bottom + 1,
           array := q.array.store (slot q.bottom q.array.capacity) x }, 1) := by
      simp only [ws_queue_push, hf, if_false]
    obtain ⟨i1, i2, i3, i4⟩ := ih (ws_queue_push q x).1 (by
      rw [hp]
      show q.bottom + 1 - q.top + (xs.length : Int) ≤ (q.array.capacity : Int)
      omega)
    simp only [pushAll, List.length_cons, List.replicate_succ]
    rw [i1, i2, i3, i4, hp]
    refine ⟨rfl, ?_, rfl, rfl⟩
    simp only [Nat.cast_add, Nat.cast_one]
    omega

/-- Pushes for which there is room append the items in order. -/
theorem pushAll_contents (xs : List Ptr) : ∀ q : ws_queue_t, q.wf →
    q.bottom - q.top + (xs.length : Int) ≤ (q.array.capacity : Int) →
    (pushAll q xs).1.wf ∧ (pushAll q xs).1.contents = q.contents ++ xs ∧
    (pushAll q xs).1.array.capacity = q.array.capacity := by
  induction xs with
  | nil => intro q hw _; simp [pushAll, hw]
  | cons x xs ih =>
    intro q hw h
    simp only [List.length_cons, Nat.cast_add, Nat.cast_one] at h
    obtain ⟨p1, p2, p3, p4⟩ := ws_queue_push_contents q x hw (by omega)
    have hb := pushAll_results [x] q (by simp only [List.length_singleton, Nat.cast_one]; omega)
    simp only [pushAll, List.length_singleton, Nat.cast_one] at hb
    obtain ⟨i1, i2, i3⟩ := ih (ws_queue_push q x).1 p2 (by rw [hb.2.1, hb.2.2.1, p4]; omega)
    simp only [pushAll]
    refine ⟨i1, ?_, ?_⟩
    · rw [i2, p3, List.append_assoc, List.singleton_append]
    · rw [i3, p4]

/-- Popping a queue of `n` items `n` times returns them newest first and leaves
it empty. -/
theorem popN_contents (n : Nat) : ∀ q : ws_queue_t, q.wf → q.contents.length = n →
    (popN q n).2 = q.contents.reverse ∧ (popN q n).1.wf ∧
    (popN q n).1.top = (popN q n).1.bottom := by
  induction n with
  | zero =>
    intro q hw hl
    have := List.eq_nil_of_length_eq_zero hl
    rw [q.contents_length] at hl
    obtain ⟨w1, w2, w3⟩ := hw
    simp only [popN, this, List.reverse_nil, true_and]
    exact ⟨⟨w1, w2, w3⟩, by omega⟩
  | succ n ih =>
    intro q hw hl
    have hlt : q.top < q.bottom := by
      rw [q.contents_length] at hl
      omega
    obtain ⟨p1, p2, p3⟩ := ws_queue_pop_contents q hw hlt
    have hl1 : (ws_queue_pop q).1.contents.length = n := by
      rw [p1, List.length_append, List.length_singleton] at hl
      omega
    obtain ⟨i1, i2, i3⟩ := ih (ws_queue_pop q).1 p2 hl1
    simp only [popN]
    refine ⟨?_, i2, i3⟩
    rw [i1, p1, List.reverse_append, List.reverse_singleton, List.singleton_append]

/-- Stealing from a queue of at least `n` items `n` times returns the `n` oldest
ones, oldest first. -/
theorem stealN_contents (n : Nat) : ∀ q : ws_queue_t, q.wf → n ≤ q.contents.length →
    (stealN q n).2 = q.contents.take n ∧ (stealN q n).1.wf ∧
    (stealN q n).1.contents = q.contents.drop n := by
  induction n with
  | zero =>
    intro q hw _
    simp [stealN, hw]
  | succ n ih =>
    intro q hw hl
    have hlt : q.top < q.bottom := by
      rw [q.contents_length] at hl
      omega
    obtain ⟨p1, p2, p3⟩ := ws_queue_steal_contents q hw hlt
    have hl1 : n ≤ (ws_queue_steal_from q).1.contents.length := by
      rw [p1, List.length_cons] at hl
      omega
    obtain ⟨i1, i2, i3⟩ := ih (ws_queue_steal_from q).1 p2 hl1
    simp only [stealN]
    refine ⟨?_, i2, ?_⟩
    · rw [i1, p1, List.take_succ_cons]
    · rw [i3, p1, List.drop_succ_cons]

/-- An empty queue has no live item. -/
theorem ws_queue_t.contents_empty (q : ws_queue_t) (he : q.top = q.bottom) :
    q.contents = [] := by
  have e : (q.bottom - q.top).toNat = 0 := by omega
  simp [ws_queue_t.contents, e]

/-! ## The calls run one at a time: the idempotent queue as a sequence -/

/-- The number of live items. -/
theorem idemp_ws_queue_t.contents_length_idemp (q : idemp_ws_queue_t) :
    q.contents.length = q.anchor.size := by
  simp [idemp_ws_queue_t.contents]

/-- A push on a queue that is not full appends the item. -/
theorem idemp_ws_queue_push_contents (q : idemp_ws_queue_t) (elt : Ptr)
    (hlt : q.anchor.size < q.array.capacity) :
    (idemp_ws_queue_push q elt).2 = 1 ∧
    (idemp_ws_queue_push q elt).1.contents = q.contents ++ [elt] ∧
    (idemp_ws_queue_push q elt).1.anchor.size = q.anchor.size + 1 ∧
    (idemp_ws_queue_push q elt).1.array.capacity = q.array.capacity := by
  have hf : ¬ q.anchor.size = q.array.capacity := by omega
  simp only [idemp_ws_queue_push, hf, if_false]
  refine ⟨trivial, ?_, trivial, rfl⟩
  simp only [idemp_ws_queue_t.contents, ws_array_t.store]
  rw [List.range_succ, List.map_append, List.map_singleton, Function.update_same]
  congr 1
  apply List.map_congr_left
  intro j hj
  rw [List.mem_range] at hj
  rw [Function.update_noteq]
  exact mod_add_ne hj (by omega)

/-- A pop on a queue that is not empty removes and returns the newest item. -/
theorem idemp_ws_queue_pop_contents (q : idemp_ws_queue_t) (hne : q.anchor.size ≠ 0) :
    q.contents = (idemp_ws_queue_pop q).1.contents ++ [(idemp_ws_queue_pop q).2] ∧
    (idemp_ws_queue_pop q).1.anchor.size = q.anchor.size - 1 ∧
    (idemp_ws_queue_pop q).1.array.capacity = q.array.capacity := by
  simp only [idemp_ws_queue_pop, hne, if_false]
  refine ⟨?_, trivial, trivial⟩
  simp only [idemp_ws_queue_t.contents]
  have e : q.anchor.size = q.anchor.size - 1 + 1 := by omega
  conv_lhs => rw [e]
  rw [List.range_succ, List.map_append, List.map_singleton]

/-- A steal on a queue that is not empty removes and returns the oldest item. -/
theorem idemp_ws_queue_steal_contents (q : idemp_ws_queue_t) (hne : q.anchor.size ≠ 0) :
    q.contents = (idemp_ws_queue_steal_from q).2 :: (idemp_ws_queue_steal_from q).1.contents ∧
    (idemp_ws_queue_steal_from q).1.anchor.size = q.anchor.size - 1 ∧
    (idemp_ws_queue_steal_from q).1.array.capacity = q.array.capacity := by
  simp only [idemp_ws_queue_steal_from, cmpswap_anchor, hne, if_false, if_true]
  refine ⟨?_, trivial, trivial⟩
  simp only [idemp_ws_queue_t.contents]
  have e : q.anchor.size = q.anchor.size - 1 + 1 := by omega
  conv_lhs => rw [e]
  rw [List.range_succ_eq_map, List.map_cons, List.map_map]
  congr 1
  apply List.map_congr_left
  intro j _
  simp only [Function.comp]
  rw [mod_succ_add]

/-- A pop on an empty queue returns null and changes nothing. -/
theorem idemp_ws_queue_pop_empty (q : idemp_ws_queue_t) (he : q.anchor.size = 0) :
    idemp_ws_queue_pop q = (q, NULL) := by
  simp only [idemp_ws_queue_pop, he, if_true]

/-- A steal on an empty queue returns null and changes nothing. -/
theorem idemp_ws_queue_steal_empty (q : idemp_ws_queue_t) (he : q.anchor.size = 0) :
    idemp_ws_queue_steal_from q = (q, NULL) := by
  simp only [idemp_ws_queue_steal_from, he, if_true]

/-- Pushes for which there is room return 1 and append the items in order. -/
theorem ipushAll_contents (xs : List Ptr) : ∀ q : idemp_ws_queue_t,
    q.anchor.size + xs.length ≤ q.array.capacity →
    (ipushAll q xs).2 = List.replicate xs.length 1 ∧
    (ipushAll q xs).1.contents = q.contents ++ xs ∧
    (ipushAll q xs).1.anchor.size = q.anchor.size + xs.length ∧
    (ipushAll q xs).1.array.capacity = q.array.capacity := by
  induction xs with
  | nil => intro q _; simp [ipushAll]
  | cons x xs ih =>
    intro q h
    simp only [List.length_cons] at h
    obtain ⟨p1, p2, p3, p4⟩ := idemp_ws_queue_push_contents q x (by omega)
    obtain ⟨i1, i2, i3, i4⟩ := ih (idemp_ws_queue_push q x).1 (by rw [p3, p4]; omega)
    simp only [ipushAll, List.length_cons, List.replicate_succ]
    refine ⟨by rw [i1, p1], ?_, ?_, ?_⟩
    · rw [i2, p2, List.append_assoc, List.singleton_append]
    · rw [i3, p3]; omega
    · rw [i4, p4]

/-- Popping a queue of `n` items `n` times returns them newest first and leaves
it empty. -/
theorem ipopN_contents (n : Nat) : ∀ q : idemp_ws_queue_t, q.anchor.size = n →
    (ipopN q n).2 = q.contents.reverse ∧ (ipopN q n).1.anchor.size = 0 := by
  induction n with
  | zero =>
    intro q hl
    have : q.contents = [] := List.eq_nil_of_length_eq_zero (by rw [q.contents_length_idemp, hl])
    simp [ipopN, this, hl]
  | succ n ih =>
    intro q hl
    obtain ⟨p1, p2, p3⟩ := idemp_ws_queue_pop_contents q (by omega)
    obtain ⟨i1, i2⟩ := ih (idemp_ws_queue_pop q).1 (by rw [p2]; omega)
    simp only [ipopN]
    refine ⟨?_, i2⟩
    rw [i1, p1, List.reverse_append, List.reverse_singleton, List.singleton_append]

/-- Stealing from a queue of at least `n` items `n` times returns the `n` oldest
ones, oldest first. -/
theorem istealN_contents (n : Nat) : ∀ q : idemp_ws_queue_t, n ≤ q.anchor.size →
    (istealN q n).2 = q.contents.take n ∧
    (istealN q n).1.contents = q.contents.drop n ∧
    (istealN q n).1.anchor.size = q.anchor.size - n := by
  induction n with
  | zero =>
    intro q _
    simp [istealN]
  | succ n ih =>
    intro q hl
    obtain ⟨p1, p2, p3⟩ := idemp_ws_queue_steal_contents q (by omega)
    obtain ⟨i1, i2, i3⟩ := ih (idemp_ws_queue_steal_from q).1 (by rw [p2]; omega)
    simp only [istealN]
    refine ⟨?_, ?_, ?_⟩
    · rw [i1, p1, List.take_succ_cons]
    · rw [i2, p1, List.drop_succ_cons]
    · rw [i3, p2]; omega

/-- An empty idempotent queue has no live item. -/
theorem idemp_ws_queue_t.contents_empty_idemp (q : idemp_ws_queue_t) (he : q.anchor.size = 0) :
    q.contents = [] := by
  simp [idemp_ws_queue_t.contents, he]

/-! ## Capacity -/

/-- C3: on a Chase-Lev queue of capacity `C ≥ 1` (between two calls:
`top ≤ bottom`), `ws_queue_push` returns 1 exactly when `bottom - top < C` and
returns 0 otherwise; a push that returns 0 leaves the queue (`bottom`, `top` and
every slot) unchanged; and from an empty queue the first `C` pushes return 1 and
the next one returns 0. -/
theorem ws_queue_push_capacity (q : ws_queue_t) (v : Ptr) (_hC : 1 ≤ q.array.capacity)
    (_hq : q.top ≤ q.bottom) :
    ((ws_queue_push q v).2 = 1 ↔ q.bottom - q.top < (q.array.capacity : Int)) ∧
    (¬ q.bottom - q.top < (q.array.capacity : Int) → (ws_queue_push q v).2 = 0) ∧
    ((ws_queue_push q v).2 = 0 → (ws_queue_push q v).1 = q) ∧
    (∀ xs : List Ptr, q.top = q.bottom → xs.length = q.array.capacity →
      (pushAll q xs).2 = List.replicate q.array.capacity 1 ∧
      (ws_queue_push (pushAll q xs).1 v).2 = 0) := by
  refine ⟨?_, ?_, ?_, ?_⟩
  · by_cases h : q.bottom - q.top < (q.array.capacity : Int)
    · have hf : ¬ (q.bottom - q.top > (q.array.capacity : Int) - 1) := by omega
      simp [ws_queue_push, hf, h]
    · rw [ws_queue_push_full q v h]
      simp [h]
  · intro h
    rw [ws_queue_push_full q v h]
  · intro h
    by_cases h1 : q.bottom - q.top < (q.array.capacity : Int)
    · have hf : ¬ (q.bottom - q.top > (q.array.capacity : Int) - 1) := by omega
      simp [ws_queue_push, hf] at h
    · rw [ws_queue_push_full q v h1]
  · intro xs he hl
    obtain ⟨r1, r2, r3, r4⟩ := pushAll_results xs q (by rw [hl]; omega)
    refine ⟨by rw [r1, hl], ?_⟩
    rw [ws_queue_push_full]
    rw [r2, r3, r4, hl]
    omega

/-- A queue of capacity 4: the first four pushes return 1, the fifth returns 0
and changes nothing. -/
theorem ws_queue_push_capacity_witness :
    (pushAll demoQueue [1, 2, 3, 4]).2 = [1, 1, 1, 1] ∧
    (ws_queue_push (pushAll demoQueue [1, 2, 3, 4]).1 5).2 = 0 ∧
    (ws_queue_push demoQueue 5).2 = 1 :=
  ⟨((ws_queue_push_capacity demoQueue 5 (by decide) (by decide)).2.2.2 [1, 2, 3, 4] rfl rfl).1,
   ((ws_queue_push_capacity demoQueue 5 (by decide) (by decide)).2.2.2 [1, 2, 3, 4] rfl rfl).2,
   (ws_queue_push_capacity demoQueue 5 (by decide) (by decide)).1.2 (by decide)⟩

/-- C4: on an idempotent queue of capacity `C ≥ 1`, `idemp_ws_queue_push`
returns 0 exactly when `anchor.size = C`, and then leaves the anchor and the
buffer unchanged; otherwise it writes the item in the slot `(head + size) % C`,
stores the anchor `{head, size + 1, tag + 1}` and returns 1; and from an empty
queue the first `C` pushes return 1 and the next one returns 0. -/
theorem idemp_ws_queue_push_capacity (q : idemp_ws_queue_t) (elt : Ptr)
    (_hC : 1 ≤ q.array.capacity) :
    ((idemp_ws_queue_push q elt).2 = 0 ↔ q.anchor.size = q.array.capacity) ∧
    (q.anchor.size = q.array.capacity → idemp_ws_queue_push q elt = (q, 0)) ∧
    (q.anchor.size ≠ q.array.capacity → idemp_ws_queue_push q elt =
      ({ anchor := ⟨q.anchor.head, q.anchor.size + 1, q.anchor.tag + 1⟩,
         array := q.array.store ((q.anchor.head + q.anchor.size) % q.array.capacity) elt },
        1)) ∧
    (∀ xs : List Ptr, q.anchor.size = 0 → xs.length = q.array.capacity →
      (ipushAll q xs).2 = List.replicate q.array.capacity 1 ∧
      (idemp_ws_queue_push (ipushAll q xs).1 elt).2 = 0) := by
  refine ⟨?_, ?_, ?_, ?_⟩
  · by_cases h : q.anchor.size = q.array.capacity <;> simp [idemp_ws_queue_push, h]
  · intro h
    simp [idemp_ws_queue_push, h]
  · intro h
    simp [idemp_ws_queue_push, h]
  · intro xs he hl
    obtain ⟨r1, r2, r3, r4⟩ := ipushAll_contents xs q (by rw [he, hl]; omega)
    refine ⟨by rw [r1, hl], ?_⟩
    have : (ipushAll q xs).1.anchor.size = (ipushAll q xs).1.array.capacity := by
      rw [r3, r4, he, hl]; omega
    simp [idemp_ws_queue_push, this]

/-- An idempotent queue of capacity 4: the first four pushes return 1, the fifth
returns 0. -/
theorem idemp_ws_queue_push_capacity_witness :
    (ipushAll idemoQueue [1, 2, 3, 4]).2 = [1, 1, 1, 1] ∧
    (idemp_ws_queue_push (ipushAll idemoQueue [1, 2, 3, 4]).1 5).2 = 0 ∧
    (idemp_ws_queue_push idemoQueue 5).1.anchor = ⟨0, 1, 1⟩ :=
  ⟨((idemp_ws_queue_push_capacity idemoQueue 5 (by decide)).2.2.2 [1, 2, 3, 4] rfl rfl).1,
   ((idemp_ws_queue_push_capacity idemoQueue 5 (by decide)).2.2.2 [1, 2, 3, 4] rfl rfl).2,
   congrArg (fun r => r.1.anchor)
     ((idemp_ws_queue_push_capacity idemoQueue 5 (by decide)).2.2.1 (by decide))⟩

/-! ## Order of delivery -/

/-- C5: single owner, no thief, Chase-Lev queue of capacity `C`: after the
non-null items `x1 .. xn` (`n ≤ C`) are pushed on an empty queue
(`0 ≤ top = bottom`), every push
returns 1, `n` pops return `xn, ..., x1` in that order (none of them null), and
the next pop returns null (empty). -/
theorem ws_queue_lifo (q : ws_queue_t) (xs : List Ptr) (h0 : 0 ≤ q.top)
    (he : q.top = q.bottom) (hn : xs.length ≤ q.array.capacity)
    (hx : ∀ x ∈ xs, x ≠ NULL) :
    (pushAll q xs).2 = List.replicate xs.length 1 ∧
    (popN (pushAll q xs).1 xs.length).2 = xs.reverse ∧
    (∀ r ∈ (popN (pushAll q xs).1 xs.length).2, r ≠ NULL) ∧
    (ws_queue_pop (popN (pushAll q xs).1 xs.length).1).2 = NULL := by
  have hw : q.wf := ⟨h0, by omega, by omega⟩
  have hr := pushAll_results xs q (by omega)
  obtain ⟨c1, c2, c3⟩ := pushAll_contents xs q hw (by omega)
  rw [q.contents_empty he, List.nil_append] at c2
  obtain ⟨p1, p2, p3⟩ := popN_contents xs.length (pushAll q xs).1 c1 (by rw [c2])
  rw [c2] at p1
  refine ⟨hr.1, p1, ?_, ?_⟩
  · rw [p1]
    intro r hr
    exact hx r (List.mem_reverse.1 hr)
  · rw [ws_queue_pop_empty _ (by omega)]

/-- Capacity 4, items 1, 2, 3: the pops return 3, 2, 1 and then null. -/
theorem ws_queue_lifo_witness :
    (popN (pushAll demoQueue [1, 2, 3]).1 3).2 = [3, 2, 1] ∧
    (ws_queue_pop (popN (pushAll demoQueue [1, 2, 3]).1 3).1).2 = NULL :=
  ⟨(ws_queue_lifo demoQueue [1, 2, 3] (by decide) rfl (by decide) (by decide)).2.1,
   (ws_queue_lifo demoQueue [1, 2, 3] (by decide) rfl (by decide) (by decide)).2.2.2⟩

/-- C6: single owner, no thief, idempotent queue of capacity `C`: after the
non-null items `x1 .. xn` (`n ≤ C`) are pushed on an empty queue, every push
returns 1, `n` pops return `xn, ..., x1` in that order (none of them null), and
the next pop returns null (empty). -/
theorem idemp_ws_queue_lifo (q : idemp_ws_queue_t) (xs : List Ptr)
    (he : q.anchor.size = 0) (hn : xs.length ≤ q.array.capacity)
    (hx : ∀ x ∈ xs, x ≠ NULL) :
    (ipushAll q xs).2 = List.replicate xs.length 1 ∧
    (ipopN (ipushAll q xs).1 xs.length).2 = xs.reverse ∧
    (∀ r ∈ (ipopN (ipushAll q xs).1 xs.length).2, r ≠ NULL) ∧
    (idemp_ws_queue_pop (ipopN (ipushAll q xs).1 xs.length).1).2 = NULL := by
  obtain ⟨c1, c2, c3, c4⟩ := ipushAll_contents xs q (by omega)
  rw [q.contents_empty_idemp he, List.nil_append] at c2
  obtain ⟨p1, p2⟩ := ipopN_contents xs.length (ipushAll q xs).1 (by rw [c3]; omega)
  rw [c2] at p1
  refine ⟨c1, p1, ?_, ?_⟩
  · rw [p1]
    intro r hr
    exact hx r (List.mem_reverse.1 hr)
  · rw [idemp_ws_queue_pop_empty _ p2]

/-- Capacity 4, items 1, 2, 3: the pops return 3, 2, 1 and then null. -/
theorem idemp_ws_queue_lifo_witness :
    (ipopN (ipushAll idemoQueue [1, 2, 3]).1 3).2 = [3, 2, 1] ∧
    (idemp_ws_queue_pop (ipopN (ipushAll idemoQueue [1, 2, 3]).1 3).1).2 = NULL :=
  ⟨(idemp_ws_queue_lifo idemoQueue [1, 2, 3] rfl (by decide) (by decide)).2.1,
   (idemp_ws_queue_lifo idemoQueue [1, 2, 3] rfl (by decide) (by decide)).2.2.2⟩

/-- A Chase-Lev queue holding `ys ++ [x]`: a pop returns `x`, then steals return
`ys`, then steal and pop find the queue empty. -/
theorem ws_queue_pop_steal_drain (q : ws_queue_t) (ys : List Ptr) (x : Ptr) (hw : q.wf)
    (hc : q.contents = ys ++ [x]) :
    (ws_queue_pop q).2 = x ∧
    (stealN (ws_queue_pop q).1 ys.length).2 = ys ∧
    (ws_queue_steal_from (stealN (ws_queue_pop q).1 ys.length).1).2 = NULL ∧
    (ws_queue_pop (stealN (ws_queue_pop q).1 ys.length).1).2 = NULL := by
  have hlt : q.top < q.bottom := by
    have := q.contents_length
    rw [hc, List.length_append, List.length_singleton] at this
    omega
  obtain ⟨p1, p2, -⟩ := ws_queue_pop_contents q hw hlt
  rw [hc] at p1
  obtain ⟨p4, p5⟩ := List.append_inj' p1 rfl
  have p6 : x = (ws_queue_pop q).2 := by simpa using p5
  obtain ⟨s1, s2, s3⟩ := stealN_contents ys.length (ws_queue_pop q).1 p2 (by rw [← p4])
  rw [← p4] at s1 s3
  rw [List.take_length] at s1
  rw [List.drop_length] at s3
  have hemp : (stealN (ws_queue_pop q).1 ys.length).1.bottom ≤
      (stealN (ws_queue_pop q).1 ys.length).1.top := by
    have := (stealN (ws_queue_pop q).1 ys.length).1.contents_length
    rw [s3, List.length_nil] at this
    omega
  refine ⟨p6.symm, s1, ?_, ?_⟩
  · rw [ws_queue_steal_empty _ hemp]
  · rw [ws_queue_pop_empty _ hemp]

/-- An idempotent queue holding `ys ++ [x]`: a pop returns `x`, then steals
return `ys`, then steal and pop find the queue empty. -/
theorem idemp_ws_queue_pop_steal_drain (q : idemp_ws_queue_t) (ys : List Ptr) (x : Ptr)
    (hc : q.contents = ys ++ [x]) :
    (idemp_ws_queue_pop q).2 = x ∧
    (istealN (idemp_ws_queue_pop q).1 ys.length).2 = ys ∧
    (idemp_ws_queue_steal_from (istealN (idemp_ws_queue_pop q).1 ys.length).1).2 = NULL ∧
    (idemp_ws_queue_pop (istealN (idemp_ws_queue_pop q).1 ys.length).1).2 = NULL := by
  have hsz : q.anchor.size = ys.length + 1 := by
    have := q.contents_length_idemp
    rw [hc, List.length_append, List.length_singleton] at this
    omega
  obtain ⟨p1, p2, -⟩ := idemp_ws_queue_pop_contents q (by omega)
  rw [hc] at p1
  obtain ⟨p4, p5⟩ := List.append_inj' p1 rfl
  have p6 : x = (idemp_ws_queue_pop q).2 := by simpa using p5
  obtain ⟨s1, s2, s3⟩ := istealN_contents ys.length (idemp_ws_queue_pop q).1
    (by rw [p2]; omega)
  rw [← p4] at s1
  rw [List.take_length] at s1
  have hemp : (istealN (idemp_ws_queue_pop q).1 ys.length).1.anchor.size = 0 := by
    rw [s3, p2]; omega
  refine ⟨p6.symm, s1, ?_, ?_⟩
  · rw [idemp_ws_queue_steal_empty _ hemp]
  · rw [idemp_ws_queue_pop_empty _ hemp]

/-- C7: both queues, one call at a time: after the items `ys` and then `x`
(at least two and at most `C` items in all, null or not) are pushed on an empty
queue (`0 ≤ top = bottom`, respectively `size = 0`), one
pop returns the newest item `x`, the following steals, as many as there are items
in `ys`, return the items of `ys`, oldest first, and after that a steal and a pop
both return null (empty). -/
theorem deque_pop_then_steals (q : ws_queue_t) (iq : idemp_ws_queue_t) (ys : List Ptr)
    (x : Ptr) (h0 : 0 ≤ q.top) (he : q.top = q.bottom) (hie : iq.anchor.size = 0)
    (_h2 : 2 ≤ ys.length + 1) (hn : ys.length + 1 ≤ q.array.capacity)
    (hin : ys.length + 1 ≤ iq.array.capacity) :
    ((ws_queue_pop (pushAll q (ys ++ [x])).1).2 = x ∧
     (stealN (ws_queue_pop (pushAll q (ys ++ [x])).1).1 ys.length).2 = ys ∧
     (ws_queue_steal_from
        (stealN (ws_queue_pop (pushAll q (ys ++ [x])).1).1 ys.length).1).2 = NULL ∧
     (ws_queue_pop
        (stealN (ws_queue_pop (pushAll q (ys ++ [x])).1).1 ys.length).1).2 = NULL) ∧
    ((idemp_ws_queue_pop (ipushAll iq (ys ++ [x])).1).2 = x ∧
     (istealN (idemp_ws_queue_pop (ipushAll iq (ys ++ [x])).1).1 ys.length).2 = ys ∧
     (idemp_ws_queue_steal_from
        (istealN (idemp_ws_queue_pop (ipushAll iq (ys ++ [x])).1).1 ys.length).1).2 = NULL ∧
     (idemp_ws_queue_pop
        (istealN (idemp_ws_queue_pop (ipushAll iq (ys ++ [x])).1).1 ys.length).1).2 = NULL) := by
  constructor
  · have hw : q.wf := ⟨h0, by omega, by omega⟩
    have hlen : (ys ++ [x]).length = ys.length + 1 := by simp
    obtain ⟨c1, c2, -⟩ := pushAll_contents (ys ++ [x]) q hw (by rw [hlen]; push_cast; omega)
    rw [q.contents_empty he, List.nil_append] at c2
    exact ws_queue_pop_steal_drain _ ys x c1 c2
  · have hlen : (ys ++ [x]).length = ys.length + 1 := by simp
    obtain ⟨-, c2, -⟩ := ipushAll_contents (ys ++ [x]) iq (by rw [hlen]; omega)
    rw [iq.contents_empty_idemp hie, List.nil_append] at c2
    exact idemp_ws_queue_pop_steal_drain _ ys x c2

/-- The scenario of capacity 4: push 1, 2, 3; pop returns 3; the steals return
1 and 2; a further steal or pop returns null; on both queues. -/
theorem deque_pop_then_steals_witness :
    ((ws_queue_pop (pushAll demoQueue [1, 2, 3]).1).2 = 3 ∧
     (stealN (ws_queue_pop (pushAll demoQueue [1, 2, 3]).1).1 2).2 = [1, 2] ∧
     (ws_queue_steal_from
        (stealN (ws_queue_pop (pushAll demoQueue [1, 2, 3]).1).1 2).1).2 = NULL ∧
     (ws_queue_pop
        (stealN (ws_queue_pop (pushAll demoQueue [1, 2, 3]).1).1 2).1).2 = NULL) ∧
    ((idemp_ws_queue_pop (ipushAll idemoQueue [1, 2, 3]).1).2 = 3 ∧
     (istealN (idemp_ws_queue_pop (ipushAll idemoQueue [1, 2, 3]).1).1 2).2 = [1, 2] ∧
     (idemp_ws_queue_steal_from
        (istealN (idemp_ws_queue_pop (ipushAll idemoQueue [1, 2, 3]).1).1 2).1).2 = NULL ∧
     (idemp_ws_queue_pop
        (istealN (idemp_ws_queue_pop (ipushAll idemoQueue [1, 2, 3]).1).1 2).1).2 = NULL) :=
  deque_pop_then_steals demoQueue idemoQueue [1, 2] 3 (by decide) rfl rfl (by decide)
    (by decide) (by decide)

/-! ## Tags and stale snapshots -/

/-- C8, as stated, fails for `idemp_ws_queue_pop`: on the anchor `{0, 1, 5}` a
successful pop stores `{0, 0, 5}`, with the tag unchanged, not `{0, 0, 6}`. -/
theorem idemp_ws_queue_pop_keeps_tag :
    (idemp_ws_queue_pop { anchor := ⟨0, 1, 5⟩, array := demoArray }).1.anchor = ⟨0, 0, 5⟩ ∧
    (idemp_ws_queue_pop { anchor := ⟨0, 1, 5⟩, array := demoArray }).1.anchor.tag ≠ 5 + 1 := by
  constructor <;> decide

/-- C8, amended: a successful `idemp_ws_queue_push` on the anchor
`{head, size, tag}` stores `{head, size + 1, tag + 1}`, whose tag is distinct
from the preceding one; a successful `idemp_ws_queue_pop` stores
`{head, size - 1, tag}`: it leaves the tag unchanged, and the stored anchor
differs from the preceding one by its size. -/
theorem idemp_owner_anchor (q : idemp_ws_queue_t) (elt : Ptr) :
    ((idemp_ws_queue_push q elt).2 = 1 →
      (idemp_ws_queue_push q elt).1.anchor = ⟨q.anchor.head, q.anchor.size + 1, q.anchor.tag + 1⟩ ∧
      (idemp_ws_queue_push q elt).1.anchor.tag ≠ q.anchor.tag) ∧
    (q.anchor.size ≠ 0 →
      (idemp_ws_queue_pop q).1.anchor = ⟨q.anchor.head, q.anchor.size - 1, q.anchor.tag⟩ ∧
      (idemp_ws_queue_pop q).1.anchor ≠ q.anchor) := by
  constructor
  · intro h
    by_cases hf : q.anchor.size = q.array.capacity
    · simp [idemp_ws_queue_push, hf] at h
    · simp [idemp_ws_queue_push, hf]
  · intro h
    simp only [idemp_ws_queue_pop, h, if_false]
    refine ⟨trivial, fun e => ?_⟩
    have := congrArg ws_anchor_t.size e
    simp only at this
    omega

/-- The anchors stored by a push and by a pop on a queue of capacity 4. -/
theorem idemp_owner_anchor_witness :
    (idemp_ws_queue_push idemoQueue 7).1.anchor = ⟨0, 1, 1⟩ ∧
    (idemp_ws_queue_pop (idemp_ws_queue_push idemoQueue 7).1).1.anchor = ⟨0, 0, 1⟩ :=
  ⟨((idemp_owner_anchor idemoQueue 7).1 (by decide)).1,
   ((idemp_owner_anchor (idemp_ws_queue_push idemoQueue 7).1 7).2 (by decide)).1⟩

/-- A successful call raises the tag, or keeps the tag and lowers the size. -/
theorem IOp.apply_measure (op : IOp) (q : idemp_ws_queue_t) (h : op.succeeds q) :
    q.anchor.tag < (op.apply q).anchor.tag ∨
    (q.anchor.tag = (op.apply q).anchor.tag ∧ (op.apply q).anchor.size < q.anchor.size) := by
  cases op with
  | push elt =>
    left
    simp only [IOp.succeeds] at h
    by_cases hf : q.anchor.size = q.array.capacity
    · simp [idemp_ws_queue_push, hf] at h
    · simp [IOp.apply, idemp_ws_queue_push, hf]
  | pop =>
    right
    simp only [IOp.succeeds] at h
    simp only [IOp.apply, idemp_ws_queue_pop, h, if_false, true_and]
    omega
  | steal =>
    right
    simp only [IOp.succeeds] at h
    simp only [IOp.apply, idemp_ws_queue_steal_from, cmpswap_anchor, h, if_false, if_true,
      true_and]
    omega

/-- After successful calls the tag is higher, or the same with a size that is
not higher, and lower if there was a call. -/
theorem runOps_measure (ops : List IOp) : ∀ q : idemp_ws_queue_t, allSucceed q ops →
    q.anchor.tag < (runOps q ops).anchor.tag ∨
    (q.anchor.tag = (runOps q ops).anchor.tag ∧
      (runOps q ops).anchor.size ≤ q.anchor.size ∧
      (ops ≠ [] → (runOps q ops).anchor.size < q.anchor.size)) := by
  induction ops with
  | nil => intro q _; right; simp [runOps]
  | cons op ops ih =>
    intro q h
    obtain ⟨h1, h2⟩ := h
    have hr : runOps q (op :: ops) = runOps (op.apply q) ops := rfl
    rw [hr]
    rcases op.apply_measure q h1 with m | ⟨m1, m2⟩
    · left
      rcases ih (op.apply q) h2 with i | ⟨i1, -, -⟩ <;> omega
    · rcases ih (op.apply q) h2 with i | ⟨i1, i2, -⟩
      · left; omega
      · right
        exact ⟨by omega, by omega, fun _ => by omega⟩

/-- C9: for every idempotent queue `q` and the snapshot `q.anchor` of its anchor,
after any non-empty sequence of successful pushes, pops and steals, each run
atomically, the current anchor differs from the snapshot, so the
compare-and-swap of a steal that read the snapshot (and any slot value `elt`)
fails: the steal returns null and leaves the anchor and the buffer unchanged. -/
theorem idemp_stale_snapshot_fails (q : idemp_ws_queue_t) (ops : List IOp)
    (hne : ops ≠ []) (hok : allSucceed q ops) :
    (runOps q ops).anchor ≠ q.anchor ∧
    ∀ elt : Ptr, isteal_step (.gotElt q.anchor elt) (runOps q ops)
      = (.done NULL, runOps q ops) := by
  have hd : (runOps q ops).anchor ≠ q.anchor := by
    intro e
    rcases runOps_measure ops q hok with m | ⟨-, -, m⟩
    · rw [e] at m; omega
    · have := m hne
      rw [e] at this; omega
  refine ⟨hd, fun elt => ?_⟩
  simp [isteal_step, cmpswap_anchor, hd]

/-- A thief reads the anchor `{0, 0, 0}` of an empty queue of capacity 4; after a
push, a pop and a push its compare-and-swap fails. -/
theorem idemp_stale_snapshot_fails_witness :
    (runOps idemoQueue [.push 7, .pop, .push 8]).anchor = ⟨0, 1, 2⟩ ∧
    (runOps idemoQueue [.push 7, .pop, .push 8]).anchor ≠ idemoQueue.anchor :=
  ⟨by decide,
   (idemp_stale_snapshot_fails idemoQueue [.push 7, .pop, .push 8] (by simp)
      ⟨by show (idemp_ws_queue_push idemoQueue 7).2 = 1; decide,
       by show ((IOp.push 7).apply idemoQueue).anchor.size ≠ 0; decide,
       by show (idemp_ws_queue_push (IOp.pop.apply ((IOp.push 7).apply idemoQueue)) 8).2 = 1
          decide,
       trivial⟩).1⟩

/-! ## Results of a steal -/

/-- C10, as stated, fails: a `ws_queue_steal_from` that loses its
compare-and-swap (it read `top = 0`, `top` is now 1) returns null, and so does
one that finds the queue empty; likewise `idemp_ws_queue_steal_from` when the
anchor has changed since it was read and when `size = 0`. -/
theorem steal_conflict_is_null :
    (∃ q1, steal_step (.gotSlot 0 7) { top := 1, bottom := 2, array := demoArray }
      = (.done NULL, q1)) ∧
    (∃ q1, steal_step (.gotTop 0) { top := 0, bottom := 0, array := demoArray }
      = (.done NULL, q1)) ∧
    (∃ q1, isteal_step (.gotElt ⟨0, 2, 0⟩ 7) { anchor := ⟨1, 1, 0⟩, array := demoArray }
      = (.done NULL, q1)) ∧
    (∃ q1, isteal_step .entry { anchor := ⟨0, 0, 0⟩, array := demoArray }
      = (.done NULL, q1)) :=
  ⟨⟨_, rfl⟩, ⟨_, rfl⟩, ⟨_, rfl⟩, ⟨_, rfl⟩⟩

/-- C10, amended: `ws_queue_steal_from` and `idemp_ws_queue_steal_from` return
null both when the compare-and-swap is lost and when the queue is empty, and
leave the queue unchanged in both cases: the result alone does not tell a
conflict from an empty queue. -/
theorem steal_conflict_or_empty_null :
    (∀ (q : ws_queue_t) (t : Int) (v : Ptr), q.top ≠ t →
      steal_step (.gotSlot t v) q = (.done NULL, q)) ∧
    (∀ (q : ws_queue_t) (t : Int), q.bottom ≤ t →
      steal_step (.gotTop t) q = (.done NULL, q)) ∧
    (∀ (q : idemp_ws_queue_t) (a : ws_anchor_t) (elt : Ptr), q.anchor ≠ a →
      isteal_step (.gotElt a elt) q = (.done NULL, q)) ∧
    (∀ q : idemp_ws_queue_t, q.anchor.size = 0 →
      isteal_step .entry q = (.done NULL, q)) := by
  refine ⟨?_, ?_, ?_, ?_⟩
  · intro q t v h
    simp [steal_step, cmpswap_top, h]
  · intro q t h
    have : ¬ t < q.bottom := by omega
    simp only [steal_step, this, if_false]
  · intro q a elt h
    simp [isteal_step, cmpswap_anchor, h]
  · intro q h
    simp only [isteal_step, h, if_true]

/-- A lost compare-and-swap and an empty queue, on both queues. -/
theorem steal_conflict_or_empty_null_witness :
    (steal_step (.gotSlot 0 7) { top := 1, bottom := 2, array := demoArray }).1 =
      (steal_step (.gotTop 0) demoQueue).1 ∧
    (isteal_step (.gotElt ⟨0, 2, 0⟩ 7) { anchor := ⟨1, 1, 0⟩, array := demoArray }).1 =
      (isteal_step .entry idemoQueue).1 := by
  refine ⟨?_, ?_⟩
  · rw [steal_conflict_or_empty_null.1 _ 0 7 (by decide),
      steal_conflict_or_empty_null.2.1 demoQueue 0 (by decide)]
  · rw [steal_conflict_or_empty_null.2.2.1 _ ⟨0, 2, 0⟩ 7 (by decide),
      steal_conflict_or_empty_null.2.2.2 idemoQueue rfl]

/-! ## A steal that returns no item changes nothing -/

/-- C11: for both queues, a steal that returns no item, because the queue is
empty or because its compare-and-swap fails (`top`, respectively the anchor, is
no longer the one the steal read), leaves the queue as it was: the whole call on
an empty queue returns null and the same queue; every access of a steal other
than a compare-and-swap that succeeds leaves `top`, `bottom`, the anchor and
every slot unchanged; and the access that finds the queue empty and the
compare-and-swap that fails return null. -/
theorem steal_without_item_unchanged :
    (∀ q : ws_queue_t, q.bottom ≤ q.top → ws_queue_steal_from q = (q, NULL)) ∧
    (∀ (pc : StealPC) (q : ws_queue_t), (∀ t v, pc = .gotSlot t v → q.top ≠ t) →
      (steal_step pc q).2 = q) ∧
    (∀ (q : ws_queue_t) (t : Int), ¬ t < q.bottom →
      steal_step (.gotTop t) q = (.done NULL, q)) ∧
    (∀ (q : ws_queue_t) (t : Int) (v : Ptr), q.top ≠ t →
      steal_step (.gotSlot t v) q = (.done NULL, q)) ∧
    (∀ q : idemp_ws_queue_t, q.anchor.size = 0 →
      idemp_ws_queue_steal_from q = (q, NULL)) ∧
    (∀ (pc : IStealPC) (q : idemp_ws_queue_t),
      (∀ a elt, pc = .gotElt a elt → q.anchor ≠ a) → (isteal_step pc q).2 = q) ∧
    (∀ q : idemp_ws_queue_t, q.anchor.size = 0 →
      isteal_step .entry q = (.done NULL, q)) ∧
    (∀ (q : idemp_ws_queue_t) (a : ws_anchor_t) (elt : Ptr), q.anchor ≠ a →
      isteal_step (.gotElt a elt) q = (.done NULL, q)) := by
  refine ⟨ws_queue_steal_empty, ?_, ?_, ?_, idemp_ws_queue_steal_empty, ?_, ?_, ?_⟩
  · intro pc q h
    cases pc with
    | entry => rfl
    | gotTop t => by_cases hb : t < q.bottom <;> simp [steal_step, hb]
    | gotBottom t => rfl
    | gotSlot t v =>
      have := h t v rfl
      simp [steal_step, cmpswap_top, this]
    | done r => rfl
  · intro q t h
    simp [steal_step, h]
  · intro q t v h
    simp [steal_step, cmpswap_top, h]
  · intro pc q h
    cases pc with
    | entry => by_cases hz : q.anchor.size = 0 <;> simp [isteal_step, hz]
    | gotAnchor a => rfl
    | gotElt a elt =>
      have := h a elt rfl
      simp [isteal_step, cmpswap_anchor, this]
    | done r => rfl
  · intro q h
    simp [isteal_step, h]
  · intro q a elt h
    simp [isteal_step, cmpswap_anchor, h]

/-- A steal that read `top = 0` and loses the compare-and-swap against `top = 1`,
and a steal on the empty queues of capacity 4. -/
theorem steal_without_item_unchanged_witness :
    ws_queue_steal_from demoQueue = (demoQueue, NULL) ∧
    (steal_step (.gotSlot 0 7) { top := 1, bottom := 2, array := demoArray }).1 = .done NULL ∧
    idemp_ws_queue_steal_from idemoQueue = (idemoQueue, NULL) ∧
    (isteal_step (.gotElt ⟨0, 2, 0⟩ 7) { anchor := ⟨1, 1, 0⟩, array := demoArray }).1
      = .done NULL :=
  ⟨steal_without_item_unchanged.1 demoQueue (by decide),
   congrArg Prod.fst (steal_without_item_unchanged.2.2.2.1 _ 0 7 (by decide)),
   steal_without_item_unchanged.2.2.2.2.1 idemoQueue rfl,
   congrArg Prod.fst (steal_without_item_unchanged.2.2.2.2.2.2.2 _ ⟨0, 2, 0⟩ 7 (by decide))⟩

/-! ## The three cases of `ws_queue_pop` -/

/-- For a non-negative index the slot of C is the index modulo the capacity. -/
theorem slot_eq_emod (i : Int) (c : Nat) (hi : 0 ≤ i) :
    slot i c = (i % (c : Int)).toNat := by
  unfold slot
  rw [Int.tmod_eq_emod hi (by omega)]

/-- C17: `ws_queue_pop` with exactly one live item (`top = b` at the reload of
`top`, where `b = bottom - 1` is what the call has stored in `bottom`): the call
loads the slot of `b` and goes to the compare-and-swap of `top` from `b` to
`b + 1`.  If the compare-and-swap succeeds, the pop returns the item of the slot
and `top` is `b + 1`; if it fails (`top` is no longer `b`), the pop returns null
and `top` is unchanged; in both cases the last access stores `b + 1`, the value
of `bottom` before the call, in `bottom`, so that `top = bottom` after a
compare-and-swap that succeeds.  Run without interference on a queue with
`top = bottom - 1`, the call returns the item of `bottom - 1` and leaves
`top = bottom`. -/
theorem ws_queue_pop_last_item (q : ws_queue_t) (b : Int) (v : Ptr) :
    pop_step .entry q = (.gotBottom (q.bottom - 1), q) ∧
    pop_step (.gotBottom b) q = (.stored b, { q with bottom := b }) ∧
    (q.top = b → pop_step (.stored b) q = (.gotTop b b, q) ∧
      pop_step (.gotTop b b) q = (.cas b b (q.array.buffer (slot b q.array.capacity)), q)) ∧
    (q.top = b → pop_step (.cas b b v) q = (.restore b v, { q with top := b + 1 })) ∧
    (q.top ≠ b → pop_step (.cas b b v) q = (.restore b NULL, q)) ∧
    (∀ r : Ptr, pop_step (.restore b r) q = (.done r, { q with bottom := b + 1 })) ∧
    (q.top = b →
      Nat.iterate (fun p : PopPC × ws_queue_t => pop_step p.1 p.2) 2 (.cas b b v, q)
        = (.done v, { top := b + 1, bottom := b + 1, array := q.array })) ∧
    (q.top ≠ b →
      Nat.iterate (fun p : PopPC × ws_queue_t => pop_step p.1 p.2) 2 (.cas b b v, q)
        = (.done NULL, { top := q.top, bottom := b + 1, array := q.array })) ∧
    (q.top = q.bottom - 1 →
      ws_queue_pop q = ({ top := q.bottom, bottom := q.bottom, array := q.array },
        q.array.buffer (slot (q.bottom - 1) q.array.capacity))) := by
  refine ⟨rfl, rfl, ?_, ?_, ?_, fun _ => rfl, ?_, ?_, ?_⟩
  · intro h
    subst h
    exact ⟨rfl, by simp [pop_step]⟩
  · intro h
    simp [pop_step, cmpswap_top, h]
  · intro h
    simp [pop_step, cmpswap_top, h]
  · intro h
    simp [Nat.iterate, pop_step, cmpswap_top, h]
  · intro h
    simp [Nat.iterate, pop_step, cmpswap_top, h]
  · intro h
    have e1 : q.bottom - 1 + 1 = q.bottom := by omega
    simp [ws_queue_pop, cmpswap_top, h, e1]

/-- One live item in a queue of capacity 4 (`top = 0`, `bottom = 1`): the pop
returns it and leaves `top = bottom = 1`; if a thief has already advanced `top`
to 1 when the owner's compare-and-swap from 0 runs, the pop returns null. -/
theorem ws_queue_pop_last_item_witness :
    (ws_queue_pop (ws_queue_push demoQueue 7).1).2 = 7 ∧
    (ws_queue_pop (ws_queue_push demoQueue 7).1).1.top = 1 ∧
    (ws_queue_pop (ws_queue_push demoQueue 7).1).1.bottom = 1 ∧
    (Nat.iterate (fun p : PopPC × ws_queue_t => pop_step p.1 p.2) 2
      (.cas 0 0 7, { top := 1, bottom := 0, array := demoArray })).1 = .done NULL := by
  have h := (ws_queue_pop_last_item (ws_queue_push demoQueue 7).1 0 7).2.2.2.2.2.2.2.2
    (by decide)
  have h2 := (ws_queue_pop_last_item { top := 1, bottom := 0, array := demoArray } 0 7
    ).2.2.2.2.2.2.2.1 (by decide)
  refine ⟨?_, ?_, ?_, ?_⟩
  · rw [h]; decide
  · rw [h]; decide
  · rw [h]; decide
  · rw [h2]

/-- C18: `ws_queue_pop` on an empty queue (`top ≥ bottom` on entry) returns null
and leaves `bottom`, `top` and every slot as they were, although its second
access stores `bottom - 1` in `bottom`; with at least two live items
(`top < bottom - 1`) it returns the slot of the index `bottom - 1`, which is the
slot `(bottom - 1) mod C` when `0 ≤ top`, leaves `bottom` decremented by one and
`top` unchanged. -/
theorem ws_queue_pop_empty_or_many (q : ws_queue_t) :
    (q.bottom ≤ q.top → ws_queue_pop q = (q, NULL)) ∧
    Nat.iterate (fun p : PopPC × ws_queue_t => pop_step p.1 p.2) 2 (.entry, q)
      = (.stored (q.bottom - 1), { q with bottom := q.bottom - 1 }) ∧
    (q.top < q.bottom - 1 →
      ws_queue_pop q = ({ q with bottom := q.bottom - 1 },
        q.array.buffer (slot (q.bottom - 1) q.array.capacity))) ∧
    (0 ≤ q.top → q.top < q.bottom - 1 →
      slot (q.bottom - 1) q.array.capacity
        = ((q.bottom - 1) % (q.array.capacity : Int)).toNat) := by
  refine ⟨ws_queue_pop_empty q, rfl, ?_, ?_⟩
  · intro h
    have h1 : q.top ≤ q.bottom - 1 := by omega
    have h2 : ¬ q.top = q.bottom - 1 := by omega
    simp only [ws_queue_pop]
    rw [if_pos h1, if_neg h2]
  · intro h0 h
    exact slot_eq_emod _ _ (by omega)

/-- The empty queue of capacity 4, and the queue after the pushes of 1, 2, 3. -/
theorem ws_queue_pop_empty_or_many_witness :
    ws_queue_pop demoQueue = (demoQueue, NULL) ∧
    (ws_queue_pop (pushAll demoQueue [1, 2, 3]).1).2 = 3 ∧
    (ws_queue_pop (pushAll demoQueue [1, 2, 3]).1).1.bottom = 2 ∧
    (ws_queue_pop (pushAll demoQueue [1, 2, 3]).1).1.top = 0 := by
  have h := (ws_queue_pop_empty_or_many (pushAll demoQueue [1, 2, 3]).1).2.2.1 (by decide)
  refine ⟨(ws_queue_pop_empty_or_many demoQueue).1 (by decide), ?_, ?_, ?_⟩
  · rw [h]; decide
  · rw [h]; decide
  · rw [h]; decide

/-! ## Bounds on `top` and `bottom` -/

/-- A call keeps `top ≤ bottom ≤ top + capacity`, the capacity, and does not
lower `top`. -/
theorem QOp.apply_bounds (op : QOp) (q : ws_queue_t) (h1 : q.top ≤ q.bottom)
    (h2 : q.bottom - q.top ≤ (q.array.capacity : Int)) :
    (op.apply q).1.top ≤ (op.apply q).1.bottom ∧
    (op.apply q).1.bottom - (op.apply q).1.top ≤ (q.array.capacity : Int) ∧
    (op.apply q).1.array.capacity = q.array.capacity ∧
    q.top ≤ (op.apply q).1.top := by
  cases op with
  | push v =>
    by_cases hf : q.bottom - q.top > (q.array.capacity : Int) - 1
    · simp only [QOp.apply, ws_queue_push, hf, if_true]
      exact ⟨h1, h2, trivial, le_rfl⟩
    · simp only [QOp.apply, ws_queue_push, hf, if_false]
      refine ⟨?_, ?_, rfl, le_rfl⟩
      · show q.top ≤ q.bottom + 1; omega
      · show q.bottom + 1 - q.top ≤ (q.array.capacity : Int); omega
  | pop =>
    by_cases hle : q.top ≤ q.bottom - 1
    · by_cases ht : q.top = q.bottom - 1
      · have hp : ws_queue_pop q =
            ({ top := q.top + 1, bottom := q.bottom - 1 + 1, array := q.array },
              q.array.buffer (slot (q.bottom - 1) q.array.capacity)) := by
          simp only [ws_queue_pop, cmpswap_top]
          rw [if_pos hle, if_pos ht]
          simp
        simp only [QOp.apply, hp]
        refine ⟨?_, ?_, trivial, ?_⟩ <;> omega
      · have hp : ws_queue_pop q = ({ q with bottom := q.bottom - 1 },
            q.array.buffer (slot (q.bottom - 1) q.array.capacity)) := by
          simp only [ws_queue_pop]
          rw [if_pos hle, if_neg ht]
        simp only [QOp.apply, hp]
        refine ⟨?_, ?_, trivial, ?_⟩ <;> omega
    · simp only [QOp.apply, ws_queue_pop_empty q (by omega)]
      exact ⟨h1, h2, trivial, le_rfl⟩
  | steal =>
    by_cases hlt : q.top < q.bottom
    · simp only [QOp.apply, ws_queue_steal_from, cmpswap_top, hlt, if_true]
      refine ⟨?_, ?_, trivial, ?_⟩ <;> omega
    · simp only [QOp.apply, ws_queue_steal_empty q (by omega)]
      exact ⟨h1, h2, trivial, le_rfl⟩

/-- The bounds hold after every sequence of calls. -/
theorem runQOps_bounds (ops : List QOp) : ∀ q : ws_queue_t, q.top ≤ q.bottom →
    q.bottom - q.top ≤ (q.array.capacity : Int) →
    (runQOps q ops).1.top ≤ (runQOps q ops).1.bottom ∧
    (runQOps q ops).1.bottom - (runQOps q ops).1.top ≤ (q.array.capacity : Int) ∧
    (runQOps q ops).1.array.capacity = q.array.capacity ∧
    q.top ≤ (runQOps q ops).1.top := by
  induction ops with
  | nil => intro q h1 h2; exact ⟨h1, h2, rfl, le_rfl⟩
  | cons op ops ih =>
    intro q h1 h2
    obtain ⟨a1, a2, a3, a4⟩ := op.apply_bounds q h1 h2
    obtain ⟨b1, b2, b3, b4⟩ := ih (op.apply q).1 a1 (by rw [a3]; exact a2)
    simp only [runQOps]
    rw [a3] at b2 b3
    exact ⟨b1, b2, b3, le_trans a4 b4⟩

/-- C19: on a Chase-Lev queue of capacity `C ≥ 1` that starts with
`top = bottom`, after each call of every sequence of completed pushes, pops and
steals (after every prefix `ops.take n` of the sequence) `0 ≤ bottom - top ≤ C`
holds and `top` is not below its initial value; a push leaves `top` unchanged, a
pop and a steal leave it unchanged or increase it by exactly one. -/
theorem ws_queue_bounds (q : ws_queue_t) (ops : List QOp) (_hC : 1 ≤ q.array.capacity)
    (he : q.top = q.bottom) :
    (∀ n : Nat,
      0 ≤ (runQOps q (ops.take n)).1.bottom - (runQOps q (ops.take n)).1.top ∧
      (runQOps q (ops.take n)).1.bottom - (runQOps q (ops.take n)).1.top
        ≤ (q.array.capacity : Int) ∧
      q.top ≤ (runQOps q (ops.take n)).1.top) ∧
    (∀ (q1 : ws_queue_t) (v : Ptr), (ws_queue_push q1 v).1.top = q1.top) ∧
    (∀ q1 : ws_queue_t, (ws_queue_pop q1).1.top = q1.top ∨
      (ws_queue_pop q1).1.top = q1.top + 1) ∧
    (∀ q1 : ws_queue_t, (ws_queue_steal_from q1).1.top = q1.top ∨
      (ws_queue_steal_from q1).1.top = q1.top + 1) := by
  refine ⟨?_, ?_, ?_, ?_⟩
  · intro n
    obtain ⟨b1, b2, -, b4⟩ := runQOps_bounds (ops.take n) q (by omega) (by omega)
    exact ⟨by omega, b2, b4⟩
  · intro q1 v
    by_cases hf : q1.bottom - q1.top > (q1.array.capacity : Int) - 1 <;>
      simp [ws_queue_push, hf]
  · intro q1
    by_cases hle : q1.top ≤ q1.bottom - 1
    · by_cases ht : q1.top = q1.bottom - 1
      · right
        simp only [ws_queue_pop, cmpswap_top]
        rw [if_pos hle, if_pos ht]
        simp
      · left
        simp only [ws_queue_pop]
        rw [if_pos hle, if_neg ht]
    · left
      rw [ws_queue_pop_empty q1 (by omega)]
  · intro q1
    by_cases hlt : q1.top < q1.bottom
    · right
      simp [ws_queue_steal_from, cmpswap_top, hlt]
    · left
      rw [ws_queue_steal_empty q1 (by omega)]

/-- The calls `wrapOps` on the queue of capacity 2: at the end
`top = bottom = 4`. -/
theorem ws_queue_bounds_witness :
    (runQOps smallQueue wrapOps).1.top = 4 ∧
    (runQOps smallQueue wrapOps).1.bottom = 4 ∧
    0 ≤ (runQOps smallQueue (wrapOps.take 5)).1.bottom
        - (runQOps smallQueue (wrapOps.take 5)).1.top ∧
    (runQOps smallQueue (wrapOps.take 5)).1.bottom
        - (runQOps smallQueue (wrapOps.take 5)).1.top ≤ 2 :=
  ⟨by decide, by decide,
   ((ws_queue_bounds smallQueue wrapOps (by decide) rfl).1 5).1,
   ((ws_queue_bounds smallQueue wrapOps (by decide) rfl).1 5).2.1⟩

/-! ## The Chase-Lev queue implements a bounded double-ended sequence -/

/-- The pop of the specification on a sequence with a last item. -/
theorem spec_pop_concat (l : List Ptr) (x : Ptr) : spec_pop (l ++ [x]) = (l, x) := by
  simp [spec_pop]

/-- One call on the queue is the call of the specification on its live items. -/
theorem QOp.apply_refines (op : QOp) (q : ws_queue_t) (hw : q.wf) :
    (op.apply q).2 = (spec_apply q.array.capacity op q.contents).2 ∧
    (op.apply q).1.contents = (spec_apply q.array.capacity op q.contents).1 ∧
    (op.apply q).1.wf ∧
    (op.apply q).1.array.capacity = q.array.capacity := by
  have hlen := q.contents_length
  have hw' := hw
  obtain ⟨w1, w2, w3⟩ := hw'
  cases op with
  | push v =>
    by_cases hlt : q.bottom - q.top < (q.array.capacity : Int)
    · obtain ⟨p1, p2, p3, p4⟩ := ws_queue_push_contents q v hw hlt
      have hl : q.contents.length < q.array.capacity := by omega
      simp only [QOp.apply, spec_apply, spec_push, hl, if_true]
      exact ⟨by rw [p1], p3, p2, p4⟩
    · have hl : ¬ q.contents.length < q.array.capacity := by omega
      simp only [QOp.apply, spec_apply, spec_push, hl, if_false, ws_queue_push_full q v hlt]
      exact ⟨trivial, trivial, hw, trivial⟩
  | pop =>
    by_cases hlt : q.top < q.bottom
    · obtain ⟨p1, p2, p3⟩ := ws_queue_pop_contents q hw hlt
      simp only [QOp.apply, spec_apply]
      rw [p1, spec_pop_concat]
      exact ⟨rfl, rfl, p2, p3⟩
    · have he : q.contents = [] := List.eq_nil_of_length_eq_zero (by omega)
      simp only [QOp.apply, spec_apply, ws_queue_pop_empty q (by omega), he, spec_pop,
        List.getLast?_nil]
      exact ⟨trivial, trivial, hw, trivial⟩
  | steal =>
    by_cases hlt : q.top < q.bottom
    · obtain ⟨p1, p2, p3⟩ := ws_queue_steal_contents q hw hlt
      simp only [QOp.apply, spec_apply]
      rw [p1]
      simp only [spec_steal]
      exact ⟨trivial, trivial, p2, p3⟩
    · have he : q.contents = [] := List.eq_nil_of_length_eq_zero (by omega)
      simp only [QOp.apply, spec_apply, ws_queue_steal_empty q (by omega), he, spec_steal]
      exact ⟨trivial, trivial, hw, trivial⟩

/-- A sequence of calls on the queue is the sequence of calls of the
specification on its live items. -/
theorem runQOps_refines (ops : List QOp) : ∀ q : ws_queue_t, q.wf →
    (runQOps q ops).2 = (spec_run q.array.capacity q.contents ops).2 ∧
    (runQOps q ops).1.contents = (spec_run q.array.capacity q.contents ops).1 ∧
    (runQOps q ops).1.wf := by
  induction ops with
  | nil => intro q hw; exact ⟨rfl, rfl, hw⟩
  | cons op ops ih =>
    intro q hw
    obtain ⟨a1, a2, a3, a4⟩ := op.apply_refines q hw
    obtain ⟨b1, b2, b3⟩ := ih (op.apply q).1 a3
    rw [a2, a4] at b1 b2
    simp only [runQOps, spec_run]
    exact ⟨by rw [a1, b1], b2, b3⟩

/-- The items of the sequence of the specification are the initial ones and the
ones pushed. -/
theorem spec_run_mem (C : Nat) (ops : List QOp) : ∀ l : List Ptr,
    ∀ x ∈ (spec_run C l ops).1, x ∈ l ∨ QOp.push x ∈ ops := by
  induction ops with
  | nil => intro l x hx; exact Or.inl hx
  | cons op ops ih =>
    intro l x hx
    simp only [spec_run] at hx
    rcases ih _ x hx with h | h
    · cases op with
      | push v =>
        simp only [spec_apply, spec_push] at h
        by_cases hl : l.length < C
        · simp only [hl, if_true, List.mem_append, List.mem_singleton] at h
          rcases h with h | h
          · exact Or.inl h
          · right; rw [h]; exact List.mem_cons_self _ _
        · simp only [hl, if_false] at h
          exact Or.inl h
      | pop =>
        left
        simp only [spec_apply, spec_pop] at h
        cases hg : l.getLast? with
        | none => rw [hg] at h; exact h
        | some y =>
          rw [hg] at h
          exact List.mem_of_mem_dropLast h
      | steal =>
        left
        simp only [spec_apply, spec_steal] at h
        cases l with
        | nil => exact h
        | cons y t => exact List.mem_cons_of_mem _ h
    · right
      exact List.mem_cons_of_mem _ h

/-- C20: run one call at a time from an empty queue (`0 ≤ top = bottom`) of
capacity `C`, the Chase-Lev queue implements the bounded double-ended sequence
of the specification (`spec_push`, `spec_pop`, `spec_steal`): for every sequence
of calls, also when `top` and `bottom` go beyond `C` and the indices wrap
around, the results are those of the specification, the slots of the indices
`top ≤ i < bottom` are its items in push order, and with non-null pushed items
no live item is null, so that a pop or steal returns null only on the empty
sequence. -/
theorem ws_queue_refines_deque (q : ws_queue_t) (ops : List QOp) (h0 : 0 ≤ q.top)
    (he : q.top = q.bottom) (hx : ∀ v, QOp.push v ∈ ops → v ≠ NULL) :
    (runQOps q ops).2 = (spec_run q.array.capacity [] ops).2 ∧
    (runQOps q ops).1.contents = (spec_run q.array.capacity [] ops).1 ∧
    (∀ x ∈ (runQOps q ops).1.contents, x ≠ NULL) := by
  have hw : q.wf := ⟨h0, by omega, by omega⟩
  obtain ⟨r1, r2, -⟩ := runQOps_refines ops q hw
  rw [q.contents_empty he] at r1 r2
  refine ⟨r1, r2, ?_⟩
  intro x hxm
  rw [r2] at hxm
  rcases spec_run_mem _ ops [] x hxm with h | h
  · cases h
  · exact hx x h

/-- The calls `wrapOps` on the queue of capacity 2, during which the indices
wrap around: the third push is refused, the steals return 1, 2 and 5, the pops
4, 6 and null. -/
theorem ws_queue_refines_deque_witness :
    (runQOps smallQueue wrapOps).2 =
      [.code 1, .code 1, .code 0, .item 1, .code 1, .item 4, .item 2, .code 1, .code 1,
       .item 5, .item 6, .item NULL] ∧
    (spec_run 2 [] wrapOps).2 = (runQOps smallQueue wrapOps).2 :=
  ⟨by decide,
   (ws_queue_refines_deque smallQueue wrapOps (by decide) rfl (by
      intro v hv
      simp only [wrapOps, List.mem_cons, QOp.push.injEq, List.mem_singleton, reduceCtorEq,
        or_false, false_or, List.not_mem_nil] at hv
      rcases hv with rfl | rfl | rfl | rfl | rfl | rfl <;> decide)).1.symm⟩

/-! ## The idempotent queue implements a bounded double-ended sequence -/

/-- One call on the idempotent queue is the call of the specification on its
live items. -/
theorem IOp.apply_refines_idemp (op : IOp) (q : idemp_ws_queue_t)
    (hle : q.anchor.size ≤ q.array.capacity) :
    op.result q = (spec_apply q.array.capacity op.toQOp q.contents).2 ∧
    (op.apply q).contents = (spec_apply q.array.capacity op.toQOp q.contents).1 ∧
    (op.apply q).anchor.size ≤ q.array.capacity ∧
    (op.apply q).array.capacity = q.array.capacity := by
  have hlen := q.contents_length_idemp
  cases op with
  | push elt =>
    by_cases hf : q.anchor.size = q.array.capacity
    · have hl : ¬ q.contents.length < q.array.capacity := by omega
      have hp : idemp_ws_queue_push q elt = (q, 0) := by
        simp [idemp_ws_queue_push, hf]
      simp only [IOp.result, IOp.apply, IOp.toQOp, spec_apply, spec_push, hl, if_false, hp]
      exact ⟨trivial, trivial, hle, trivial⟩
    · obtain ⟨p1, p2, p3, p4⟩ := idemp_ws_queue_push_contents q elt (by omega)
      have hl : q.contents.length < q.array.capacity := by omega
      simp only [IOp.result, IOp.apply, IOp.toQOp, spec_apply, spec_push, hl, if_true]
      exact ⟨by rw [p1], p2, by rw [p3]; omega, p4⟩
  | pop =>
    by_cases hz : q.anchor.size = 0
    · have he : q.contents = [] := q.contents_empty_idemp hz
      simp only [IOp.result, IOp.apply, IOp.toQOp, spec_apply,
        idemp_ws_queue_pop_empty q hz, he, spec_pop, List.getLast?_nil]
      exact ⟨trivial, trivial, hle, trivial⟩
    · obtain ⟨p1, p2, p3⟩ := idemp_ws_queue_pop_contents q hz
      simp only [IOp.result, IOp.apply, IOp.toQOp, spec_apply]
      rw [p1, spec_pop_concat]
      exact ⟨rfl, rfl, by rw [p2]; omega, p3⟩
  | steal =>
    by_cases hz : q.anchor.size = 0
    · have he : q.contents = [] := q.contents_empty_idemp hz
      simp only [IOp.result, IOp.apply, IOp.toQOp, spec_apply,
        idemp_ws_queue_steal_empty q hz, he, spec_steal]
      exact ⟨trivial, trivial, hle, trivial⟩
    · obtain ⟨p1, p2, p3⟩ := idemp_ws_queue_steal_contents q hz
      simp only [IOp.result, IOp.apply, IOp.toQOp, spec_apply]
      rw [p1]
      simp only [spec_steal]
      exact ⟨trivial, trivial, by rw [p2]; omega, p3⟩

/-- A sequence of calls on the idempotent queue is the sequence of calls of the
specification on its live items. -/
theorem runIOps_refines (ops : List IOp) : ∀ q : idemp_ws_queue_t,
    q.anchor.size ≤ q.array.capacity →
    (runIOps q ops).2 = (spec_run q.array.capacity q.contents (ops.map IOp.toQOp)).2 ∧
    (runIOps q ops).1.contents
      = (spec_run q.array.capacity q.contents (ops.map IOp.toQOp)).1 := by
  induction ops with
  | nil => intro q _; exact ⟨rfl, rfl⟩
  | cons op ops ih =>
    intro q hle
    obtain ⟨a1, a2, a3, a4⟩ := op.apply_refines_idemp q hle
    obtain ⟨b1, b2⟩ := ih (op.apply q) (by rw [a4]; exact a3)
    rw [a2, a4] at b1 b2
    simp only [runIOps, spec_run, List.map_cons]
    exact ⟨by rw [a1, b1], b2⟩

/-- C21: run one call at a time from an empty idempotent queue (`size = 0`, any
`head`, in particular `head = 0`) of capacity `C`, the queue implements the
bounded double-ended sequence of the specification: for every sequence of calls,
also when `head + size` goes beyond `C` and the slots wrap around, the results
are those of `spec_push` (append at the back exactly when fewer than `C` items
are live), `spec_pop` (back item) and `spec_steal` (front item), and the slots
`(head + j) mod C`, `0 ≤ j < size`, are the items of the sequence in push order;
with non-null pushed items no live item is null.  A steal on a queue that is not
empty returns the slot `head mod C` and stores the anchor
`{(head + 1) mod C, size - 1, tag}`; on a queue whose live items are not null,
pop and steal return null exactly when `size = 0`. -/
theorem idemp_ws_queue_refines_deque (q : idemp_ws_queue_t) (ops : List IOp)
    (he : q.anchor.size = 0) (hx : ∀ v, IOp.push v ∈ ops → v ≠ NULL) :
    (runIOps q ops).2 = (spec_run q.array.capacity [] (ops.map IOp.toQOp)).2 ∧
    (runIOps q ops).1.contents = (spec_run q.array.capacity [] (ops.map IOp.toQOp)).1 ∧
    (∀ x ∈ (runIOps q ops).1.contents, x ≠ NULL) ∧
    (∀ q1 : idemp_ws_queue_t, q1.anchor.size ≠ 0 →
      idemp_ws_queue_steal_from q1 =
        ({ anchor := ⟨(q1.anchor.head + 1) % q1.array.capacity, q1.anchor.size - 1,
                      q1.anchor.tag⟩,
           array := q1.array },
         q1.array.buffer (q1.anchor.head % q1.array.capacity))) ∧
    (∀ q1 : idemp_ws_queue_t, (∀ x ∈ q1.contents, x ≠ NULL) →
      ((idemp_ws_queue_pop q1).2 = NULL ↔ q1.anchor.size = 0) ∧
      ((idemp_ws_queue_steal_from q1).2 = NULL ↔ q1.anchor.size = 0)) := by
  obtain ⟨r1, r2⟩ := runIOps_refines ops q (by omega)
  rw [q.contents_empty_idemp he] at r1 r2
  refine ⟨r1, r2, ?_, ?_, ?_⟩
  · intro x hxm
    rw [r2] at hxm
    rcases spec_run_mem _ _ [] x hxm with h | h
    · cases h
    · obtain ⟨op, h1, h2⟩ := List.mem_map.1 h
      cases op with
      | push v =>
        simp only [IOp.toQOp, QOp.push.injEq] at h2
        subst h2
        exact hx _ h1
      | pop => simp [IOp.toQOp] at h2
      | steal => simp [IOp.toQOp] at h2
  · intro q1 hz
    simp [idemp_ws_queue_steal_from, cmpswap_anchor, hz]
  · intro q1 hnn
    constructor
    · constructor
      · intro hr
        by_contra hz
        obtain ⟨p1, -, -⟩ := idemp_ws_queue_pop_contents q1 hz
        exact hnn _ (by rw [p1]; simp) hr
      · intro hz
        rw [idemp_ws_queue_pop_empty q1 hz]
    · constructor
      · intro hr
        by_contra hz
        obtain ⟨p1, -, -⟩ := idemp_ws_queue_steal_contents q1 hz
        exact hnn _ (by rw [p1]; simp) hr
      · intro hz
        rw [idemp_ws_queue_steal_empty q1 hz]

/-- The calls `iwrapOps` on the idempotent queue of capacity 2, during which the
slots wrap around: the third push is refused, the steals return 1, 2 and 5, the
pops 4, 6 and null. -/
theorem idemp_ws_queue_refines_deque_witness :
    (runIOps ismallQueue iwrapOps).2 =
      [.code 1, .code 1, .code 0, .item 1, .code 1, .item 4, .item 2, .code 1, .code 1,
       .item 5, .item 6, .item NULL] ∧
    (spec_run 2 [] (iwrapOps.map IOp.toQOp)).2 = (runIOps ismallQueue iwrapOps).2 :=
  ⟨by decide,
   (idemp_ws_queue_refines_deque ismallQueue iwrapOps rfl (by
      intro v hv
      simp only [iwrapOps, List.mem_cons, IOp.push.injEq, List.mem_singleton, reduceCtorEq,
        or_false, false_or, List.not_mem_nil] at hv
      rcases hv with rfl | rfl | rfl | rfl | rfl | rfl <;> decide)).1.symm⟩

/-! ## Bounds on the anchor -/

/-- A call keeps `size ≤ capacity`, `head < capacity` and the capacity. -/
theorem IOp.apply_anchor (op : IOp) (q : idemp_ws_queue_t) (hC : 1 ≤ q.array.capacity)
    (hs : q.anchor.size ≤ q.array.capacity) (hh : q.anchor.head < q.array.capacity) :
    (op.apply q).anchor.size ≤ q.array.capacity ∧
    (op.apply q).anchor.head < q.array.capacity ∧
    (op.apply q).array.capacity = q.array.capacity := by
  cases op with
  | push elt =>
    by_cases hf : q.anchor.size = q.array.capacity
    · simp only [IOp.apply, idemp_ws_queue_push, hf, if_true]
      exact ⟨by omega, hh, trivial⟩
    · simp only [IOp.apply, idemp_ws_queue_push, hf, if_false]
      exact ⟨by show q.anchor.size + 1 ≤ q.array.capacity; omega, hh, rfl⟩
  | pop =>
    by_cases hz : q.anchor.size = 0
    · simp only [IOp.apply, idemp_ws_queue_pop, hz, if_true]
      exact ⟨by omega, hh, trivial⟩
    · simp only [IOp.apply, idemp_ws_queue_pop, hz, if_false]
      exact ⟨by show q.anchor.size - 1 ≤ q.array.capacity; omega, hh, trivial⟩
  | steal =>
    by_cases hz : q.anchor.size = 0
    · simp only [IOp.apply, idemp_ws_queue_steal_from, hz, if_true]
      exact ⟨by omega, hh, trivial⟩
    · simp only [IOp.apply, idemp_ws_queue_steal_from, cmpswap_anchor, hz, if_false, if_true]
      refine ⟨by show q.anchor.size - 1 ≤ q.array.capacity; omega, ?_, trivial⟩
      exact Nat.mod_lt _ (by omega)

/-- The bounds on the anchor hold after every sequence of calls. -/
theorem runOps_anchor (ops : List IOp) : ∀ q : idemp_ws_queue_t, 1 ≤ q.array.capacity →
    q.anchor.size ≤ q.array.capacity → q.anchor.head < q.array.capacity →
    (runOps q ops).anchor.size ≤ q.array.capacity ∧
    (runOps q ops).anchor.head < q.array.capacity := by
  induction ops with
  | nil => intro q _ hs hh; exact ⟨hs, hh⟩
  | cons op ops ih =>
    intro q hC hs hh
    obtain ⟨a1, a2, a3⟩ := op.apply_anchor q hC hs hh
    have := ih (op.apply q) (by rw [a3]; exact hC) (by rw [a3]; exact a1)
      (by rw [a3]; exact a2)
    rw [a3] at this
    exact this

/-- C22: on an idempotent queue of capacity `C ≥ 1` that starts with `head < C`
and `size = 0`, after each call of every sequence of pushes, pops and steals
(after every prefix `ops.take n` of the sequence) the anchor satisfies
`0 ≤ size ≤ C` and `head < C`; and only a steal that succeeds changes `head`: a
push and a pop leave it as it is, and so does a steal on an empty queue. -/
theorem idemp_anchor_bounds (q : idemp_ws_queue_t) (ops : List IOp)
    (hC : 1 ≤ q.array.capacity) (hh : q.anchor.head < q.array.capacity)
    (he : q.anchor.size = 0) :
    (∀ n : Nat,
      0 ≤ (runOps q (ops.take n)).anchor.size ∧
      (runOps q (ops.take n)).anchor.size ≤ q.array.capacity ∧
      (runOps q (ops.take n)).anchor.head < q.array.capacity) ∧
    (∀ (q1 : idemp_ws_queue_t) (elt : Ptr),
      (idemp_ws_queue_push q1 elt).1.anchor.head = q1.anchor.head) ∧
    (∀ q1 : idemp_ws_queue_t, (idemp_ws_queue_pop q1).1.anchor.head = q1.anchor.head) ∧
    (∀ q1 : idemp_ws_queue_t, q1.anchor.size = 0 →
      (idemp_ws_queue_steal_from q1).1.anchor.head = q1.anchor.head) ∧
    (∀ q1 : idemp_ws_queue_t, q1.anchor.size ≠ 0 →
      (idemp_ws_queue_steal_from q1).1.anchor.head
        = (q1.anchor.head + 1) % q1.array.capacity) := by
  refine ⟨?_, ?_, ?_, ?_, ?_⟩
  · intro n
    obtain ⟨b1, b2⟩ := runOps_anchor (ops.take n) q hC (by omega) hh
    exact ⟨Nat.zero_le _, b1, b2⟩
  · intro q1 elt
    by_cases hf : q1.anchor.size = q1.array.capacity <;> simp [idemp_ws_queue_push, hf]
  · intro q1
    by_cases hz : q1.anchor.size = 0 <;> simp [idemp_ws_queue_pop, hz]
  · intro q1 hz
    rw [idemp_ws_queue_steal_empty q1 hz]
  · intro q1 hz
    simp [idemp_ws_queue_steal_from, cmpswap_anchor, hz]

/-- The calls `iwrapOps` on the idempotent queue of capacity 2: the anchor ends
as `{1, 0, 5}`, and after the first five calls `size ≤ 2` and `head < 2`. -/
theorem idemp_anchor_bounds_witness :
    (runOps ismallQueue iwrapOps).anchor = ⟨1, 0, 5⟩ ∧
    (runOps ismallQueue (iwrapOps.take 5)).anchor.size ≤ 2 ∧
    (runOps ismallQueue (iwrapOps.take 5)).anchor.head < 2 :=
  ⟨by decide,
   ((idemp_anchor_bounds ismallQueue iwrapOps (by decide) (by decide) rfl).1 5).2.1,
   ((idemp_anchor_bounds ismallQueue iwrapOps (by decide) (by decide) rfl).1 5).2.2⟩

/-! ## The multiplicative hashes -/

/-- C23: `int32hash` is injective on the 32-bit words and `int64hash` on the
64-bit words, the products being taken modulo `2^32` and `2^64`. -/
theorem inthash_injective :
    (∀ a b : Nat, a < 2 ^ 32 → b < 2 ^ 32 → int32hash a = int32hash b → a = b) ∧
    (∀ a b : Nat, a < 2 ^ 64 → b < 2 ^ 64 → int64hash a = int64hash b → a = b) := by
  constructor
  · intro a b ha hb h
    have h1 : a * 0x9e3779b9 ≡ b * 0x9e3779b9 [MOD 2 ^ 32] := h
    have h2 : a ≡ b [MOD 2 ^ 32] :=
      Nat.ModEq.cancel_right_of_coprime (by norm_num) h1
    exact Nat.ModEq.eq_of_lt_of_lt h2 ha hb
  · intro a b ha hb h
    have h1 : a * 0x517cc1b727220a95 ≡ b * 0x517cc1b727220a95 [MOD 2 ^ 64] := h
    have h2 : a ≡ b [MOD 2 ^ 64] :=
      Nat.ModEq.cancel_right_of_coprime (by norm_num) h1
    exact Nat.ModEq.eq_of_lt_of_lt h2 ha hb

/-- Values of the hashes, with products beyond the word size, and the theorem at
the largest words: equal hashes, equal words; the words 1 and 2 have different
hashes. -/
theorem inthash_injective_witness :
    int32hash 1 = 0x9e3779b9 ∧ int32hash 0xffffffff = 0x61c88647 ∧
    int64hash 0xffffffffffffffff = 0xae833e48d8ddf56b ∧
    (2 ^ 32 - 1 < 2 ^ 32 ∧ int32hash (2 ^ 32 - 1) = int32hash 0xffffffff ∧
      2 ^ 32 - 1 = 0xffffffff) ∧
    (2 ^ 64 - 1 < 2 ^ 64 ∧ int64hash (2 ^ 64 - 1) = int64hash 0xffffffffffffffff ∧
      2 ^ 64 - 1 = 0xffffffffffffffff) ∧
    int32hash 1 ≠ int32hash 2 ∧ int64hash 1 ≠ int64hash 2 :=
  ⟨by decide, by decide, by decide,
   ⟨by decide, by decide,
    inthash_injective.1 (2 ^ 32 - 1) 0xffffffff (by decide) (by decide) (by decide)⟩,
   ⟨by decide, by decide,
    inthash_injective.2 (2 ^ 64 - 1) 0xffffffffffffffff (by decide) (by decide) (by decide)⟩,
   fun h => absurd (inthash_injective.1 1 2 (by decide) (by decide) h) (by decide),
   fun h => absurd (inthash_injective.2 1 2 (by decide) (by decide) h) (by decide)⟩

end WSQueue

namespace Engine

open WSQueue (Ptr NULL)

/-! ## The table -/

/-- No bucket has the key `k` exactly when `find` finds none. -/
theorem find_eq_none {t : List Reservation} {k : Key} :
    find t k = none ↔ ∀ r ∈ t, r.key ≠ k := by
  simp [find, List.find?_eq_none]

/-- The bucket found is a bucket of the table, with the key asked for. -/
theorem find_eq_some {t : List Reservation} {k : Key} {r : Reservation}
    (h : find t k = some r) : r ∈ t ∧ r.key = k := by
  unfold find at h
  exact ⟨List.mem_of_find?_eq_some h, by simpa using List.find?_some h⟩

/-- In a table with distinct keys, a bucket is the one found for its key. -/
theorem find_of_mem {t : List Reservation} (hw : wf t) {r : Reservation} (hr : r ∈ t) :
    find t r.key = some r := by
  induction t with
  | nil => cases hr
  | cons a t ih =>
    unfold wf at hw
    rw [List.map_cons, List.nodup_cons] at hw
    rcases List.mem_cons.1 hr with e | e
    · subst e
      simp [find]
    · have hne : a.key ≠ r.key := by
        intro e1
        exact hw.1 (e1 ▸ List.mem_map_of_mem _ e)
      have := ih hw.2 e
      unfold find at this ⊢
      rw [List.find?_cons_of_neg _ (by simpa using hne)]
      exact this

/-- The number of buckets of a key that has one, in a table with distinct keys. -/
theorem count_key {t : List Reservation} (hw : wf t) {k : Key} {r : Reservation}
    (h : find t k = some r) : (t.filter (fun e => decide (e.key = k))).length = 1 := by
  induction t with
  | nil => simp [find] at h
  | cons a t ih =>
    unfold wf at hw
    rw [List.map_cons, List.nodup_cons] at hw
    by_cases ha : a.key = k
    · have hnone : ∀ e ∈ t, e.key ≠ k := by
        intro e he e1
        exact hw.1 (by rw [ha, ← e1]; exact List.mem_map_of_mem _ he)
      have : t.filter (fun e => decide (e.key = k)) = [] := by
        rw [List.filter_eq_nil_iff]
        intro e he
        simpa using hnone e he
      simp [List.filter_cons, ha, this]
    · have h1 : find t k = some r := by
        unfold find at h ⊢
        rw [List.find?_cons_of_neg _ (by simpa using ha)] at h
        exact h
      simp [List.filter_cons, ha, ih hw.2 h1]

/-- The assignment through `ci` changes nothing in a table without the key. -/
theorem assign_of_absent {t : List Reservation} {k : Key} (h : find t k = none)
    (a : Int) (b : Ptr) : assign t k a b = t := by
  rw [find_eq_none] at h
  unfold assign
  conv_rhs => rw [← List.map_id t]
  apply List.map_congr_left
  intro r hr
  simp [h r hr]

/-- The assignment through `ci` keeps the keys. -/
theorem assign_keys (t : List Reservation) (k : Key) (a : Int) (b : Ptr) :
    (assign t k a b).map Reservation.key = t.map Reservation.key := by
  unfold assign
  rw [List.map_map]
  apply List.map_congr_left
  intro r _
  by_cases h : r.key = k <;> simp [h]

/-- The three cases of a `jl_engine_reserve` call that completes: the key has no
bucket and gets one with the caller and the new code instance; the key has a
bucket with a code instance, which is returned; the key has a bucket without a
code instance, which is filled. -/
theorem reserve_cases {s s1 : EngineState} {tid : Int} {m owner newci h : Ptr}
    (hr : jl_engine_reserve s tid m owner newci = some (s1, h)) :
    s.engine_lock.lock tid = some s1.engine_lock ∧
    ((find s.Reservations (m, owner) = none ∧
        s1.Reservations = s.Reservations ++ [⟨(m, owner), tid, newci⟩] ∧ h = newci) ∨
     (∃ r, find s.Reservations (m, owner) = some r ∧ r.second ≠ NULL ∧
        s1.Reservations = s.Reservations ∧ h = r.second) ∨
     (∃ r, find s.Reservations (m, owner) = some r ∧ r.second = NULL ∧
        s1.Reservations = assign s.Reservations (m, owner) tid newci ∧ h = newci)) := by
  unfold jl_engine_reserve at hr
  cases hl : s.engine_lock.lock tid with
  | none => rw [hl] at hr; cases hr
  | some l =>
    rw [hl] at hr
    simp only at hr
    cases hf : find s.Reservations (m, owner) with
    | none =>
      have hi : index s.Reservations (m, owner)
          = s.Reservations ++ [⟨(m, owner), 0, NULL⟩] := by
        simp [index, hf]
      have hf1 : find (s.Reservations ++ [⟨(m, owner), 0, NULL⟩]) (m, owner)
          = some ⟨(m, owner), 0, NULL⟩ := by
        unfold find at hf ⊢
        rw [List.find?_append, hf]
        simp
      have hv : value (s.Reservations ++ [⟨(m, owner), 0, NULL⟩]) (m, owner) = (0, NULL) := by
        simp [value, hf1]
      rw [hi, hv] at hr
      simp only [ne_eq, not_true_eq_false, if_false, Option.some.injEq, Prod.mk.injEq] at hr
      obtain ⟨e1, e2⟩ := hr
      subst e1 e2
      refine ⟨rfl, Or.inl ⟨rfl, ?_, rfl⟩⟩
      show assign (s.Reservations ++ [⟨(m, owner), 0, NULL⟩]) (m, owner) tid newci = _
      have := assign_of_absent hf tid newci
      unfold assign at this ⊢
      rw [List.map_append, this]
      simp
    | some r =>
      have hi : index s.Reservations (m, owner) = s.Reservations := by
        simp [index, hf]
      have hv : value s.Reservations (m, owner) = (r.first, r.second) := by
        simp [value, hf]
      rw [hi, hv] at hr
      by_cases hn : r.second = NULL
      · simp only [hn, ne_eq, not_true_eq_false, if_false, Option.some.injEq,
          Prod.mk.injEq] at hr
        obtain ⟨e1, e2⟩ := hr
        subst e1 e2
        exact ⟨rfl, Or.inr (Or.inr ⟨r, rfl, hn, rfl, rfl⟩)⟩
      · simp only [ne_eq, hn, not_false_eq_true, if_true, Option.some.injEq,
          Prod.mk.injEq] at hr
        obtain ⟨e1, e2⟩ := hr
        subst e1 e2
        exact ⟨rfl, Or.inr (Or.inl ⟨r, rfl, hn, rfl, rfl⟩)⟩

/-- The assignment through `ci` leaves the buckets of the other keys alone. -/
theorem find_assign_other (t : List Reservation) {k k1 : Key} (hk : k1 ≠ k) (a : Int)
    (b : Ptr) : find (assign t k a b) k1 = find t k1 := by
  induction t with
  | nil => rfl
  | cons r t ih =>
    unfold find assign at ih ⊢
    rw [List.map_cons]
    by_cases h : r.key = k
    · have h1 : ¬ r.key = k1 := fun e => hk (e.symm.trans h)
      rw [if_pos h, List.find?_cons_of_neg _ (by simpa using hk.symm),
        List.find?_cons_of_neg _ (by simpa using h1)]
      exact ih
    · rw [if_neg h]
      by_cases h1 : r.key = k1
      · rw [List.find?_cons_of_pos _ (by simpa using h1),
          List.find?_cons_of_pos _ (by simpa using h1)]
      · rw [List.find?_cons_of_neg _ (by simpa using h1),
          List.find?_cons_of_neg _ (by simpa using h1)]
        exact ih

/-- A bucket added at the end does not change what is found for another key. -/
theorem find_append_other (t : List Reservation) (e : Reservation) {k1 : Key}
    (hk : e.key ≠ k1) : find (t ++ [e]) k1 = find t k1 := by
  unfold find
  rw [List.find?_append]
  have : List.find? (fun r => decide (r.key = k1)) [e] = none := by
    simp [hk]
  rw [this]
  simp

/-- A `jl_engine_reserve` call leaves the buckets of the other keys alone. -/
theorem reserve_find_other {s s1 : EngineState} {tid : Int} {m owner newci h : Ptr}
    (hr : jl_engine_reserve s tid m owner newci = some (s1, h)) {k1 : Key}
    (hk : k1 ≠ (m, owner)) : find s1.Reservations k1 = find s.Reservations k1 := by
  rcases (reserve_cases hr).2 with ⟨-, e, -⟩ | ⟨r, -, -, e, -⟩ | ⟨r, -, -, e, -⟩
  · rw [e]
    exact find_append_other _ _ (fun e1 => hk e1.symm)
  · rw [e]
  · rw [e]
    exact find_assign_other _ hk _ _

/-- A `jl_engine_reserve` call keeps the keys distinct. -/
theorem reserve_wf {s s1 : EngineState} {tid : Int} {m owner newci h : Ptr}
    (hr : jl_engine_reserve s tid m owner newci = some (s1, h)) (hw : wf s.Reservations) :
    wf s1.Reservations := by
  rcases (reserve_cases hr).2 with ⟨hf, e, -⟩ | ⟨r, -, -, e, -⟩ | ⟨r, -, -, e, -⟩
  · rw [e]
    unfold wf at hw ⊢
    rw [List.map_append, List.map_singleton]
    refine List.Nodup.append hw (List.nodup_singleton _) ?_
    rw [List.disjoint_singleton]
    intro hm
    obtain ⟨r, r1, r2⟩ := List.mem_map.1 hm
    exact (find_eq_none.1 hf) r r1 r2
  · rw [e]; exact hw
  · rw [e]
    unfold wf
    rw [assign_keys]
    exact hw

/-- A `jl_engine_reserve` call on a key whose bucket holds a code instance
returns it and leaves the table as it is. -/
theorem reserve_present {s s1 : EngineState} {tid : Int} {m owner newci h : Ptr}
    (hr : jl_engine_reserve s tid m owner newci = some (s1, h)) {r : Reservation}
    (hf : find s.Reservations (m, owner) = some r) (hn : r.second ≠ NULL) :
    s1.Reservations = s.Reservations ∧ h = r.second := by
  rcases (reserve_cases hr).2 with ⟨hf1, -, -⟩ | ⟨r1, hf1, -, e, e1⟩ | ⟨r1, hf1, hn1, -, -⟩
  · rw [hf] at hf1; cases hf1
  · rw [hf] at hf1
    cases hf1
    exact ⟨e, e1⟩
  · rw [hf] at hf1
    cases hf1
    exact absurd hn1 hn

/-- A `jl_engine_reserve` call on a key without a bucket adds the bucket of the
caller and the new code instance, and returns the new code instance. -/
theorem reserve_absent {s s1 : EngineState} {tid : Int} {m owner newci h : Ptr}
    (hr : jl_engine_reserve s tid m owner newci = some (s1, h))
    (hf : find s.Reservations (m, owner) = none) :
    s1.Reservations = s.Reservations ++ [⟨(m, owner), tid, newci⟩] ∧ h = newci ∧
    find s1.Reservations (m, owner) = some ⟨(m, owner), tid, newci⟩ := by
  rcases (reserve_cases hr).2 with ⟨-, e, e1⟩ | ⟨r1, hf1, -, -, -⟩ | ⟨r1, hf1, -, -, -⟩
  · refine ⟨e, e1, ?_⟩
    rw [e]
    unfold find at hf ⊢
    rw [List.find?_append, hf]
    simp
  · rw [hf] at hf1; cases hf1
  · rw [hf] at hf1; cases hf1

/-- A `jl_engine_reserve` call keeps every bucket that holds a code instance. -/
theorem reserve_mem {s s1 : EngineState} {tid : Int} {m owner newci h : Ptr}
    (hr : jl_engine_reserve s tid m owner newci = some (s1, h)) (hw : wf s.Reservations)
    {r : Reservation} (hm : r ∈ s.Reservations) (hn : r.second ≠ NULL) :
    r ∈ s1.Reservations := by
  rcases (reserve_cases hr).2 with ⟨-, e, -⟩ | ⟨r1, -, -, e, -⟩ | ⟨r1, hf1, hn1, e, -⟩
  · rw [e]; exact List.mem_append_left _ hm
  · rw [e]; exact hm
  · rw [e]
    have hne : r.key ≠ (m, owner) := by
      intro e1
      have := find_of_mem hw hm
      rw [e1, hf1] at this
      cases this
      exact hn hn1
    unfold assign
    exact List.mem_map.2 ⟨r, hm, by simp [hne]⟩

/-- A `jl_engine_fulfill` call that completes changes the lock only. -/
theorem fulfill_table {s s1 : EngineState} {tid : Int} {ci src : Ptr}
    (hf : jl_engine_fulfill s tid ci src = some s1) :
    s1.Reservations = s.Reservations ∧ s.engine_lock.unlock tid = some s1.engine_lock := by
  unfold jl_engine_fulfill at hf
  cases hl : s.engine_lock.unlock tid with
  | none => rw [hl] at hf; cases hf
  | some l =>
    rw [hl] at hf
    cases hf
    exact ⟨rfl, rfl⟩

/-! ## Sequences of calls -/

/-- A sequence of calls that completes: its first call and the rest. -/
theorem runEOps_cons {s s1 : EngineState} {op : EOp} {ops : List EOp} {log : List Call}
    (h : runEOps s (op :: ops) = some (s1, log)) :
    ∃ sm l1 l2, op.apply s = some (sm, l1) ∧ runEOps sm ops = some (s1, l2) ∧
      log = l1 ++ l2 := by
  simp only [runEOps] at h
  cases ha : op.apply s with
  | none => rw [ha] at h; cases h
  | some r =>
    rw [ha] at h
    simp only at h
    cases hb : runEOps r.1 ops with
    | none => rw [hb] at h; cases h
    | some rs =>
      rw [hb] at h
      cases h
      exact ⟨r.1, r.2, rs.2, rfl, hb, rfl⟩

/-- A call that completes is a `jl_engine_reserve` that completes, recorded, or a
`jl_engine_fulfill` that completes. -/
theorem apply_cases {s sm : EngineState} {op : EOp} {l1 : List Call}
    (h : op.apply s = some (sm, l1)) :
    (∃ tid m owner newci r, op = .reserve tid m owner newci ∧
      jl_engine_reserve s tid m owner newci = some (sm, r) ∧
      l1 = [⟨tid, (m, owner), newci, r,
        decide (sm.Reservations.length ≠ s.Reservations.length)⟩]) ∨
    (∃ tid ci src, op = .fulfill tid ci src ∧ jl_engine_fulfill s tid ci src = some sm ∧
      l1 = []) := by
  cases op with
  | reserve tid m owner newci =>
    left
    simp only [EOp.apply] at h
    cases hr : jl_engine_reserve s tid m owner newci with
    | none => rw [hr] at h; cases h
    | some r =>
      rw [hr] at h
      cases h
      exact ⟨tid, m, owner, newci, r.2, rfl, hr, rfl⟩
  | fulfill tid ci src =>
    right
    simp only [EOp.apply] at h
    cases hr : jl_engine_fulfill s tid ci src with
    | none => rw [hr] at h; cases h
    | some r =>
      rw [hr] at h
      cases h
      exact ⟨tid, ci, src, rfl, hr, rfl⟩

/-- Once a key has a bucket with a code instance, the bucket stays as it is and
every `jl_engine_reserve` call of the key returns its code instance, without
adding a bucket. -/
theorem run_present (k : Key) (r : Reservation) (ops : List EOp) :
    ∀ (s s1 : EngineState) (log : List Call), wf s.Reservations →
    find s.Reservations k = some r → r.second ≠ NULL → runEOps s ops = some (s1, log) →
    find s1.Reservations k = some r ∧ wf s1.Reservations ∧
    ∀ d ∈ log, d.key = k → d.result = r.second ∧ d.created = false := by
  induction ops with
  | nil =>
    intro s s1 log hw hf hn h
    simp only [runEOps, Option.some.injEq, Prod.mk.injEq] at h
    obtain ⟨rfl, rfl⟩ := h
    exact ⟨hf, hw, fun d hd => by cases hd⟩
  | cons op ops ih =>
    intro s s1 log hw hf hn h
    obtain ⟨sm, l1, l2, ha, hb, rfl⟩ := runEOps_cons h
    rcases apply_cases ha with ⟨tid, m, owner, newci, h0, -, hr, rfl⟩ | ⟨tid, ci, src, -, hr, rfl⟩
    · have hwm := reserve_wf hr hw
      by_cases hk : k = (m, owner)
      · subst hk
        obtain ⟨e1, e2⟩ := reserve_present hr hf hn
        obtain ⟨i1, i2, i3⟩ := ih sm s1 l2 hwm (by rw [e1]; exact hf) hn hb
        refine ⟨i1, i2, ?_⟩
        intro d hd hdk
        rcases List.mem_append.1 hd with hd | hd
        · rw [List.mem_singleton] at hd
          subst hd
          exact ⟨e2, by simp [e1]⟩
        · exact i3 d hd hdk
      · obtain ⟨i1, i2, i3⟩ := ih sm s1 l2 hwm (by rw [reserve_find_other hr hk]; exact hf)
          hn hb
        refine ⟨i1, i2, ?_⟩
        intro d hd hdk
        rcases List.mem_append.1 hd with hd | hd
        · rw [List.mem_singleton] at hd
          subst hd
          exact absurd hdk.symm hk
        · exact i3 d hd hdk
    · obtain ⟨e1, -⟩ := fulfill_table hr
      obtain ⟨i1, i2, i3⟩ := ih sm s1 l2 (by rw [e1]; exact hw) (by rw [e1]; exact hf) hn hb
      exact ⟨i1, i2, by simpa using i3⟩

/-- A bucket that holds a code instance stays in the table across every
sequence of `jl_engine_reserve` and `jl_engine_fulfill` calls. -/
theorem run_mem (r : Reservation) (ops : List EOp) :
    ∀ (s s1 : EngineState) (log : List Call), wf s.Reservations → r ∈ s.Reservations →
    r.second ≠ NULL → runEOps s ops = some (s1, log) → r ∈ s1.Reservations := by
  induction ops with
  | nil =>
    intro s s1 log hw hm hn h
    simp only [runEOps, Option.some.injEq, Prod.mk.injEq] at h
    obtain ⟨rfl, rfl⟩ := h
    exact hm
  | cons op ops ih =>
    intro s s1 log hw hm hn h
    obtain ⟨sm, l1, l2, ha, hb, rfl⟩ := runEOps_cons h
    rcases apply_cases ha with ⟨tid, m, owner, newci, h0, -, hr, -⟩ | ⟨tid, ci, src, -, hr, -⟩
    · exact ih sm s1 l2 (reserve_wf hr hw) (reserve_mem hr hw hm hn) hn hb
    · obtain ⟨e1, -⟩ := fulfill_table hr
      exact ih sm s1 l2 (by rw [e1]; exact hw) (by rw [e1]; exact hm) hn hb

/-! ## One producer per key -/

/-- C12: for every key `k` without a bucket, and every sequence of
`jl_engine_reserve` and `jl_engine_fulfill` calls that completes (each reserve
acquires the lock; no sweep) in which `c :: cs` are the `jl_engine_reserve`
calls of `k`, in order: the first call `c` adds the bucket and returns the code
instance it allocates, the later calls add no bucket and return the same code
instance, the table ends with exactly one bucket for `k`, which holds that code
instance and the thread id of the first caller, and when the callers are
pairwise distinct threads exactly one caller is the recorded thread. -/
theorem reserve_single_producer (s s1 : EngineState) (ops : List EOp) (k : Key)
    (log : List Call) (c : Call) (cs : List Call)
    (hw : wf s.Reservations) (habs : find s.Reservations k = none)
    (hnew : ∀ tid m owner newci, EOp.reserve tid m owner newci ∈ ops → newci ≠ NULL)
    (hrun : runEOps s ops = some (s1, log))
    (hcalls : log.filter (fun d => decide (d.key = k)) = c :: cs) :
    (c.created = true ∧ c.result = c.newci) ∧
    (∀ d ∈ cs, d.created = false ∧ d.result = c.result) ∧
    find s1.Reservations k = some ⟨k, c.tid, c.result⟩ ∧
    (s1.Reservations.filter (fun r => decide (r.key = k))).length = 1 ∧
    (((c :: cs).map Call.tid).Nodup →
      ((c :: cs).filter (fun d => decide (d.tid = c.tid))).length = 1) := by
  induction ops generalizing s log with
  | nil =>
    simp only [runEOps, Option.some.injEq, Prod.mk.injEq] at hrun
    obtain ⟨-, rfl⟩ := hrun
    simp at hcalls
  | cons op ops ih =>
    obtain ⟨sm, l1, l2, ha, hb, rfl⟩ := runEOps_cons hrun
    have hnew1 : ∀ tid m owner newci, EOp.reserve tid m owner newci ∈ ops → newci ≠ NULL :=
      fun tid m owner newci hm => hnew tid m owner newci (List.mem_cons_of_mem _ hm)
    rcases apply_cases ha with ⟨tid, m, owner, newci, h0, hop, hr, rfl⟩ | ⟨tid, ci, src, -, hr, rfl⟩
    · have hwm := reserve_wf hr hw
      by_cases hk : k = (m, owner)
      · subst hk
        obtain ⟨e1, e2, e3⟩ := reserve_absent hr habs
        have hn : newci ≠ NULL := hnew tid m owner newci (by rw [hop]; exact List.mem_cons_self _ _)
        rw [List.filter_append] at hcalls
        simp only [List.filter_cons, decide_True, if_true, List.filter_nil,
          List.singleton_append, List.cons.injEq] at hcalls
        obtain ⟨hc, hcs⟩ := hcalls
        subst hc
        obtain ⟨p1, p2, p3⟩ := run_present (m, owner) ⟨(m, owner), tid, newci⟩ ops sm s1 l2 hwm
          e3 hn hb
        refine ⟨⟨?_, e2⟩, ?_, ?_, count_key p2 p1, ?_⟩
        · simp [e1]
        · intro d hd
          rw [← hcs, List.mem_filter] at hd
          obtain ⟨q1, q2⟩ := p3 d hd.1 (by simpa using hd.2)
          exact ⟨q2, by rw [q1, e2]⟩
        · rw [e2]; exact p1
        · intro hnd
          rw [List.map_cons, List.nodup_cons] at hnd
          have : cs.filter (fun d => decide (d.tid = tid)) = [] := by
            rw [List.filter_eq_nil_iff]
            intro d hd
            simp only [decide_eq_true_eq]
            intro e
            exact hnd.1 (List.mem_map.2 ⟨d, hd, e⟩)
          simp [List.filter_cons, this]
      · have hf : find sm.Reservations k = none := by
          rw [reserve_find_other hr hk]; exact habs
        rw [List.filter_append] at hcalls
        have hne : ¬ (m, owner) = k := fun e => hk e.symm
        simp only [List.filter_cons, hne, decide_False, List.filter_nil, List.nil_append]
          at hcalls
        exact ih sm l2 hwm hf hnew1 hb (by simpa using hcalls)
    · obtain ⟨e1, -⟩ := fulfill_table hr
      rw [List.nil_append] at hcalls
      exact ih sm l2 (by rw [e1]; exact hw) (by rw [e1]; exact habs) hnew1 hb hcalls

/-- The calls `demoOps` from the initial state: the three reserve calls of the
key `(10, 20)`, by the threads 1, 1 and 2, return the code instance 100
allocated by the first one, and the table ends with the one bucket
`((10, 20), 1, 100)`. -/
theorem reserve_single_producer_witness :
    runEOps EngineState.init demoOps = some (demoFinal, demoLog) ∧
    find demoFinal.Reservations (10, 20) = some ⟨(10, 20), 1, 100⟩ ∧
    (demoFinal.Reservations.filter (fun r => decide (r.key = (10, 20)))).length = 1 :=
  ⟨by decide,
   (reserve_single_producer EngineState.init demoFinal demoOps (10, 20) demoLog
      ⟨1, (10, 20), 100, 100, true⟩
      [⟨1, (10, 20), 101, 100, false⟩, ⟨2, (10, 20), 200, 100, false⟩]
      (by simp [wf, EngineState.init]) (by decide)
      (by
        intro tid m owner newci hm
        simp only [demoOps, List.mem_cons, EOp.reserve.injEq, reduceCtorEq, or_false,
          false_or, List.not_mem_nil] at hm
        rcases hm with ⟨-, -, -, rfl⟩ | ⟨-, -, -, rfl⟩ | ⟨-, -, -, rfl⟩ <;> decide)
      (by decide) (by decide)).2.2.1,
   (reserve_single_producer EngineState.init demoFinal demoOps (10, 20) demoLog
      ⟨1, (10, 20), 100, 100, true⟩
      [⟨1, (10, 20), 101, 100, false⟩, ⟨2, (10, 20), 200, 100, false⟩]
      (by simp [wf, EngineState.init]) (by decide)
      (by
        intro tid m owner newci hm
        simp only [demoOps, List.mem_cons, EOp.reserve.injEq, reduceCtorEq, or_false,
          false_or, List.not_mem_nil] at hm
        rcases hm with ⟨-, -, -, rfl⟩ | ⟨-, -, -, rfl⟩ | ⟨-, -, -, rfl⟩ <;> decide)
      (by decide) (by decide)).2.2.2.1⟩

/-! ## The sweep -/

/-- C13: for every table and every set `S` of marked code instances (`S h`
holds exactly when the header bits of `h` have the bit `GC_MARKED`), after
`jl_engine_sweep` the table holds exactly the buckets whose code instance is in
`S`, each as it was (same key, thread id and code instance), in the same order
and none twice; the lock is untouched. -/
theorem sweep_keeps_marked (s : EngineState) (gc : Ptr → Nat) (GC_MARKED : Nat)
    (S : Ptr → Prop) (hS : ∀ h, S h ↔ (gc h &&& GC_MARKED) ≠ 0) :
    (∀ r, r ∈ (jl_engine_sweep s gc GC_MARKED).Reservations ↔
      r ∈ s.Reservations ∧ S r.second) ∧
    (jl_engine_sweep s gc GC_MARKED).Reservations.Sublist s.Reservations ∧
    (jl_engine_sweep s gc GC_MARKED).engine_lock = s.engine_lock := by
  refine ⟨?_, List.filter_sublist _, rfl⟩
  intro r
  simp only [jl_engine_sweep, List.mem_filter, gc_marked, bne_iff_ne, hS]

/-- The table `demoTable` with the objects 100 and 102 marked: the bucket of
101 is removed, the two others stay. -/
theorem sweep_keeps_marked_witness :
    (jl_engine_sweep ⟨⟨none, 0⟩, demoTable⟩ demoBits 1).Reservations
      = [⟨(10, 20), 1, 100⟩, ⟨(12, 20), 1, 102⟩] ∧
    ((⟨(11, 20), 2, 101⟩ : Reservation) ∈
        (jl_engine_sweep ⟨⟨none, 0⟩, demoTable⟩ demoBits 1).Reservations ↔
      (⟨(11, 20), 2, 101⟩ : Reservation) ∈ demoTable ∧ (demoBits 101 &&& 1) ≠ 0) :=
  ⟨by decide,
   (sweep_keeps_marked ⟨⟨none, 0⟩, demoTable⟩ demoBits 1
      (fun h => (demoBits h &&& 1) ≠ 0) (fun _ => Iff.rfl)).1 ⟨(11, 20), 2, 101⟩⟩

/-- C14: `jl_engine_sweep` is idempotent: with the same marks, a second sweep
leaves the state exactly as the first one left it. -/
theorem sweep_idempotent (s : EngineState) (gc : Ptr → Nat) (GC_MARKED : Nat) :
    jl_engine_sweep (jl_engine_sweep s gc GC_MARKED) gc GC_MARKED
      = jl_engine_sweep s gc GC_MARKED := by
  simp [jl_engine_sweep, List.filter_filter]

/-! ## The lock -/

/-- A `lock()` that completes gives the thread one more level of ownership. -/
theorem lock_held {m l : RecursiveMutex} {tid : Int} (h : m.lock tid = some l) :
    l.owner = some tid ∧ l.held tid = m.held tid + 1 := by
  unfold RecursiveMutex.lock at h
  unfold RecursiveMutex.held
  cases ho : m.owner with
  | none =>
    rw [ho] at h
    cases h
    simp
  | some o =>
    rw [ho] at h
    dsimp only at h
    by_cases e : o = tid
    · rw [if_pos e] at h
      cases h
      simp [e]
    · rw [if_neg e] at h
      cases h

/-- A `lock()` completes when the mutex is free or owned by the caller. -/
theorem lock_isSome {m : RecursiveMutex} {tid : Int}
    (h : m.owner = none ∨ m.owner = some tid) : (m.lock tid).isSome := by
  unfold RecursiveMutex.lock
  rcases h with h | h <;> simp [h]

/-- An `unlock()` that completes takes one level of ownership from the thread,
which still owns the mutex unless it is free. -/
theorem unlock_held {m l : RecursiveMutex} {tid : Int} (h : m.unlock tid = some l) :
    l.held tid + 1 = m.held tid ∧ (l.owner = none ∨ l.owner = some tid) := by
  unfold RecursiveMutex.unlock at h
  unfold RecursiveMutex.held
  cases ho : m.owner with
  | none => rw [ho] at h; cases h
  | some o =>
    cases hc : m.count with
    | zero => rw [ho, hc] at h; cases h
    | succ n =>
      rw [ho, hc] at h
      simp only at h
      by_cases e : o = tid
      · rw [if_pos e] at h
        by_cases hn : n = 0
        · rw [if_pos hn] at h
          cases h
          simp [e, hn]
        · rw [if_neg hn] at h
          cases h
          simp [e]
      · rw [if_neg e] at h
        cases h

/-- An `unlock()` completes when the caller holds a level of ownership. -/
theorem unlock_isSome {m : RecursiveMutex} {tid : Int} (h : 1 ≤ m.held tid) :
    (m.unlock tid).isSome := by
  unfold RecursiveMutex.held at h
  unfold RecursiveMutex.unlock
  by_cases ho : m.owner = some tid
  · rw [if_pos ho] at h
    cases hc : m.count with
    | zero => omega
    | succ n =>
      rw [ho]
      by_cases hn : n = 0 <;> simp [hn]
  · rw [if_neg ho] at h
    omega

/-- A `jl_engine_reserve` call completes when the lock is free or owned by the
caller. -/
theorem reserve_isSome (s : EngineState) (tid : Int) (m owner newci : Ptr)
    (h : s.engine_lock.owner = none ∨ s.engine_lock.owner = some tid) :
    (jl_engine_reserve s tid m owner newci).isSome := by
  have := lock_isSome h
  unfold jl_engine_reserve
  cases hl : s.engine_lock.lock tid with
  | none => rw [hl] at this; cases this
  | some l =>
    simp only
    split <;> rfl

/-- The levels of ownership of a thread after its own calls: one more for each
reserve, one less for each fulfill. -/
theorem run_held (tid : Int) (ops : List EOp) : ∀ (s s1 : EngineState) (log : List Call),
    (∀ op ∈ ops, op.tid = tid) → runEOps s ops = some (s1, log) →
    s1.engine_lock.held tid + fulfills ops = s.engine_lock.held tid + reserves ops := by
  induction ops with
  | nil =>
    intro s s1 log _ h
    simp only [runEOps, Option.some.injEq, Prod.mk.injEq] at h
    obtain ⟨rfl, -⟩ := h
    simp [fulfills, reserves]
  | cons op ops ih =>
    intro s s1 log ht h
    obtain ⟨sm, l1, l2, ha, hb, -⟩ := runEOps_cons h
    have i1 := ih sm s1 l2 (fun o ho => ht o (List.mem_cons_of_mem _ ho)) hb
    have ht0 := ht op (List.mem_cons_self _ _)
    rcases apply_cases ha with ⟨t, m, owner, newci, h0, rfl, hr, -⟩ | ⟨t, ci, src, rfl, hr, -⟩
    · simp only [EOp.tid] at ht0
      subst ht0
      have := (lock_held (reserve_cases hr).1).2
      simp only [fulfills, reserves, List.filter_cons, if_true, List.length_cons] at i1 ⊢
      simp only [Bool.false_eq_true, if_false]
      omega
    · simp only [EOp.tid] at ht0
      subst ht0
      have := (unlock_held (fulfill_table hr).2).1
      simp only [fulfills, reserves, List.filter_cons, if_true, List.length_cons] at i1 ⊢
      simp only [Bool.false_eq_true, if_false]
      omega

/-- The calls of one thread complete when no fulfill comes without a level of
ownership to give back. -/
theorem run_isSome (tid : Int) (ops : List EOp) : ∀ s : EngineState,
    (∀ op ∈ ops, op.tid = tid) →
    (s.engine_lock.owner = none ∨ s.engine_lock.owner = some tid) →
    (∀ n, fulfills (ops.take n) ≤ s.engine_lock.held tid + reserves (ops.take n)) →
    (runEOps s ops).isSome := by
  induction ops with
  | nil => intro s _ _ _; rfl
  | cons op ops ih =>
    intro s ht ho hb
    have ht0 := ht op (List.mem_cons_self _ _)
    cases op with
    | reserve t m owner newci =>
      simp only [EOp.tid] at ht0
      subst ht0
      have h1 := reserve_isSome s t m owner newci ho
      cases hr : jl_engine_reserve s t m owner newci with
      | none => rw [hr] at h1; cases h1
      | some r =>
        have hl := lock_held (@reserve_cases s r.1 t m owner newci r.2 hr).1
        have i1 := ih r.1 (fun o ho => ht o (List.mem_cons_of_mem _ ho)) (Or.inr hl.1) (by
          intro n
          have := hb (n + 1)
          simp only [List.take_succ_cons, fulfills, reserves, List.filter_cons, if_true,
            List.length_cons, Bool.false_eq_true, if_false] at this
          simp only [fulfills, reserves]
          omega)
        simp only [runEOps, EOp.apply, hr]
        cases hrun : runEOps r.1 ops with
        | none => rw [hrun] at i1; cases i1
        | some rs => rfl
    | fulfill t ci src =>
      simp only [EOp.tid] at ht0
      subst ht0
      have h0 := hb 1
      simp only [List.take_succ_cons, List.take_zero, fulfills, reserves, List.filter_cons,
        if_true, List.length_cons, Bool.false_eq_true, if_false, List.filter_nil,
        List.length_nil] at h0
      have h1 := @unlock_isSome s.engine_lock t (by omega)
      cases hu : s.engine_lock.unlock t with
      | none => rw [hu] at h1; cases h1
      | some l =>
        have hl := unlock_held hu
        have i1 := ih { s with engine_lock := l }
          (fun o ho => ht o (List.mem_cons_of_mem _ ho)) hl.2 (by
          intro n
          have := hb (n + 1)
          simp only [List.take_succ_cons, fulfills, reserves, List.filter_cons, if_true,
            List.length_cons, Bool.false_eq_true, if_false] at this
          simp only [fulfills, reserves]
          show _ ≤ l.held t + _
          omega)
        simp only [runEOps, EOp.apply, jl_engine_fulfill, hu]
        cases hrun : runEOps { s with engine_lock := l } ops with
        | none => rw [hrun] at i1; cases i1
        | some rs => rfl

/-- C15: every `jl_engine_reserve` call that returns, whether it adds the bucket
or finds one, leaves the lock owned by the caller with one more level of
ownership than at entry (and it returns whenever the lock is free or owned by
the caller); `jl_engine_fulfill` takes exactly one level of ownership from the
caller and changes nothing else (the table is as it was), whatever its two
arguments, and it completes whenever the caller holds a level.  Hence after the
`n` reserves and `m` fulfills of a sequence of calls of one thread the thread
holds `n - m` levels more than before, and such a sequence completes when no
fulfill comes without a level of ownership to give back. -/
theorem lock_hold_count (s : EngineState) (tid : Int) (m owner newci ci src : Ptr) :
    (∀ s1 h, jl_engine_reserve s tid m owner newci = some (s1, h) →
      s1.engine_lock.owner = some tid ∧
      s1.engine_lock.held tid = s.engine_lock.held tid + 1) ∧
    (s.engine_lock.owner = none ∨ s.engine_lock.owner = some tid →
      (jl_engine_reserve s tid m owner newci).isSome) ∧
    (∀ s1, jl_engine_fulfill s tid ci src = some s1 →
      s1.engine_lock.held tid + 1 = s.engine_lock.held tid ∧
      s1.Reservations = s.Reservations) ∧
    (1 ≤ s.engine_lock.held tid → (jl_engine_fulfill s tid ci src).isSome) ∧
    (∀ ci1 src1 : Ptr, jl_engine_fulfill s tid ci1 src1 = jl_engine_fulfill s tid ci src) ∧
    (∀ (ops : List EOp) (s1 : EngineState) (log : List Call),
      (∀ op ∈ ops, op.tid = tid) → runEOps s ops = some (s1, log) →
      fulfills ops ≤ s.engine_lock.held tid + reserves ops ∧
      s1.engine_lock.held tid = s.engine_lock.held tid + reserves ops - fulfills ops) ∧
    (∀ ops : List EOp, (∀ op ∈ ops, op.tid = tid) →
      (s.engine_lock.owner = none ∨ s.engine_lock.owner = some tid) →
      (∀ n, fulfills (ops.take n) ≤ s.engine_lock.held tid + reserves (ops.take n)) →
      (runEOps s ops).isSome) := by
  refine ⟨?_, reserve_isSome s tid m owner newci, ?_, ?_, fun _ _ => rfl, ?_,
    fun ops => run_isSome tid ops s⟩
  · intro s1 h hr
    exact lock_held (reserve_cases hr).1
  · intro s1 hf
    obtain ⟨e1, e2⟩ := fulfill_table hf
    exact ⟨(unlock_held e2).1, e1⟩
  · intro h
    have := unlock_isSome h
    unfold jl_engine_fulfill
    cases hu : s.engine_lock.unlock tid with
    | none => rw [hu] at this; cases this
    | some l => rfl
  · intro ops s1 log ht hrun
    have := run_held tid ops s s1 log ht hrun
    omega

/-- Thread 1, from the initial state: after two reserves it holds two levels,
after one fulfill one level, after the second fulfill the lock is free. -/
theorem lock_hold_count_witness :
    (runEOps EngineState.init [.reserve 1 10 20 100, .reserve 1 10 20 101]).map
      (fun r => r.1.engine_lock) = some ⟨some 1, 2⟩ ∧
    (runEOps EngineState.init
      [.reserve 1 10 20 100, .reserve 1 10 20 101, .fulfill 1 100 0]).map
      (fun r => r.1.engine_lock) = some ⟨some 1, 1⟩ ∧
    (runEOps EngineState.init
      [.reserve 1 10 20 100, .reserve 1 10 20 101, .fulfill 1 100 0, .fulfill 1 100 0]
      ).isSome ∧
    (jl_engine_reserve EngineState.init 1 10 20 100).isSome :=
  ⟨by decide, by decide,
   (lock_hold_count EngineState.init 1 10 20 100 100 0).2.2.2.2.2.2
      [.reserve 1 10 20 100, .reserve 1 10 20 101, .fulfill 1 100 0, .fulfill 1 100 0]
      (by decide) (Or.inl rfl) (by
        intro n
        rcases n with _ | _ | _ | _ | _ | n
        · decide
        · decide
        · decide
        · decide
        · decide
        · simp only [List.take_succ_cons, List.take_nil]
          decide),
   (lock_hold_count EngineState.init 1 10 20 100 100 0).2.1 (Or.inl rfl)⟩

/-! ## Buckets stay until a sweep -/

/-- C16: a `jl_engine_reserve` call of the key `(m, owner)` leaves what the
table holds for every other key unchanged, keeps every bucket of another key,
keeps a bucket for every key that had one, and never shortens the table;
`jl_engine_fulfill` leaves the table as it is; so a bucket that holds a code
instance, in particular the one a reserve call has just added, stays in the
table, with the same thread id and code instance, across every sequence of
reserve and fulfill calls. -/
theorem buckets_persist (s : EngineState) (tid : Int) (m owner newci ci src : Ptr) :
    (∀ s1 h, jl_engine_reserve s tid m owner newci = some (s1, h) →
      (∀ k1, k1 ≠ (m, owner) → find s1.Reservations k1 = find s.Reservations k1) ∧
      (∀ r ∈ s.Reservations, r.key ≠ (m, owner) → r ∈ s1.Reservations) ∧
      (∀ r ∈ s.Reservations, ∃ r1 ∈ s1.Reservations, r1.key = r.key) ∧
      s.Reservations.length ≤ s1.Reservations.length) ∧
    (∀ s1, jl_engine_fulfill s tid ci src = some s1 → s1.Reservations = s.Reservations) ∧
    (∀ (ops : List EOp) (s1 : EngineState) (log : List Call) (r : Reservation),
      wf s.Reservations → r ∈ s.Reservations → r.second ≠ NULL →
      runEOps s ops = some (s1, log) → r ∈ s1.Reservations) ∧
    (∀ (sm : EngineState) (h : Ptr) (ops : List EOp) (s1 : EngineState) (log : List Call),
      wf s.Reservations → find s.Reservations (m, owner) = none → newci ≠ NULL →
      jl_engine_reserve s tid m owner newci = some (sm, h) →
      runEOps sm ops = some (s1, log) →
      (⟨(m, owner), tid, newci⟩ : Reservation) ∈ s1.Reservations) := by
  refine ⟨?_, ?_, ?_, ?_⟩
  · intro s1 h hr
    refine ⟨fun k1 hk => reserve_find_other hr hk, ?_, ?_, ?_⟩
    · intro r hm hk
      rcases (reserve_cases hr).2 with ⟨-, e, -⟩ | ⟨r1, -, -, e, -⟩ | ⟨r1, -, -, e, -⟩
      · rw [e]; exact List.mem_append_left _ hm
      · rw [e]; exact hm
      · rw [e]
        unfold assign
        exact List.mem_map.2 ⟨r, hm, by simp [hk]⟩
    · intro r hm
      rcases (reserve_cases hr).2 with ⟨-, e, -⟩ | ⟨r1, -, -, e, -⟩ | ⟨r1, -, -, e, -⟩
      · exact ⟨r, by rw [e]; exact List.mem_append_left _ hm, rfl⟩
      · exact ⟨r, by rw [e]; exact hm, rfl⟩
      · have hk : r.key ∈ (assign s.Reservations (m, owner) tid newci).map Reservation.key := by
          rw [assign_keys]
          exact List.mem_map_of_mem _ hm
        obtain ⟨r1, a1, a2⟩ := List.mem_map.1 hk
        exact ⟨r1, by rw [e]; exact a1, a2⟩
    · rcases (reserve_cases hr).2 with ⟨-, e, -⟩ | ⟨r1, -, -, e, -⟩ | ⟨r1, -, -, e, -⟩
      · rw [e]; simp
      · rw [e]
      · rw [e]; simp [assign]
  · intro s1 hf
    exact (fulfill_table hf).1
  · intro ops s1 log r hw hm hn hrun
    exact run_mem r ops s s1 log hw hm hn hrun
  · intro sm h ops s1 log hw habs hn hr hrun
    obtain ⟨e1, -, -⟩ := reserve_absent hr habs
    exact run_mem _ ops sm s1 log (reserve_wf hr hw) (by rw [e1]; simp) hn hrun

/-- The calls `demoOps` from the initial state: the bucket added by the first
reserve is still in the table at the end. -/
theorem buckets_persist_witness :
    runEOps EngineState.init demoOps = some (demoFinal, demoLog) ∧
    (⟨(10, 20), 1, 100⟩ : Reservation) ∈ demoFinal.Reservations :=
  ⟨by decide,
   (buckets_persist EngineState.init 1 10 20 100 100 0).2.2.2
      ⟨⟨some 1, 1⟩, [⟨(10, 20), 1, 100⟩]⟩ 100 demoOps.tail demoFinal demoLog.tail
      (by simp [wf, EngineState.init]) (by decide) (by decide) (by decide) (by decide)⟩

end Engine

